import Mathlib

/-!
A self-organising doubly linked list (`linkedlist.h`).

Shallow embedding of `LinkedList<T>`: the nodes live in an explicit heap that
is passed through every operation, pointers are optional addresses (`none` is
`nullptr`), and an operation returns `none` when the C++ code would dereference
a null or dangling pointer, or when a loop runs out of the fuel it was given.
-/

/-- Largest value of the `unsigned int` field `access_` (32 bits wide). -/
def UINT_MAX : Nat := 4294967295

/-- Largest value of `int` (32 bits wide), the return type of `size()`. -/
def INT_MAX : Nat := 2147483647

/-- A `Node*`: `none` is `nullptr`, `some a` the address `a`. -/
abbrev Ptr := Option Nat

/-- `struct Node`: the stored value, the access counter and the two links. -/
structure Node (T : Type) where
  data_ : T
  access_ : Nat
  next_ : Ptr
  prev_ : Ptr

/-- The constructor `Node(d, next, prev)`: the access counter starts at 0. -/
def Node.new {T : Type} (d : T) (next prev : Ptr) : Node T :=
  { data_ := d, access_ := 0, next_ := next, prev_ := prev }

/-- The free store: the node stored at each address (`none` when nothing is
allocated there) and the address the next `new` returns. -/
structure Heap (T : Type) where
  cells : Nat → Option (Node T)
  fresh : Nat

/-- The data members of `LinkedList<T>`: the two sentinel pointers and the
stored element count. The count of live nodes is bounded by the address space,
so the `size_t` member never overflows and its arithmetic is done on `Nat`; the
narrowing to `int` happens in `size()`. -/
structure LinkedList where
  head_ : Nat
  tail_ : Nat
  size_ : Nat
deriving DecidableEq

/-- The class `const_iterator` (and `iterator`, which adds no data): the node
referred to. The member `theList` is never read by any operation and is left
out. -/
structure const_iterator where
  current : Ptr
deriving DecidableEq

/-- The class `iterator` has the representation of `const_iterator`. -/
abbrev iterator := const_iterator

namespace Heap

variable {T : Type}

/-- A heap with nothing allocated. -/
def empty : Heap T := { cells := fun _ => none, fresh := 0 }

/-- Overwrite the node stored at address `a`. -/
def store (h : Heap T) (a : Nat) (n : Node T) : Heap T :=
  { cells := fun b => if b = a then some n else h.cells b, fresh := h.fresh }

/-- The expression `new Node(...)`: the node is placed at the fresh address. -/
def alloc (h : Heap T) (n : Node T) : Heap T × Nat :=
  ({ cells := fun b => if b = h.fresh then some n else h.cells b, fresh := h.fresh + 1 }, h.fresh)

/-- The statement `delete p`: nothing for `nullptr`, a fault when nothing is
allocated at `p`. -/
def delete (h : Heap T) (p : Ptr) : Option (Heap T) :=
  match p with
  | none => some h
  | some a =>
    match h.cells a with
    | none => none
    | some _ => some { cells := fun b => if b = a then none else h.cells b, fresh := h.fresh }

/-- The node `*p`; `none` when `p` is null or dangling. -/
def deref (h : Heap T) (p : Ptr) : Option (Node T) :=
  match p with
  | none => none
  | some a => h.cells a

/-- The expression `p->next_`. -/
def getNext (h : Heap T) (p : Ptr) : Option Ptr := (h.deref p).map (fun n => n.next_)

/-- The expression `p->prev_`. -/
def getPrev (h : Heap T) (p : Ptr) : Option Ptr := (h.deref p).map (fun n => n.prev_)

/-- The expression `p->data_`. -/
def getData (h : Heap T) (p : Ptr) : Option T := (h.deref p).map (fun n => n.data_)

/-- The expression `p->access_`. -/
def getAccess (h : Heap T) (p : Ptr) : Option Nat := (h.deref p).map (fun n => n.access_)

/-- The assignment `p->next_ = v`. -/
def setNext (h : Heap T) (p : Ptr) (v : Ptr) : Option (Heap T) :=
  match p with
  | none => none
  | some a =>
    match h.cells a with
    | none => none
    | some n => some (h.store a { n with next_ := v })

/-- The assignment `p->prev_ = v`. -/
def setPrev (h : Heap T) (p : Ptr) (v : Ptr) : Option (Heap T) :=
  match p with
  | none => none
  | some a =>
    match h.cells a with
    | none => none
    | some n => some (h.store a { n with prev_ := v })

/-- The assignment `p->access_ = c`. -/
def setAccess (h : Heap T) (p : Ptr) (c : Nat) : Option (Heap T) :=
  match p with
  | none => none
  | some a =>
    match h.cells a with
    | none => none
    | some n => some (h.store a { n with access_ := c })

/-- The assignment `p->data_ = d` (writing through `*it` of a mutable iterator). -/
def setData (h : Heap T) (p : Ptr) (d : T) : Option (Heap T) :=
  match p with
  | none => none
  | some a =>
    match h.cells a with
    | none => none
    | some n => some (h.store a { n with data_ := d })

/-- The statement `p->access_++` on an `unsigned int`: the increment wraps
around at `UINT_MAX`. -/
def incAccess (h : Heap T) (p : Ptr) : Option (Heap T) :=
  match h.getAccess p with
  | none => none
  | some c => h.setAccess p ((c + 1) % (UINT_MAX + 1))

end Heap

namespace const_iterator

variable {T : Type}

/-- The prefix `operator++`: move to `next_` unless it is null. -/
def inc (h : Heap T) (it : const_iterator) : Option const_iterator :=
  match h.getNext it.current with
  | none => none
  | some nx => if nx ≠ none then some { current := nx } else some it

/-- The prefix `operator--`: move to `prev_` unless it is null. -/
def dec (h : Heap T) (it : const_iterator) : Option const_iterator :=
  match h.getPrev it.current with
  | none => none
  | some pv => if pv ≠ none then some { current := pv } else some it

/-- The `operator*`: the value stored in the node referred to. -/
def star (h : Heap T) (it : const_iterator) : Option T := h.getData it.current

/-- Applying the prefix `operator++` `n` times. -/
def advance (h : Heap T) : Nat → const_iterator → Option const_iterator
  | 0, it => some it
  | n + 1, it =>
    match it.inc h with
    | none => none
    | some it1 => advance h n it1

/-- Applying the prefix `operator--` `n` times. -/
def retreat (h : Heap T) : Nat → const_iterator → Option const_iterator
  | 0, it => some it
  | n + 1, it =>
    match it.dec h with
    | none => none
    | some it1 => retreat h n it1

end const_iterator

namespace LinkedList

variable {T : Type}

/-- The function `init()` run by the constructors: two sentinels are
allocated and linked to each other, and the count is 0. -/
def init [Inhabited T] (h : Heap T) : Option (Heap T × LinkedList) :=
  let r1 := h.alloc (Node.new default none none)
  let r2 := r1.1.alloc (Node.new default none none)
  match r2.1.setNext (some r1.2) (some r2.2) with
  | none => none
  | some h3 =>
    match h3.setPrev (some r2.2) (some r1.2) with
    | none => none
    | some h4 => some (h4, { head_ := r1.2, tail_ := r2.2, size_ := 0 })

/-- The functions `begin()` and `cbegin()`: an iterator at `head_->next_`. -/
def begin (h : Heap T) (l : LinkedList) : Option iterator :=
  match h.getNext (some l.head_) with
  | none => none
  | some nx => some { current := nx }

/-- The functions `end()` and `cend()`: an iterator at `tail_`. -/
def end_ (l : LinkedList) : iterator := { current := some l.tail_ }

/-- The function `empty()`: whether `head_->next_ == tail_`. -/
def empty (h : Heap T) (l : LinkedList) : Option Bool :=
  match h.getNext (some l.head_) with
  | none => none
  | some nx => some (decide (nx = some l.tail_))

/-- The conversion of a `size_t` value to `int` that `return size_;` performs
in `size()`: the value modulo 2^32, read as a two's complement number. Every
count up to `INT_MAX` keeps its value, the counts above it do not. -/
def intOfSize (n : Nat) : Int :=
  if n % 4294967296 ≤ INT_MAX then ((n % 4294967296 : Nat) : Int)
  else ((n % 4294967296 : Nat) : Int) - 4294967296

/-- The function `int size()`: the stored count, converted to `int`. -/
def size (l : LinkedList) : Int := intOfSize l.size_

/-- The function `insert(data)`: a new node is linked in before `tail_`. -/
def insert (h : Heap T) (l : LinkedList) (data : T) : Option (Heap T × LinkedList) :=
  match h.getPrev (some l.tail_) with
  | none => none
  | some tp =>
    let r := h.alloc (Node.new data (some l.tail_) tp)
    let newNode : Ptr := some r.2
    match r.1.getPrev (some l.tail_) with
    | none => none
    | some tp1 =>
      match r.1.setNext tp1 newNode with
      | none => none
      | some h2 =>
        match h2.setPrev (some l.tail_) newNode with
        | none => none
        | some h3 => some (h3, { l with size_ := l.size_ + 1 })

/-- Lines 337 to 344 of `search`: unlink `dataIndex` and relink it before
`newIndex`, one pointer assignment after the other. -/
def relink (h : Heap T) (dataIndex newIndex : Ptr) : Option (Heap T) := do
  -- dataIndex->prev_->next_ = dataIndex->next_;
  let p1 ← h.getPrev dataIndex
  let n1 ← h.getNext dataIndex
  let h1 ← h.setNext p1 n1
  -- dataIndex->next_->prev_ = dataIndex->prev_;
  let n2 ← h1.getNext dataIndex
  let p2 ← h1.getPrev dataIndex
  let h2 ← h1.setPrev n2 p2
  -- dataIndex->next_ = newIndex;
  let h3 ← h2.setNext dataIndex newIndex
  -- dataIndex->prev_ = newIndex->prev_;
  let p4 ← h3.getPrev newIndex
  let h4 ← h3.setPrev dataIndex p4
  -- newIndex->prev_->next_ = dataIndex;
  let p5 ← h4.getPrev newIndex
  let h5 ← h4.setNext p5 dataIndex
  -- newIndex->prev_ = dataIndex;
  h5.setPrev newIndex dataIndex

/-- The inner loop of `search` (`for (iterator change = begin(); change != itEnd; change++)`).
The result `some none` means the loop ended without returning. -/
def searchChange (itEnd it : iterator) :
    Nat → Heap T → iterator → Option (Option (Heap T × iterator))
  | 0, _, change => if change ≠ itEnd then none else some none
  | fuel + 1, h, change =>
    if change ≠ itEnd then
      match h.getAccess it.current, h.getAccess change.current with
      | some a, some c =>
        if a ≥ c then
          let newIndex := change.current
          if it = change then some (some (h, it))
          else
            match relink h it.current newIndex with
            | none => none
            | some h1 => some (some (h1, { current := it.current }))
        else
          match change.inc h with
          | none => none
          | some change1 => searchChange itEnd it fuel h change1
      | _, _ => none
    else some none

/-- The outer loop of `search` (`for (it; it != itEnd; it++)`); `fuelIn` is the
fuel handed to each run of the inner loop. -/
def searchLoop [DecidableEq T] (l : LinkedList) (data : T) (itEnd : iterator) (fuelIn : Nat) :
    Nat → Heap T → iterator → Option (Heap T × iterator)
  | 0, h, it => if it ≠ itEnd then none else some (h, l.end_)
  | fuel + 1, h, it =>
    if it ≠ itEnd then
      match it.star h with
      | none => none
      | some v =>
        if v = data then
          match h.incAccess it.current with
          | none => none
          | some h1 =>
            match begin h1 l with
            | none => none
            | some change =>
              match searchChange itEnd it fuelIn h1 change with
              | none => none
              | some (some r) => some r
              | some none =>
                match it.inc h1 with
                | none => none
                | some it1 => searchLoop l data itEnd fuelIn fuel h1 it1
        else
          match it.inc h with
          | none => none
          | some it1 => searchLoop l data itEnd fuelIn fuel h it1
    else some (h, l.end_)

/-- The function `search(data)`; each loop may run its body `fuel` times. -/
def search [DecidableEq T] (fuel : Nat) (h : Heap T) (l : LinkedList) (data : T) :
    Option (Heap T × iterator) :=
  match begin h l with
  | none => none
  | some it => searchLoop l data l.end_ fuel fuel h it

/-- The function `erase(it)`: the node is unlinked and deleted, the count
drops by one and the iterator returned is at the node that followed. -/
def erase (h : Heap T) (l : LinkedList) (it : iterator) :
    Option (Heap T × LinkedList × iterator) := do
  let temp := it.current
  -- iterator val(temp->next_, this);
  let nx ← h.getNext temp
  let val : iterator := { current := nx }
  -- temp->prev_->next_ = temp->next_;
  let p1 ← h.getPrev temp
  let n1 ← h.getNext temp
  let h1 ← h.setNext p1 n1
  -- temp->next_->prev_ = temp->prev_;
  let n2 ← h1.getNext temp
  let p2 ← h1.getPrev temp
  let h2 ← h1.setPrev n2 p2
  -- delete temp; size_--;
  let h3 ← h2.delete temp
  pure (h3, { l with size_ := l.size_ - 1 }, val)

/-- The function `erase(first, last)`: the loop `for (start = first; start != last;) start = erase(start)`,
whose body may run `fuel` times. -/
def eraseRange : Nat → Heap T → LinkedList → iterator → iterator →
    Option (Heap T × LinkedList × iterator)
  | 0, h, l, start, last => if start ≠ last then none else some (h, l, last)
  | fuel + 1, h, l, start, last =>
    if start ≠ last then
      match erase h l start with
      | none => none
      | some (h1, l1, start1) => eraseRange fuel h1 l1 start1 last
    else some (h, l, last)

/-- The loop of the copy assignment operator,
`for (it = rhs.cbegin(); it != rhs.cend(); it++)`: each source node is
inserted into this list and its access counter is copied onto the node just
appended (`tail_->prev_`). The body may run `fuel` times. -/
def copyLoop (rhsEnd : const_iterator) :
    Nat → Heap T → LinkedList → const_iterator → Option (Heap T × LinkedList)
  | 0, h, l, it => if it ≠ rhsEnd then none else some (h, l)
  | fuel + 1, h, l, it =>
    if it ≠ rhsEnd then
      match h.getData it.current with
      | none => none
      | some d =>
        match insert h l d with
        | none => none
        | some (h1, l1) =>
          match h1.getPrev (some l1.tail_), h1.getAccess it.current with
          | some tp, some c =>
            match h1.setAccess tp c with
            | none => none
            | some h2 =>
              match it.inc h2 with
              | none => none
              | some it1 => copyLoop rhsEnd fuel h2 l1 it1
          | _, _ => none
    else some (h, l)

/-- The copy assignment `operator=(const LinkedList& rhs)`. The objects
`*this` and `rhs` are given with their addresses `thisAddr` and `rhsAddr`, which
the test `this != &rhs` compares. Each loop may run its body `fuel` times. -/
def copyAssign (fuel : Nat) (h : Heap T) (thisAddr : Nat) (l : LinkedList)
    (rhsAddr : Nat) (rhs : LinkedList) : Option (Heap T × LinkedList) :=
  if thisAddr ≠ rhsAddr then
    match begin h l with
    | none => none
    | some b =>
      match eraseRange fuel h l b l.end_ with
      | none => none
      | some (h1, l1, _) =>
        match empty h1 rhs with
        | none => none
        | some e =>
          if !e then
            match begin h1 rhs with
            | none => none
            | some it =>
              match copyLoop rhs.end_ fuel h1 l1 it with
              | none => none
              | some (h2, l2) => some (h2, { l2 with size_ := rhs.size_ })
          else some (h1, l1)
  else some (h, l)

/-- The copy constructor `LinkedList(const LinkedList& rhs)`: `init()`, then
the copy assignment `*this = rhs`. -/
def copyConstruct [Inhabited T] (fuel : Nat) (h : Heap T) (thisAddr rhsAddr : Nat)
    (rhs : LinkedList) : Option (Heap T × LinkedList) :=
  match init h with
  | none => none
  | some (h1, l) => copyAssign fuel h1 thisAddr l rhsAddr rhs

/-- The move assignment `operator=(LinkedList&& rhs)`: unless `this == &rhs`,
the three calls of `std::swap` exchange `head_`, `tail_` and `size_` of the two
objects. No node is touched. The result is `*this` and `rhs` afterwards. -/
def moveAssign (thisAddr : Nat) (l : LinkedList) (rhsAddr : Nat) (rhs : LinkedList) :
    LinkedList × LinkedList :=
  if thisAddr ≠ rhsAddr then
    -- std::swap(rhs.head_, this->head_);
    let r1 : LinkedList := { rhs with head_ := l.head_ }
    let l1 : LinkedList := { l with head_ := rhs.head_ }
    -- std::swap(rhs.tail_, this->tail_);
    let r2 : LinkedList := { r1 with tail_ := l1.tail_ }
    let l2 : LinkedList := { l1 with tail_ := r1.tail_ }
    -- std::swap(rhs.size_, this->size_);
    let r3 : LinkedList := { r2 with size_ := l2.size_ }
    let l3 : LinkedList := { l2 with size_ := r2.size_ }
    (l3, r3)
  else (l, rhs)

/-- The move constructor `LinkedList(LinkedList&& rhs)`: `init()`, then the
move assignment `*this = std::move(rhs)`. The result is the heap, `*this` and
`rhs` afterwards. -/
def moveConstruct [Inhabited T] (h : Heap T) (thisAddr rhsAddr : Nat) (rhs : LinkedList) :
    Option (Heap T × LinkedList × LinkedList) :=
  match init h with
  | none => none
  | some (h1, l) => some (h1, moveAssign thisAddr l rhsAddr rhs)

end LinkedList

namespace LinkedList

variable {T : Type}

/-- The traversal `for (it = start; it != itEnd; ++it)`, collecting the
address, the value and the access counter of every node visited; the body may
run `fuel` times. -/
def walk (itEnd : iterator) : Nat → Heap T → iterator → Option (List (Nat × T × Nat))
  | 0, _, it => if it ≠ itEnd then none else some []
  | fuel + 1, h, it =>
    if it ≠ itEnd then
      match it.current, it.star h, h.getAccess it.current, it.inc h with
      | some a, some v, some c, some it1 =>
        match walk itEnd fuel h it1 with
        | none => none
        | some rest => some ((a, v, c) :: rest)
      | _, _, _, _ => none
    else some []

/-- The iteration sequence of the list from `begin()` to `end()`. -/
def iterate (fuel : Nat) (h : Heap T) (l : LinkedList) : Option (List (Nat × T × Nat)) :=
  match begin h l with
  | none => none
  | some it => walk l.end_ fuel h it

/-- The values and access counters met when iterating from `begin()` to `end()`. -/
def toList (fuel : Nat) (h : Heap T) (l : LinkedList) : Option (List (T × Nat)) :=
  (iterate fuel h l).map (fun xs => xs.map (fun x => x.2))

end LinkedList

/-! ## The representation invariant -/

namespace Heap

variable {T : Type}

/-- The `next_` field of the node at address `a` (`none`: nothing allocated). -/
def nexts (h : Heap T) (a : Nat) : Option Ptr := (h.cells a).map (fun n => n.next_)

/-- The `prev_` field of the node at address `a`. -/
def prevs (h : Heap T) (a : Nat) : Option Ptr := (h.cells a).map (fun n => n.prev_)

/-- The `data_` field of the node at address `a`. -/
def datas (h : Heap T) (a : Nat) : Option T := (h.cells a).map (fun n => n.data_)

/-- The `access_` field of the node at address `a`. -/
def accs (h : Heap T) (a : Nat) : Option Nat := (h.cells a).map (fun n => n.access_)

/-- Nodes `a` and `b` are neighbours: `a->next_ == b` and `b->prev_ == a`. -/
def Linked (h : Heap T) (a b : Nat) : Prop :=
  h.nexts a = some (some b) ∧ h.prevs b = some (some a)

end Heap

namespace LinkedList

variable {T : Type}

/-- The chain of the list whose data nodes are `ps`, sentinels included. -/
def spine (l : LinkedList) (ps : List Nat) : List Nat := l.head_ :: (ps ++ [l.tail_])

/-- The list `l` is well formed in the heap `h` and its data nodes are, in
order, at the addresses `ps`: the chain from the head sentinel through `ps` to
the tail sentinel is doubly linked and repeats no node, the head sentinel has
no predecessor, the tail sentinel no successor, every node was handed out by
`new`, and the stored count is the number of data nodes. -/
structure WF (h : Heap T) (l : LinkedList) (ps : List Nat) : Prop where
  nodup : (l.spine ps).Nodup
  chain : List.Chain' h.Linked (l.spine ps)
  head_prev : h.prevs l.head_ = some none
  tail_next : h.nexts l.tail_ = some none
  bound : ∀ a ∈ l.spine ps, a < h.fresh
  size_eq : l.size_ = ps.length

end LinkedList

/-! ## Vocabulary of the specification -/

namespace Heap

variable {T : Type}

/-- The access counter of the node at address `a` (0 when nothing is allocated there). -/
def counter (h : Heap T) (a : Nat) : Nat := (h.accs a).getD 0

end Heap

namespace LinkedList

variable {T : Type}

/-- The first node, in the order `ps`, whose value equals `v`. -/
def firstMatch [DecidableEq T] (h : Heap T) (ps : List Nat) (v : T) : Option Nat :=
  ps.find? (fun a => decide (h.datas a = some v))

/-- The access counters of the nodes `ps` are in non-increasing order from
front to back: no node has a smaller counter than a node behind it. -/
def Ordered (h : Heap T) (ps : List Nat) : Prop :=
  (ps.map h.counter).Pairwise (fun x y => y ≤ x)

/-- The order of the nodes after a successful `search` that found `f` and
raised its counter to `c`: `f` is taken out and put back in front of the first
node whose counter is at most `c`, or left in place if no node in front of it
has such a counter. -/
def promoted (h : Heap T) (ps : List Nat) (f c : Nat) : List Nat :=
  let pre := ps.takeWhile (fun a => decide (a ≠ f))
  let post := (ps.dropWhile (fun a => decide (a ≠ f))).tail
  pre.takeWhile (fun a => decide (c < h.counter a)) ++
    f :: (pre.dropWhile (fun a => decide (c < h.counter a)) ++ post)

end LinkedList

/-! ## Lists obtained from an empty list -/

namespace LinkedList

variable {T : Type}

/-- The list `l` in the heap `h` was obtained from a freshly constructed list
by a finite sequence of `insert`, `search`, `erase(position)` at one of its
data nodes, `erase(first, last)` on a range of its data nodes, copy
construction and copy assignment from another such list, move construction and
move assignment between such lists (both objects of a move are obtained), while
any other code that ran in between left its nodes alone (`frame`). Every loop gets at least as
much fuel as the stored size. With `wrap = false` only those calls of `search`
are admitted that find a node whose counter is below `UINT_MAX`, so that no
counter wraps around; with `wrap = true` every call is admitted. -/
inductive Reachable [DecidableEq T] [Inhabited T] (wrap : Bool) : Heap T → LinkedList → Prop
  | init (h h1 : Heap T) (l : LinkedList) : init h = some (h1, l) → Reachable wrap h1 l
  | insert (h h1 : Heap T) (l l1 : LinkedList) (x : T) :
      Reachable wrap h l → insert h l x = some (h1, l1) → Reachable wrap h1 l1
  | search (h h1 : Heap T) (l : LinkedList) (fuel : Nat) (v : T) (it : iterator) :
      Reachable wrap h l → l.size_ ≤ fuel → search fuel h l v = some (h1, it) →
      (wrap = false → it ≠ l.end_ → ∀ f, it.current = some f → h.counter f < UINT_MAX) →
      Reachable wrap h1 l
  | erase (h h1 : Heap T) (l l1 : LinkedList) (fuel : Nat) (xs : List (Nat × T × Nat))
      (a : Nat) (it : iterator) :
      Reachable wrap h l → l.size_ ≤ fuel → iterate fuel h l = some xs →
      a ∈ xs.map (fun x => x.1) → erase h l { current := some a } = some (h1, l1, it) →
      Reachable wrap h1 l1
  | eraseRange (h h1 : Heap T) (l l1 : LinkedList) (fuel : Nat) (xs : List (Nat × T × Nat))
      (A B C : List Nat) (it : iterator) :
      Reachable wrap h l → l.size_ ≤ fuel → iterate fuel h l = some xs →
      xs.map (fun x => x.1) = A ++ (B ++ C) →
      eraseRange fuel h l { current := (B ++ C ++ [l.tail_]).head? }
        { current := (C ++ [l.tail_]).head? } = some (h1, l1, it) →
      Reachable wrap h1 l1
  | copyConstruct (h h1 : Heap T) (rhs l1 : LinkedList) (fuel thisAddr rhsAddr : Nat) :
      Reachable wrap h rhs → rhs.size_ ≤ fuel → thisAddr ≠ rhsAddr →
      copyConstruct fuel h thisAddr rhsAddr rhs = some (h1, l1) → Reachable wrap h1 l1
  | copyAssign (h h1 : Heap T) (l rhs l1 : LinkedList) (fuel thisAddr rhsAddr : Nat)
      (xs ys : List (Nat × T × Nat)) :
      Reachable wrap h l → Reachable wrap h rhs → l.size_ ≤ fuel → rhs.size_ ≤ fuel →
      iterate fuel h l = some xs → iterate fuel h rhs = some ys →
      (∀ a ∈ rhs.head_ :: rhs.tail_ :: ys.map (fun x => x.1),
        a ∉ l.head_ :: l.tail_ :: xs.map (fun x => x.1)) →
      thisAddr ≠ rhsAddr → copyAssign fuel h thisAddr l rhsAddr rhs = some (h1, l1) →
      Reachable wrap h1 l1
  | frame (h h1 : Heap T) (l : LinkedList) (fuel : Nat) (xs : List (Nat × T × Nat)) :
      Reachable wrap h l → l.size_ ≤ fuel → iterate fuel h l = some xs →
      (∀ a ∈ l.head_ :: l.tail_ :: xs.map (fun x => x.1), h1.cells a = h.cells a) →
      h.fresh ≤ h1.fresh → Reachable wrap h1 l
  | moveAssign (h : Heap T) (l rhs l1 rhs1 : LinkedList) (thisAddr rhsAddr : Nat) :
      Reachable wrap h l → Reachable wrap h rhs →
      moveAssign thisAddr l rhsAddr rhs = (l1, rhs1) → Reachable wrap h l1
  | moveAssignSource (h : Heap T) (l rhs l1 rhs1 : LinkedList) (thisAddr rhsAddr : Nat) :
      Reachable wrap h l → Reachable wrap h rhs →
      moveAssign thisAddr l rhsAddr rhs = (l1, rhs1) → Reachable wrap h rhs1
  | moveConstruct (h h1 : Heap T) (rhs l1 rhs1 : LinkedList) (thisAddr rhsAddr : Nat) :
      Reachable wrap h rhs →
      moveConstruct h thisAddr rhsAddr rhs = some (h1, l1, rhs1) → Reachable wrap h1 l1
  | moveConstructSource (h h1 : Heap T) (rhs l1 rhs1 : LinkedList) (thisAddr rhsAddr : Nat) :
      Reachable wrap h rhs →
      moveConstruct h thisAddr rhsAddr rhs = some (h1, l1, rhs1) → Reachable wrap h1 rhs1

end LinkedList

/-! ## Example lists -/

namespace LinkedList

variable {T : Type}

/-- Calling `insert` with each value of `vs` in turn. -/
def insertAll (vs : List T) (s : Heap T × LinkedList) : Option (Heap T × LinkedList) :=
  vs.foldlM (fun s x => insert s.1 s.2 x) s

/-- The list obtained by constructing an empty list in an empty heap and
inserting the values `vs` in turn. -/
def build [Inhabited T] (vs : List T) : Option (Heap T × LinkedList) :=
  (init Heap.empty).bind (insertAll vs)

/-- The list `build vs`, for values for which the construction succeeds. -/
def built [Inhabited T] (vs : List T) : Heap T × LinkedList :=
  (build vs).getD (Heap.empty, { head_ := 0, tail_ := 0, size_ := 0 })

/-- The list made of 2147483647 (`INT_MAX`) calls of `insert(0)` on an empty list. -/
def fullList : Option (Heap Nat × LinkedList) := build (List.replicate INT_MAX 0)

/-- The list made of 2147483648 (`INT_MAX + 1`) calls of `insert(0)` on an empty list. -/
def overfullList : Option (Heap Nat × LinkedList) := build (List.replicate (INT_MAX + 1) 0)

/-- The list made of 4294967296 (2^32) calls of `insert(0)` on an empty list. -/
def hugeList : Option (Heap Nat × LinkedList) := build (List.replicate 4294967296 0)

/-- Calling `search(v)` `n` times in a row on the list `l`. -/
def repeatSearch [DecidableEq T] (v : T) (fuel : Nat) :
    Nat → Heap T → LinkedList → Option (Heap T)
  | 0, h, _ => some h
  | n + 1, h, l =>
    match search fuel h l v with
    | none => none
    | some r => repeatSearch v fuel n r.1 l

/-- The heap after inserting 1 and 2 into an empty list and then calling
`search(1)` 4294967295 times. -/
def hotHeap : Option (Heap Nat) :=
  repeatSearch 1 2 UINT_MAX (built [1, 2]).1 (built [1, 2]).2

/-- The heap after inserting 1 and 2 into an empty list and then calling
`search(1)` 4294967294 times: one call short of `hotHeap`. -/
def warmHeap : Option (Heap Nat) :=
  repeatSearch 1 2 (UINT_MAX - 1) (built [1, 2]).1 (built [1, 2]).2

/-- The heap `hotHeap` after one further call, `search(2)`. -/
def hotHeap2 : Option (Heap Nat) :=
  hotHeap.bind (fun h => (search 2 h (built [1, 2]).2 2).map (fun r => r.1))

/-- The heap `hotHeap2` after one further call, `search(1)`. -/
def hotHeap3 : Option (Heap Nat) :=
  hotHeap2.bind (fun h => (search 2 h (built [1, 2]).2 1).map (fun r => r.1))

/-- The heap after inserting 1, 2, 3 into an empty list and calling
`search(3)` twice: the order is then 3, 1, 2 with counters 2, 0, 0. -/
def searchedHeap : Heap Nat :=
  (repeatSearch 3 3 2 (built [1, 2, 3]).1 (built [1, 2, 3]).2).getD Heap.empty

/-- A heap holding two lists: the list `(built [1, 2, 3]).2` after two calls
of `search(3)` (order 3, 1, 2 with counters 2, 0, 0), and a second list,
constructed afterwards, into which 77 was inserted. The second component is
the second list. -/
def pairHeap : Heap Nat × LinkedList :=
  ((init searchedHeap).bind (fun s => insert s.1 s.2 77)).getD
    (Heap.empty, { head_ := 0, tail_ := 0, size_ := 0 })

end LinkedList

/-! ## Reading and writing fields -/

namespace Heap

variable {T : Type}

@[simp] theorem getNext_some (h : Heap T) (a : Nat) : h.getNext (some a) = h.nexts a := rfl
@[simp] theorem getPrev_some (h : Heap T) (a : Nat) : h.getPrev (some a) = h.prevs a := rfl
@[simp] theorem getData_some (h : Heap T) (a : Nat) : h.getData (some a) = h.datas a := rfl
@[simp] theorem getAccess_some (h : Heap T) (a : Nat) : h.getAccess (some a) = h.accs a := rfl

theorem cells_ne_none_of_nexts {h : Heap T} {a : Nat} {x : Ptr} (e : h.nexts a = some x) :
    ∃ n, h.cells a = some n := by
  unfold nexts at e
  cases hc : h.cells a with
  | none => simp [hc] at e
  | some n => exact ⟨n, rfl⟩

theorem cells_ne_none_of_prevs {h : Heap T} {a : Nat} {x : Ptr} (e : h.prevs a = some x) :
    ∃ n, h.cells a = some n := by
  unfold prevs at e
  cases hc : h.cells a with
  | none => simp [hc] at e
  | some n => exact ⟨n, rfl⟩

/-- What `p->next_ = v` does to each field of each node. -/
theorem setNext_spec {h : Heap T} {a : Nat} (v : Ptr) {n : Node T} (hc : h.cells a = some n) :
    ∃ h1, h.setNext (some a) v = some h1 ∧
      h1.nexts = Function.update h.nexts a (some v) ∧ h1.prevs = h.prevs ∧
      h1.datas = h.datas ∧ h1.accs = h.accs ∧ h1.fresh = h.fresh := by
  refine ⟨h.store a { n with next_ := v }, by simp [setNext, hc], ?_, ?_, ?_, ?_, rfl⟩ <;>
    funext b <;> by_cases hb : b = a <;> simp [nexts, prevs, datas, accs, store, hb, hc, Function.update_apply]

/-- What `p->prev_ = v` does to each field of each node. -/
theorem setPrev_spec {h : Heap T} {a : Nat} (v : Ptr) {n : Node T} (hc : h.cells a = some n) :
    ∃ h1, h.setPrev (some a) v = some h1 ∧
      h1.nexts = h.nexts ∧ h1.prevs = Function.update h.prevs a (some v) ∧
      h1.datas = h.datas ∧ h1.accs = h.accs ∧ h1.fresh = h.fresh := by
  refine ⟨h.store a { n with prev_ := v }, by simp [setPrev, hc], ?_, ?_, ?_, ?_, rfl⟩ <;>
    funext b <;> by_cases hb : b = a <;> simp [nexts, prevs, datas, accs, store, hb, hc, Function.update_apply]

/-- What `p->access_ = c` does to each field of each node. -/
theorem setAccess_spec {h : Heap T} {a : Nat} (c : Nat) {n : Node T} (hc : h.cells a = some n) :
    ∃ h1, h.setAccess (some a) c = some h1 ∧
      h1.nexts = h.nexts ∧ h1.prevs = h.prevs ∧
      h1.datas = h.datas ∧ h1.accs = Function.update h.accs a (some c) ∧ h1.fresh = h.fresh := by
  refine ⟨h.store a { n with access_ := c }, by simp [setAccess, hc], ?_, ?_, ?_, ?_, rfl⟩ <;>
    funext b <;> by_cases hb : b = a <;> simp [nexts, prevs, datas, accs, store, hb, hc, Function.update_apply]

/-! ## Doubly linked chains -/

theorem chain_frame {R S : Nat → Nat → Prop} : ∀ (L : List Nat), List.Chain' R L →
    (∀ x y, x ∈ L.dropLast → y ∈ L.tail → R x y → S x y) → List.Chain' S L
  | [], _, _ => List.chain'_nil
  | [a], _, _ => List.chain'_singleton a
  | a :: b :: rest, hc, hf => by
    rw [List.chain'_cons] at hc ⊢
    refine ⟨hf a b (by simp) (by simp) hc.1, chain_frame (b :: rest) hc.2 ?_⟩
    intro x y hx hy hr
    refine hf x y ?_ ?_ hr
    · simp only [List.dropLast_cons₂, List.mem_cons]; exact Or.inr hx
    · simp only [List.tail_cons, List.mem_cons] at hy ⊢; exact Or.inr hy

theorem Linked.transfer {h h1 : Heap T} {x y : Nat} (hl : h.Linked x y)
    (e1 : h1.nexts x = h.nexts x) (e2 : h1.prevs y = h.prevs y) : h1.Linked x y :=
  ⟨e1.trans hl.1, e2.trans hl.2⟩

theorem chain_unlink {h h1 : Heap T} {A B : List Nat} {p x n : Nat}
    (hn : (A ++ p :: x :: n :: B).Nodup) (hc : List.Chain' h.Linked (A ++ p :: x :: n :: B))
    (e1 : h1.nexts = Function.update h.nexts p (some (some n)))
    (e2 : h1.prevs = Function.update h.prevs n (some (some p))) :
    List.Chain' h1.Linked (A ++ p :: n :: B) := by
  rw [List.chain'_append_cons_cons] at hc ⊢
  obtain ⟨hA, -, hB⟩ := hc
  rw [List.chain'_cons] at hB
  refine ⟨chain_frame _ hA ?_, ⟨by simp [e1], by simp [e2]⟩, chain_frame _ hB.2 ?_⟩
  · intro a b ha hb hl
    simp only [List.dropLast_concat] at ha
    have hb2 : b ∈ A ++ [p] := List.mem_of_mem_tail hb
    refine hl.transfer ?_ ?_
    · rw [e1, Function.update_noteq]; rintro rfl
      simp_all [List.nodup_append]
    · rw [e2, Function.update_noteq]; rintro rfl
      simp_all [List.nodup_append]
  · intro a b ha hb hl
    have ha2 : a ∈ n :: B := List.mem_of_mem_dropLast ha
    simp only [List.tail_cons] at hb
    refine hl.transfer ?_ ?_
    · rw [e1, Function.update_noteq]; rintro rfl
      simp_all [List.nodup_append]
    · rw [e2, Function.update_noteq]; rintro rfl
      simp_all [List.nodup_append]

theorem chain_link {h h1 : Heap T} {A B : List Nat} {p x t : Nat}
    (hn : (x :: (A ++ p :: t :: B)).Nodup) (hc : List.Chain' h.Linked (A ++ p :: t :: B))
    (e1 : h1.nexts = Function.update (Function.update h.nexts x (some (some t))) p (some (some x)))
    (e2 : h1.prevs = Function.update (Function.update h.prevs x (some (some p))) t (some (some x))) :
    List.Chain' h1.Linked (A ++ p :: x :: t :: B) := by
  rw [List.chain'_append_cons_cons] at hc ⊢
  obtain ⟨hA, -, hB⟩ := hc
  have hxp : x ≠ p := by rintro rfl; simp_all [List.nodup_append]
  have hxt : x ≠ t := by rintro rfl; simp_all [List.nodup_append]
  have hpt : p ≠ t := by rintro rfl; simp_all [List.nodup_append]
  rw [List.chain'_cons]
  refine ⟨chain_frame _ hA ?_, ⟨by simp [e1], by simp [e2, hxt]⟩,
    ⟨by simp [e1, hxp], by simp [e2]⟩, chain_frame _ hB ?_⟩
  · intro a b ha hb hl
    simp only [List.dropLast_concat] at ha
    have hb2 : b ∈ A ++ [p] := List.mem_of_mem_tail hb
    refine hl.transfer ?_ ?_
    · have h1 : a ≠ p := by rintro rfl; simp_all [List.nodup_append]
      have h2 : a ≠ x := by rintro rfl; simp_all [List.nodup_append]
      simp [e1, h1, h2]
    · have h1 : b ≠ t := by rintro rfl; simp_all [List.nodup_append]
      have h2 : b ≠ x := by rintro rfl; simp_all [List.nodup_append]
      simp [e2, h1, h2]
  · intro a b ha hb hl
    have ha2 : a ∈ t :: B := List.mem_of_mem_dropLast ha
    simp only [List.tail_cons] at hb
    refine hl.transfer ?_ ?_
    · have h1 : a ≠ p := by rintro rfl; simp_all [List.nodup_append]
      have h2 : a ≠ x := by rintro rfl; simp_all [List.nodup_append]
      simp [e1, h1, h2]
    · have h1 : b ≠ t := by rintro rfl; simp_all [List.nodup_append]
      have h2 : b ≠ x := by rintro rfl; simp_all [List.nodup_append]
      simp [e2, h1, h2]

theorem alloc_spec (h : Heap T) (n : Node T) :
    (h.alloc n).2 = h.fresh ∧
    (h.alloc n).1.nexts = Function.update h.nexts h.fresh (some n.next_) ∧
    (h.alloc n).1.prevs = Function.update h.prevs h.fresh (some n.prev_) ∧
    (h.alloc n).1.datas = Function.update h.datas h.fresh (some n.data_) ∧
    (h.alloc n).1.accs = Function.update h.accs h.fresh (some n.access_) ∧
    (h.alloc n).1.fresh = h.fresh + 1 := by
  refine ⟨rfl, ?_, ?_, ?_, ?_, rfl⟩ <;>
    funext b <;> by_cases hb : b = h.fresh <;>
    simp [nexts, prevs, datas, accs, alloc, hb, Function.update_apply]

theorem delete_spec {h : Heap T} {a : Nat} {n : Node T} (hc : h.cells a = some n) :
    ∃ h1, h.delete (some a) = some h1 ∧
      h1.nexts = Function.update h.nexts a none ∧ h1.prevs = Function.update h.prevs a none ∧
      h1.datas = Function.update h.datas a none ∧ h1.accs = Function.update h.accs a none ∧
      h1.fresh = h.fresh := by
  refine ⟨{ cells := fun b => if b = a then none else h.cells b, fresh := h.fresh },
    by simp [delete, hc], ?_, ?_, ?_, ?_, rfl⟩ <;>
    funext b <;> by_cases hb : b = a <;>
    simp [nexts, prevs, datas, accs, hb, Function.update_apply]

theorem chain_congr {h h1 : Heap T} {L : List Nat} (hc : List.Chain' h.Linked L)
    (e : ∀ a ∈ L, h1.nexts a = h.nexts a ∧ h1.prevs a = h.prevs a) :
    List.Chain' h1.Linked L :=
  chain_frame L hc (fun x y hx hy hl =>
    hl.transfer (e x (List.mem_of_mem_dropLast hx)).1 (e y (List.mem_of_mem_tail hy)).2)

end Heap

/-! ## The operations on a well-formed list -/

namespace LinkedList

variable {T : Type}

theorem spine_snoc (l : LinkedList) (ps : List Nat) :
    ∃ A p, l.head_ :: ps = A ++ [p] := by
  rcases List.eq_nil_or_concat (l.head_ :: ps) with h | ⟨A, p, h⟩
  · simp at h
  · exact ⟨A, p, by simpa using h⟩

theorem insert_spec {h : Heap T} {l : LinkedList} {ps : List Nat} (hw : WF h l ps) (x : T) :
    ∃ h1, insert h l x = some (h1, { l with size_ := l.size_ + 1 }) ∧
      WF h1 { l with size_ := l.size_ + 1 } (ps ++ [h.fresh]) ∧
      h1.datas = Function.update h.datas h.fresh (some x) ∧
      h1.accs = Function.update h.accs h.fresh (some 0) ∧
      h1.fresh = h.fresh + 1 ∧
      (∀ a, a ∉ l.spine ps → a ≠ h.fresh → h1.nexts a = h.nexts a ∧ h1.prevs a = h.prevs a) := by
  obtain ⟨A, p, hA⟩ := spine_snoc l ps
  have hsp : l.spine ps = A ++ p :: l.tail_ :: [] := by
    simp only [spine, ← List.cons_append, hA, List.append_assoc, List.singleton_append]
  have hnd := hw.nodup
  have hch := hw.chain
  have hbd := hw.bound
  rw [hsp] at hnd hch hbd
  have hpt : h.Linked p l.tail_ := (List.chain'_append_cons_cons.1 hch).2.1
  have hfp : p ≠ h.fresh := fun e => by have := hbd p (by simp); omega
  have hft : l.tail_ ≠ h.fresh := fun e => by have := hbd l.tail_ (by simp); omega
  obtain ⟨ea, en, ep, ed, ec, ef⟩ := h.alloc_spec (Node.new x (some l.tail_) (some p))
  obtain ⟨np, hnp⟩ := Heap.cells_ne_none_of_nexts (h := (h.alloc (Node.new x (some l.tail_) (some p))).1)
    (a := p) (x := some l.tail_) (by rw [en, Function.update_noteq hfp]; exact hpt.1)
  obtain ⟨h2, e2, n2, p2, d2, c2, f2⟩ := Heap.setNext_spec (some h.fresh) hnp
  obtain ⟨nt, hnt⟩ := Heap.cells_ne_none_of_prevs (h := h2) (a := l.tail_) (x := some p)
    (by rw [p2, ep, Function.update_noteq hft]; exact hpt.2)
  obtain ⟨h3, e3, n3, p3, d3, c3, f3⟩ := Heap.setPrev_spec (some h.fresh) hnt
  have hn3 : h3.nexts = Function.update (Function.update h.nexts h.fresh (some (some l.tail_))) p
      (some (some h.fresh)) := by rw [n3, n2, en]; rfl
  have hp3 : h3.prevs = Function.update (Function.update h.prevs h.fresh (some (some p))) l.tail_
      (some (some h.fresh)) := by rw [p3, p2, ep]; rfl
  have hnd2 : (h.fresh :: (A ++ p :: l.tail_ :: [])).Nodup := by
    refine List.nodup_cons.2 ⟨fun hm => ?_, hnd⟩
    have := hbd _ hm; omega
  refine ⟨h3, ?_, ?_, ?_, ?_, ?_, ?_⟩
  · have hq : (h.alloc (Node.new x (some l.tail_) (some p))).1.prevs l.tail_ = some (some p) := by
      rw [ep, Function.update_noteq hft]; exact hpt.2
    simp only [insert, Heap.getPrev_some, hpt.2, hq, ea, e2, e3]
  · have hsp2 : spine { l with size_ := l.size_ + 1 } (ps ++ [h.fresh])
        = A ++ p :: h.fresh :: l.tail_ :: [] := by
      simp only [spine, ← List.cons_append, hA, List.append_assoc, List.singleton_append]
    refine ⟨?_, ?_, ?_, ?_, ?_, ?_⟩
    · rw [hsp2]
      have := hnd2
      simp only [List.nodup_cons, List.nodup_append, List.mem_append, List.mem_cons] at this ⊢
      simp_all
    · rw [hsp2]; exact Heap.chain_link hnd2 hch hn3 hp3
    · have h1 : l.head_ ≠ h.fresh := fun e => by
        have := hw.bound l.head_ (by simp [spine]); omega
      have h2 : l.head_ ≠ l.tail_ := fun e => by
        have := hw.nodup; simp [spine, e] at this
      show h3.prevs l.head_ = some none
      rw [hp3, Function.update_noteq h2, Function.update_noteq h1]; exact hw.head_prev
    · show h3.nexts l.tail_ = some none
      have h2 : l.tail_ ≠ p := fun e => by
        have := hnd; simp [List.nodup_append, e] at this
      rw [hn3, Function.update_noteq h2, Function.update_noteq hft]; exact hw.tail_next
    · intro a ha
      rw [hsp2] at ha
      rw [f3, f2, ef]
      have : a = h.fresh ∨ a ∈ A ++ p :: l.tail_ :: [] := by
        simp only [List.mem_append, List.mem_cons] at ha ⊢; tauto
      rcases this with rfl | hm
      · omega
      · have := hbd a hm; omega
    · simp [hw.size_eq]
  · rw [d3, d2, ed]; rfl
  · rw [c3, c2, ec]; rfl
  · rw [f3, f2, ef]
  · intro a ha hfa
    rw [hsp] at ha
    have h1 : a ≠ p := fun e => ha (by simp [e])
    have h2 : a ≠ l.tail_ := fun e => ha (by simp [e])
    rw [hn3, hp3]
    simp [Function.update_noteq, h1, h2, hfa]

theorem WF.frame_heap {h h1 : Heap T} {l : LinkedList} {ps : List Nat} (hw : WF h l ps)
    (e : ∀ a ∈ l.spine ps, h1.nexts a = h.nexts a ∧ h1.prevs a = h.prevs a)
    (hf : h.fresh ≤ h1.fresh) : WF h1 l ps :=
  { nodup := hw.nodup
    chain := Heap.chain_congr hw.chain e
    head_prev := (e l.head_ (by simp [spine])).2.trans hw.head_prev
    tail_next := (e l.tail_ (by simp [spine])).1.trans hw.tail_next
    bound := fun a ha => lt_of_lt_of_le (hw.bound a ha) hf
    size_eq := hw.size_eq }

theorem spine_split (l : LinkedList) (A B : List Nat) (x : Nat) :
    ∃ A1 p n B1, l.head_ :: A = A1 ++ [p] ∧ B ++ [l.tail_] = n :: B1 ∧
      l.spine (A ++ x :: B) = A1 ++ p :: x :: n :: B1 ∧ l.spine (A ++ B) = A1 ++ p :: n :: B1 := by
  obtain ⟨A1, p, hA⟩ := spine_snoc l A
  obtain ⟨n, B1, hB⟩ : ∃ n B1, B ++ [l.tail_] = n :: B1 := by
    cases B with
    | nil => exact ⟨l.tail_, [], rfl⟩
    | cons b B => exact ⟨b, B ++ [l.tail_], rfl⟩
  refine ⟨A1, p, n, B1, hA, hB, ?_, ?_⟩
  · have : l.spine (A ++ x :: B) = (l.head_ :: A) ++ x :: (B ++ [l.tail_]) := by simp [spine]
    rw [this, hA, hB]; simp
  · have : l.spine (A ++ B) = (l.head_ :: A) ++ (B ++ [l.tail_]) := by simp [spine]
    rw [this, hA, hB]; simp

theorem erase_spec {h : Heap T} {l : LinkedList} {A B : List Nat} {x : Nat}
    (hw : WF h l (A ++ x :: B)) :
    ∃ h1, erase h l { current := some x } =
        some (h1, { l with size_ := l.size_ - 1 }, { current := (B ++ [l.tail_]).head? }) ∧
      WF h1 { l with size_ := l.size_ - 1 } (A ++ B) ∧
      h1.datas = Function.update h.datas x none ∧
      h1.accs = Function.update h.accs x none ∧
      h1.fresh = h.fresh ∧
      (∀ a, a ∉ l.spine (A ++ x :: B) → h1.nexts a = h.nexts a ∧ h1.prevs a = h.prevs a) := by
  obtain ⟨A1, p, n, B1, hA, hB, hsp, hsp2⟩ := spine_split l A B x
  have hnd := hw.nodup
  have hch := hw.chain
  rw [hsp] at hnd hch
  have hpx : h.Linked p x := (List.chain'_append_cons_cons.1 hch).2.1
  have hxn : h.Linked x n :=
    (List.chain'_cons.1 (List.chain'_append_cons_cons.1 hch).2.2).1
  have hxp : x ≠ p := by rintro rfl; simp_all [List.nodup_append]
  have hxn2 : x ≠ n := by rintro rfl; simp_all [List.nodup_append]
  have hpn : p ≠ n := by rintro rfl; simp_all [List.nodup_append]
  obtain ⟨np, hnp⟩ := Heap.cells_ne_none_of_nexts hpx.1
  obtain ⟨h1, e1, n1, p1, d1, c1, f1⟩ := Heap.setNext_spec (some n) hnp
  obtain ⟨nn, hnn⟩ := Heap.cells_ne_none_of_prevs (h := h1) (a := n) (x := some x)
    (by rw [p1]; exact hxn.2)
  obtain ⟨h2, e2, n2, p2, d2, c2, f2⟩ := Heap.setPrev_spec (some p) hnn
  obtain ⟨nx, hnx⟩ := Heap.cells_ne_none_of_prevs (h := h2) (a := x) (x := some p)
    (by rw [p2, p1, Function.update_noteq hxn2]; exact hpx.2)
  obtain ⟨h3, e3, n3, p3, d3, c3, f3⟩ := Heap.delete_spec hnx
  have hc2 : List.Chain' h2.Linked (A1 ++ p :: n :: B1) :=
    Heap.chain_unlink hnd hch (by rw [n2, n1]) (by rw [p2, p1])
  have hxm : x ∉ A1 ++ p :: n :: B1 := by
    intro hm; simp_all [List.nodup_append]
  have hne : ∀ a ∈ A1 ++ p :: n :: B1, a ≠ x := fun a ha e => hxm (e ▸ ha)
  refine ⟨h3, ?_, ?_, ?_, ?_, ?_, ?_⟩
  · have q1 : h1.nexts x = some (some n) := by
      rw [n1, Function.update_noteq hxp]; exact hxn.1
    have q2 : h1.prevs x = some (some p) := by rw [p1]; exact hpx.2
    have q3 : (B ++ [l.tail_]).head? = some n := by rw [hB]; rfl
    simp [erase, hxn.1, hpx.2, e1, q1, q2, e2, e3, q3]
  · refine ⟨?_, ?_, ?_, ?_, ?_, ?_⟩
    · show (l.spine (A ++ B)).Nodup
      rw [hsp2]
      have := hnd
      simp only [List.nodup_cons, List.nodup_append, List.mem_append, List.mem_cons] at this ⊢
      simp_all
    · show List.Chain' h3.Linked (l.spine (A ++ B))
      rw [hsp2]
      refine Heap.chain_congr hc2 (fun a ha => ?_)
      rw [n3, p3, Function.update_noteq (hne a ha), Function.update_noteq (hne a ha)]
      exact ⟨rfl, rfl⟩
    · show h3.prevs l.head_ = some none
      have hh : l.head_ ∈ A1 ++ p :: n :: B1 := by rw [← hsp2]; simp [spine]
      have hh2 : l.head_ ≠ n := by
        intro e
        have := hw.nodup
        have h5 : n ∈ B ++ [l.tail_] := by rw [hB]; simp
        simp only [spine, List.nodup_cons] at this
        apply this.1; rw [e]
        simp only [List.mem_append, List.mem_cons, List.mem_singleton] at h5 ⊢
        tauto
      rw [p3, Function.update_noteq (hne _ hh), p2, Function.update_noteq hh2, p1]
      exact hw.head_prev
    · show h3.nexts l.tail_ = some none
      have hh : l.tail_ ∈ A1 ++ p :: n :: B1 := by rw [← hsp2]; simp [spine]
      have hh2 : l.tail_ ≠ p := by
        intro e
        have := hw.nodup
        have h5 : p ∈ l.head_ :: A := by rw [hA]; simp
        have h6 : l.spine (A ++ x :: B) = (l.head_ :: A) ++ (x :: B ++ [l.tail_]) := by
          simp [spine]
        rw [h6, List.nodup_append] at this
        exact this.2.2 h5 (by simp [e])
      rw [n3, Function.update_noteq (hne _ hh), n2, n1, Function.update_noteq hh2]
      exact hw.tail_next
    · intro a ha
      rw [f3, f2, f1]
      refine hw.bound a ?_
      simp only [spine, List.mem_cons, List.mem_append, List.mem_singleton] at ha ⊢
      tauto
    · have := hw.size_eq
      simp only [List.length_append, List.length_cons] at this ⊢
      omega
  · rw [d3, d2, d1]
  · rw [c3, c2, c1]
  · rw [f3, f2, f1]
  · intro a ha
    rw [hsp] at ha
    have h1 : a ≠ p := fun e => ha (by simp [e])
    have h2 : a ≠ n := fun e => ha (by simp [e])
    have h3 : a ≠ x := fun e => ha (by simp [e])
    rw [n3, p3, n2, p2, n1, p1]
    simp [Function.update_noteq, h1, h2, h3]

theorem WF.head_not_mem {h : Heap T} {l : LinkedList} {ps : List Nat} (hw : WF h l ps) :
    l.head_ ∉ ps ++ [l.tail_] := (List.nodup_cons.1 hw.nodup).1

theorem WF.tail_not_mem {h : Heap T} {l : LinkedList} {ps : List Nat} (hw : WF h l ps) :
    l.tail_ ∉ l.head_ :: ps := by
  have := hw.nodup
  rw [spine, ← List.cons_append, List.nodup_append] at this
  exact fun hm => this.2.2 hm (by simp)

theorem relink_spec {h : Heap T} {l : LinkedList} {X Y Z : List Nat} {t f : Nat}
    (hw : WF h l (X ++ t :: (Y ++ f :: Z))) :
    ∃ h1, relink h (some f) (some t) = some h1 ∧
      WF h1 l (X ++ f :: t :: (Y ++ Z)) ∧
      h1.datas = h.datas ∧ h1.accs = h.accs ∧ h1.fresh = h.fresh ∧
      (∀ a, a ∉ l.spine (X ++ t :: (Y ++ f :: Z)) →
        h1.nexts a = h.nexts a ∧ h1.prevs a = h.prevs a) := by
  obtain ⟨A1, p, n, B1, hA, hB, hsp, hsp2⟩ := spine_split l (X ++ t :: Y) Z f
  obtain ⟨A2, q, t', B2, hA2, hB2, hsp3, hsp4⟩ := spine_split l X (Y ++ Z) t
  have mp : p ∈ l.head_ :: (X ++ t :: Y) := by rw [hA]; simp
  have mq : q ∈ l.head_ :: X := by rw [hA2]; simp
  have mn : n ∈ Z ++ [l.tail_] := by rw [hB]; simp
  have hh := hw.head_not_mem
  have ht := hw.tail_not_mem
  have hhd : l.head_ ≠ t ∧ l.head_ ≠ f ∧ l.head_ ≠ n := by
    refine ⟨fun e => hh (by rw [e]; simp), fun e => hh (by rw [e]; simp), fun e => hh ?_⟩
    rw [e]
    simp only [List.mem_append, List.mem_cons, List.mem_singleton] at mn ⊢
    tauto
  have htl : l.tail_ ≠ q ∧ l.tail_ ≠ f ∧ l.tail_ ≠ p := by
    refine ⟨fun e => ht ?_, fun e => ht (by rw [e]; simp), fun e => ht ?_⟩
    · rw [e]
      simp only [List.mem_append, List.mem_cons, List.mem_singleton] at mq ⊢
      tauto
    · rw [e]
      simp only [List.mem_append, List.mem_cons, List.mem_singleton] at mp ⊢
      tauto
  have hout : ∀ a, a ∉ l.spine (X ++ t :: (Y ++ f :: Z)) →
      a ≠ p ∧ a ≠ n ∧ a ≠ f ∧ a ≠ q ∧ a ≠ t := by
    intro a ha
    have m1 : p ∈ l.spine (X ++ t :: (Y ++ f :: Z)) := by
      simp only [spine, List.mem_append, List.mem_cons, List.mem_singleton] at mp ⊢; tauto
    have m2 : n ∈ l.spine (X ++ t :: (Y ++ f :: Z)) := by
      simp only [spine, List.mem_append, List.mem_cons, List.mem_singleton] at mn ⊢; tauto
    have m3 : f ∈ l.spine (X ++ t :: (Y ++ f :: Z)) := by simp [spine]
    have m4 : q ∈ l.spine (X ++ t :: (Y ++ f :: Z)) := by
      simp only [spine, List.mem_append, List.mem_cons, List.mem_singleton] at mq ⊢; tauto
    have m5 : t ∈ l.spine (X ++ t :: (Y ++ f :: Z)) := by simp [spine]
    exact ⟨fun e => ha (e ▸ m1), fun e => ha (e ▸ m2), fun e => ha (e ▸ m3),
      fun e => ha (e ▸ m4), fun e => ha (e ▸ m5)⟩
  have hsub : ∀ a ∈ l.spine (X ++ f :: t :: (Y ++ Z)), a ∈ l.spine (X ++ t :: (Y ++ f :: Z)) := by
    intro a ha
    simp only [spine, List.mem_cons, List.mem_append, List.mem_singleton] at ha ⊢
    tauto
  clear mp mq mn hh ht
  simp only [List.append_assoc, List.cons_append] at hsp hsp2
  have hnd := hw.nodup
  have hch := hw.chain
  rw [hsp] at hnd hch
  have hpf : h.Linked p f := (List.chain'_append_cons_cons.1 hch).2.1
  have hfn : h.Linked f n :=
    (List.chain'_cons.1 (List.chain'_append_cons_cons.1 hch).2.2).1
  have hfp : f ≠ p := by rintro rfl; simp_all [List.nodup_append]
  have hfn2 : f ≠ n := by rintro rfl; simp_all [List.nodup_append]
  -- the two unlinking assignments
  obtain ⟨np, hnp⟩ := Heap.cells_ne_none_of_nexts hpf.1
  obtain ⟨h1, e1, n1, p1, d1, c1, f1⟩ := Heap.setNext_spec (some n) hnp
  obtain ⟨nn, hnn⟩ := Heap.cells_ne_none_of_prevs (h := h1) (a := n) (x := some f)
    (by rw [p1]; exact hfn.2)
  obtain ⟨h2, e2, n2, p2, d2, c2, f2⟩ := Heap.setPrev_spec (some p) hnn
  have hc2 : List.Chain' h2.Linked (A1 ++ p :: n :: B1) :=
    Heap.chain_unlink hnd hch (by rw [n2, n1]) (by rw [p2, p1])
  have hmid : (f :: (A1 ++ p :: n :: B1)).Nodup := by
    have := hnd
    rw [show A1 ++ p :: f :: n :: B1 = (A1 ++ [p]) ++ f :: (n :: B1) by simp,
      List.nodup_middle] at this
    simpa using this
  have hAA : A1 ++ p :: n :: B1 = A2 ++ q :: t :: t' :: B2 := hsp2.symm.trans hsp3
  rw [hAA] at hc2 hmid
  have hnd3 : (f :: (A2 ++ q :: t :: t' :: B2)).Nodup := hmid
  have hqt : h2.Linked q t := (List.chain'_append_cons_cons.1 hc2).2.1
  have hft : f ≠ t := by rintro rfl; simp [List.nodup_append] at hnd3
  have hfq : f ≠ q := by rintro rfl; simp [List.nodup_append] at hnd3
  -- the four relinking assignments
  obtain ⟨nf, hnf⟩ := Heap.cells_ne_none_of_prevs (h := h2) (a := f) (x := some p)
    (by rw [p2, p1, Function.update_noteq hfn2]; exact hpf.2)
  obtain ⟨h3, e3, n3, p3, d3, c3, f3⟩ := Heap.setNext_spec (some t) hnf
  obtain ⟨nf4, hnf4⟩ := Heap.cells_ne_none_of_prevs (h := h3) (a := f) (x := some p)
    (by rw [p3, p2, p1, Function.update_noteq hfn2]; exact hpf.2)
  obtain ⟨h4, e4, n4, p4, d4, c4, f4⟩ := Heap.setPrev_spec (some q) hnf4
  obtain ⟨nq, hnq⟩ := Heap.cells_ne_none_of_nexts (h := h4) (a := q) (x := some t)
    (by rw [n4, n3, Function.update_noteq (Ne.symm hfq)]; exact hqt.1)
  obtain ⟨h5, e5, n5, p5, d5, c5, f5⟩ := Heap.setNext_spec (some f) hnq
  obtain ⟨nt, hnt⟩ := Heap.cells_ne_none_of_prevs (h := h5) (a := t) (x := some q)
    (by rw [p5, p4, p3, Function.update_noteq (Ne.symm hft)]; exact hqt.2)
  obtain ⟨h6, e6, n6, p6, d6, c6, f6⟩ := Heap.setPrev_spec (some f) hnt
  have hn6 : h6.nexts = Function.update (Function.update h2.nexts f (some (some t))) q
      (some (some f)) := by rw [n6, n5, n4, n3]
  have hp6 : h6.prevs = Function.update (Function.update h2.prevs f (some (some q))) t
      (some (some f)) := by rw [p6, p5, p4, p3]
  have hc6 : List.Chain' h6.Linked (A2 ++ q :: f :: t :: t' :: B2) :=
    Heap.chain_link hnd3 hc2 hn6 hp6
  have hsp5 : l.spine (X ++ f :: t :: (Y ++ Z)) = A2 ++ q :: f :: t :: t' :: B2 := by
    have : l.spine (X ++ f :: t :: (Y ++ Z)) = (l.head_ :: X) ++ f :: t :: (Y ++ Z ++ [l.tail_]) := by
      simp [spine]
    rw [this, hA2, hB2]; simp
  refine ⟨h6, ?_, ?_, ?_, ?_, ?_, ?_⟩
  · have q1 : h1.nexts f = some (some n) := by
      rw [n1, Function.update_noteq hfp]; exact hfn.1
    have q2 : h1.prevs f = some (some p) := by rw [p1]; exact hpf.2
    have q3 : h3.prevs t = some (some q) := by rw [p3]; exact hqt.2
    have q4 : h4.prevs t = some (some q) := by
      rw [p4, Function.update_noteq (Ne.symm hft), p3]; exact hqt.2
    simp [relink, hfn.1, hpf.2, e1, q1, q2, e2, e3, q3, e4, q4, e5, e6]
  · refine ⟨?_, ?_, ?_, ?_, ?_, ?_⟩
    · rw [hsp5]
      have := hnd3
      rw [show A2 ++ q :: f :: t :: t' :: B2 = (A2 ++ [q]) ++ f :: (t :: t' :: B2) by simp,
        List.nodup_middle]
      simpa using this
    · rw [hsp5]; exact hc6
    · rw [hp6, Function.update_noteq hhd.1, Function.update_noteq hhd.2.1, p2, p1,
        Function.update_noteq hhd.2.2]
      exact hw.head_prev
    · rw [hn6, Function.update_noteq htl.1, Function.update_noteq htl.2.1, n2, n1,
        Function.update_noteq htl.2.2]
      exact hw.tail_next
    · intro a ha
      rw [f6, f5, f4, f3, f2, f1]
      exact hw.bound a (hsub a ha)
    · rw [hw.size_eq]
      simp only [List.length_append, List.length_cons]
      omega
  · rw [d6, d5, d4, d3, d2, d1]
  · rw [c6, c5, c4, c3, c2, c1]
  · rw [f6, f5, f4, f3, f2, f1]
  · intro a ha
    obtain ⟨a1, a2, a3, a4, a5⟩ := hout a ha
    rw [hn6, hp6, n2, p2, n1, p1]
    simp [Function.update_noteq, a1, a2, a3, a4, a5]

theorem head?_snoc_ne_none (B : List Nat) (t : Nat) : (B ++ [t]).head? ≠ none := by
  cases B <;> simp

theorem WF.nexts_mid {h : Heap T} {l : LinkedList} {A B : List Nat} {a : Nat}
    (hw : WF h l (A ++ a :: B)) : h.nexts a = some ((B ++ [l.tail_]).head?) := by
  obtain ⟨A1, p, n, B1, -, hB, hsp, -⟩ := spine_split l A B a
  have hch := hw.chain
  rw [hsp] at hch
  rw [hB]
  exact (List.chain'_cons.1 (List.chain'_append_cons_cons.1 hch).2.2).1.1

theorem WF.nexts_head {h : Heap T} {l : LinkedList} {ps : List Nat}
    (hw : WF h l ps) : h.nexts l.head_ = some ((ps ++ [l.tail_]).head?) := by
  have hch := hw.chain
  cases ps with
  | nil => exact (List.chain'_cons.1 hch).1.1
  | cons a ps => exact (List.chain'_cons.1 hch).1.1

theorem WF.live {h : Heap T} {l : LinkedList} {ps : List Nat} (hw : WF h l ps)
    {a : Nat} (ha : a ∈ ps) : ∃ n, h.cells a = some n := by
  obtain ⟨A, B, rfl⟩ := List.append_of_mem ha
  exact Heap.cells_ne_none_of_nexts hw.nexts_mid

theorem WF.ne_tail {h : Heap T} {l : LinkedList} {ps : List Nat} (hw : WF h l ps)
    {a : Nat} (ha : a ∈ ps) : a ≠ l.tail_ :=
  fun e => hw.tail_not_mem (e ▸ List.mem_cons_of_mem _ ha)

theorem WF.begin_eq {h : Heap T} {l : LinkedList} {ps : List Nat} (hw : WF h l ps) :
    begin h l = some { current := (ps ++ [l.tail_]).head? } := by
  simp [begin, hw.nexts_head]

theorem WF.inc_mid {h : Heap T} {l : LinkedList} {A B : List Nat} {a : Nat}
    (hw : WF h l (A ++ a :: B)) :
    const_iterator.inc h { current := some a } = some { current := (B ++ [l.tail_]).head? } := by
  simp [const_iterator.inc, hw.nexts_mid, head?_snoc_ne_none]

theorem searchLoop_scan [DecidableEq T] {h : Heap T} {l : LinkedList} (v : T) (fi n : Nat) :
    ∀ (pre done rest : List Nat), WF h l (done ++ (pre ++ rest)) →
      (∀ a ∈ pre, h.datas a ≠ some v) →
      searchLoop l v l.end_ fi (pre.length + n) h { current := (pre ++ rest ++ [l.tail_]).head? } =
        searchLoop l v l.end_ fi n h { current := (rest ++ [l.tail_]).head? }
  | [], _, _, _, _ => by simp
  | a :: pre, done, rest, hw, hpre => by
    have hne : a ≠ l.tail_ := hw.ne_tail (by simp)
    obtain ⟨nd, hnd⟩ := hw.live (a := a) (by simp)
    have hd : h.datas a = some nd.data_ := by simp [Heap.datas, hnd]
    have hv : nd.data_ ≠ v := fun e => hpre a (by simp) (by rw [hd, e])
    have hw1 : WF h l (done ++ a :: (pre ++ rest)) := hw
    have hinc := hw1.inc_mid
    have hw2 : WF h l ((done ++ [a]) ++ (pre ++ rest)) := by simpa using hw
    have ih := searchLoop_scan v fi n pre (done ++ [a]) rest hw2
      (fun b hb => hpre b (List.mem_cons_of_mem _ hb))
    rw [List.length_cons, Nat.add_right_comm]
    simp only [List.cons_append, List.head?_cons, searchLoop, end_, ne_eq,
      const_iterator.mk.injEq, Option.some.injEq, hne, not_false_eq_true, if_true,
      const_iterator.star, Heap.getData_some, hd, hv, if_false, hinc]
    exact ih

theorem searchChange_scan {h : Heap T} {l : LinkedList} (f c n : Nat) (hf : h.accs f = some c) :
    ∀ (xs done rest : List Nat), WF h l (done ++ (xs ++ rest)) →
      (∀ a ∈ xs, ∃ ca, h.accs a = some ca ∧ c < ca) →
      searchChange l.end_ { current := some f } (xs.length + n) h
          { current := (xs ++ rest ++ [l.tail_]).head? } =
        searchChange l.end_ { current := some f } n h { current := (rest ++ [l.tail_]).head? }
  | [], _, _, _, _ => by simp
  | a :: xs, done, rest, hw, hxs => by
    have hne : a ≠ l.tail_ := hw.ne_tail (by simp)
    obtain ⟨ca, hca, hlt⟩ := hxs a (by simp)
    have hw1 : WF h l (done ++ a :: (xs ++ rest)) := hw
    have hinc := hw1.inc_mid
    have hw2 : WF h l ((done ++ [a]) ++ (xs ++ rest)) := by simpa using hw
    have ih := searchChange_scan f c n hf xs (done ++ [a]) rest hw2
      (fun b hb => hxs b (List.mem_cons_of_mem _ hb))
    rw [List.length_cons, Nat.add_right_comm]
    simp only [List.cons_append, List.head?_cons, searchChange, end_, ne_eq,
      const_iterator.mk.injEq, Option.some.injEq, hne, not_false_eq_true, if_true,
      Heap.getAccess_some, hf, hca, ge_iff_le, Nat.not_le.2 hlt, if_false, hinc]
    exact ih

theorem searchLoop_end [DecidableEq T] (h : Heap T) (l : LinkedList) (v : T) (fi n : Nat) :
    searchLoop l v l.end_ fi n h { current := some l.tail_ } = some (h, l.end_) := by
  cases n <;> simp [searchLoop, end_]

theorem search_absent [DecidableEq T] {h : Heap T} {l : LinkedList} {ps : List Nat}
    (hw : WF h l ps) (v : T) (hv : ∀ a ∈ ps, h.datas a ≠ some v) {fuel : Nat}
    (hfuel : ps.length ≤ fuel) : search fuel h l v = some (h, l.end_) := by
  obtain ⟨n, rfl⟩ := Nat.exists_eq_add_of_le hfuel
  have hw0 : WF h l ([] ++ (ps ++ [])) := by simpa using hw
  have := searchLoop_scan v (ps.length + n) n ps [] [] hw0 hv
  simp only [List.append_nil, List.nil_append, List.head?_cons] at this
  simp only [search, hw.begin_eq, this, searchLoop_end]

theorem search_found [DecidableEq T] {h : Heap T} {l : LinkedList} {xs ys post : List Nat}
    {f c : Nat} {v : T} (hw : WF h l (xs ++ ys ++ f :: post))
    (hpre : ∀ a ∈ xs ++ ys, h.datas a ≠ some v) (hf : h.datas f = some v)
    (hc : h.accs f = some c)
    (hxs : ∀ a ∈ xs, ∃ ca, h.accs a = some ca ∧ (c + 1) % (UINT_MAX + 1) < ca)
    (hys : ∀ t ∈ ys.head?, ∃ ct, h.accs t = some ct ∧ ct ≤ (c + 1) % (UINT_MAX + 1))
    {k : Nat} (hfuel : (xs ++ ys).length + 1 ≤ k) :
    ∃ h2, search k h l v = some (h2, { current := some f }) ∧
      WF h2 l (xs ++ f :: (ys ++ post)) ∧
      h2.datas = h.datas ∧
      h2.accs = Function.update h.accs f (some ((c + 1) % (UINT_MAX + 1))) ∧
      h2.fresh = h.fresh ∧
      (∀ a, a ∉ l.spine (xs ++ ys ++ f :: post) →
        h2.nexts a = h.nexts a ∧ h2.prevs a = h.prevs a) := by
  generalize hk : k = fuel at hfuel ⊢
  obtain ⟨n, hn⟩ := Nat.exists_eq_add_of_le hfuel
  obtain ⟨m, hm⟩ : ∃ m, fuel = xs.length + (m + 1) := ⟨ys.length + n, by
    rw [hn]; simp only [List.length_append]; omega⟩
  have hfm : f ∈ xs ++ ys ++ f :: post := by simp
  have hft : f ≠ l.tail_ := hw.ne_tail hfm
  obtain ⟨nf, hnf⟩ := hw.live hfm
  -- the outer loop reaches the first match
  have hw0 : WF h l ([] ++ (xs ++ ys ++ f :: post)) := by simpa using hw
  have hscan := searchLoop_scan v fuel (n + 1) (xs ++ ys) [] (f :: post) hw0 hpre
  -- the counter is incremented
  obtain ⟨h1, e1, n1, p1, d1, c1, f1⟩ :=
    Heap.setAccess_spec ((c + 1) % (UINT_MAX + 1)) hnf
  have hw1 : WF h1 l (xs ++ ys ++ f :: post) :=
    hw.frame_heap (fun a _ => ⟨by rw [n1], by rw [p1]⟩) (le_of_eq f1.symm)
  have hinc : h.incAccess (some f) = some h1 := by
    simp only [Heap.incAccess, Heap.getAccess_some, hc, e1]
  have hfa : h1.accs f = some ((c + 1) % (UINT_MAX + 1)) := by rw [c1]; simp
  -- the inner loop reaches the target
  have hnd := hw.nodup
  have hxs1 : ∀ a ∈ xs, ∃ ca, h1.accs a = some ca ∧ (c + 1) % (UINT_MAX + 1) < ca := by
    intro a ha
    have hne : a ≠ f := by
      rintro rfl
      have := hw.nodup
      simp only [spine, List.append_assoc] at this
      have h2 := (List.nodup_cons.1 this).2
      rw [List.nodup_append] at h2
      exact h2.2.2 ha (by simp)
    rw [c1, Function.update_noteq hne]; exact hxs a ha
  have hw1b : WF h1 l ([] ++ (xs ++ (ys ++ f :: post))) := by simpa using hw1
  have hscan2 := searchChange_scan f _ (m + 1) hfa xs [] (ys ++ f :: post) hw1b hxs1
  have hinner : ∃ h2, searchChange l.end_ { current := some f } fuel h1
        { current := (xs ++ ys ++ f :: post ++ [l.tail_]).head? } =
          some (some (h2, { current := some f })) ∧
      WF h2 l (xs ++ f :: (ys ++ post)) ∧ h2.datas = h1.datas ∧ h2.accs = h1.accs ∧
      h2.fresh = h1.fresh ∧
      (∀ a, a ∉ l.spine (xs ++ ys ++ f :: post) →
        h2.nexts a = h1.nexts a ∧ h2.prevs a = h1.prevs a) := by
    rw [hm]
    simp only [List.append_assoc] at hscan2 ⊢
    rw [hscan2]
    cases ys with
    | nil =>
      refine ⟨h1, ?_, by simpa using hw1, rfl, rfl, rfl, fun _ _ => ⟨rfl, rfl⟩⟩
      simp [searchChange, end_, hft, hfa]
    | cons t ys =>
      obtain ⟨ct, hct, hle⟩ := hys t (by simp)
      have hw2 : WF h1 l (xs ++ t :: (ys ++ f :: post)) := by simpa using hw1
      have htt : t ≠ l.tail_ := hw2.ne_tail (by simp)
      have htf : f ≠ t := by
        rintro rfl
        have := hw2.nodup
        simp only [spine] at this
        have h2 := (List.nodup_cons.1 this).2
        rw [List.append_assoc, List.nodup_append] at h2
        have h3 := h2.2.1
        simp at h3
      have hta : h1.accs t = some ct := by
        rw [c1, Function.update_noteq (Ne.symm htf)]; exact hct
      obtain ⟨h2, r1, r2, r3, r4, r5, r6⟩ := relink_spec hw2
      refine ⟨h2, ?_, r2, r3, r4, r5, ?_⟩
      · simp [searchChange, end_, htt, hfa, hta, hle, htf, r1]
      · intro a ha; exact r6 a (by simpa using ha)
  obtain ⟨h2, i1, i2, i3, i4, i5, i6⟩ := hinner
  refine ⟨h2, ?_, i2, by rw [i3, d1], by rw [i4, c1], by rw [i5, f1], ?_⟩
  · have e0 : search fuel h l v = searchLoop l v l.end_ fuel fuel h
        { current := (xs ++ ys ++ f :: post ++ [l.tail_]).head? } := by
      simp only [search, hw.begin_eq]
    have e1 : searchLoop l v l.end_ fuel fuel h
        { current := (xs ++ ys ++ f :: post ++ [l.tail_]).head? } =
        searchLoop l v l.end_ fuel ((xs ++ ys).length + (n + 1)) h
        { current := (xs ++ ys ++ f :: post ++ [l.tail_]).head? } :=
      congrArg (fun k => searchLoop l v l.end_ fuel k h
        { current := (xs ++ ys ++ f :: post ++ [l.tail_]).head? }) (by omega)
    rw [e0, e1, hscan]
    simp only [end_] at i1
    simp only [List.cons_append, List.head?_cons, searchLoop, end_, ne_eq,
      const_iterator.mk.injEq, Option.some.injEq, hft, not_false_eq_true, if_true,
      const_iterator.star, Heap.getData_some, hf, hinc, hw1.begin_eq, i1]
  · intro a ha
    rw [(i6 a ha).1, (i6 a ha).2, n1, p1]
    exact ⟨rfl, rfl⟩

theorem init_spec [Inhabited T] (h : Heap T) :
    ∃ h1, init h = some (h1, { head_ := h.fresh, tail_ := h.fresh + 1, size_ := 0 }) ∧
      WF h1 { head_ := h.fresh, tail_ := h.fresh + 1, size_ := 0 } [] ∧
      h1.fresh = h.fresh + 2 ∧
      (∀ a, a ≠ h.fresh → a ≠ h.fresh + 1 →
        h1.nexts a = h.nexts a ∧ h1.prevs a = h.prevs a ∧
        h1.datas a = h.datas a ∧ h1.accs a = h.accs a) := by
  obtain ⟨ea, en, ep, ed, ec, ef⟩ := h.alloc_spec (Node.new (default : T) none none)
  obtain ⟨eb, en2, ep2, ed2, ec2, ef2⟩ :=
    (h.alloc (Node.new (default : T) none none)).1.alloc_spec (Node.new (default : T) none none)
  have hne : h.fresh ≠ h.fresh + 1 := by omega
  obtain ⟨nh, hnh⟩ := Heap.cells_ne_none_of_nexts (h := ((h.alloc (Node.new (default : T) none none)).1.alloc (Node.new (default : T) none none)).1) (a := h.fresh) (x := none)
    (by rw [en2, ef, en]; simp [Function.update_apply, Node.new])
  obtain ⟨h3, e3, n3, p3, d3, c3, f3⟩ := Heap.setNext_spec (some (h.fresh + 1)) hnh
  obtain ⟨nt, hnt⟩ := Heap.cells_ne_none_of_prevs (h := h3) (a := h.fresh + 1) (x := none)
    (by rw [p3, ep2, ef]; simp [Node.new])
  obtain ⟨h4, e4, n4, p4, d4, c4, f4⟩ := Heap.setPrev_spec (some h.fresh) hnt
  refine ⟨h4, ?_, ⟨?_, ?_, ?_, ?_, ?_, rfl⟩, ?_, ?_⟩
  · rw [ef] at eb
    simp only [init, ea, eb, e3, e4]
  · simp [spine]
  · simp only [spine, List.nil_append, List.chain'_pair, Heap.Linked]
    rw [n4, n3, p4]
    simp
  · show h4.prevs h.fresh = some none
    rw [p4, p3, ep2, ef, ep]
    simp [Function.update_apply, Node.new]
  · show h4.nexts (h.fresh + 1) = some none
    rw [n4, n3, en2, ef]
    simp [Function.update_apply, Node.new]
  · intro a ha
    rw [f4, f3, ef2, ef]
    simp [spine] at ha
    omega
  · rw [f4, f3, ef2, ef]
  · intro a h1 h2
    rw [n4, n3, p4, p3, d4, d3, c4, c3, en2, ep2, ed2, ec2, ef, en, ep, ed, ec]
    simp [Function.update_apply, h1, h2]

theorem eraseRange_spec : ∀ (B : List Nat) {h : Heap T} {l : LinkedList} {A C : List Nat},
    WF h l (A ++ (B ++ C)) → ∀ {fuel : Nat}, B.length ≤ fuel →
    ∃ h1, eraseRange fuel h l { current := (B ++ C ++ [l.tail_]).head? }
          { current := (C ++ [l.tail_]).head? } =
        some (h1, { l with size_ := l.size_ - B.length }, { current := (C ++ [l.tail_]).head? }) ∧
      WF h1 { l with size_ := l.size_ - B.length } (A ++ C) ∧
      (∀ a, a ∉ B → h1.datas a = h.datas a ∧ h1.accs a = h.accs a) ∧
      (∀ a ∈ B, h1.datas a = none) ∧
      h1.fresh = h.fresh ∧
      (∀ a, a ∉ l.spine (A ++ (B ++ C)) → h1.nexts a = h.nexts a ∧ h1.prevs a = h.prevs a)
  | [], h, l, A, C, hw, fuel, _ => by
    refine ⟨h, ?_, by simpa using hw, fun _ _ => ⟨rfl, rfl⟩, by simp, rfl, fun _ _ => ⟨rfl, rfl⟩⟩
    cases fuel <;> simp [eraseRange]
  | b :: B, h, l, A, C, hw, fuel, hfuel => by
    obtain ⟨k, rfl⟩ : ∃ k, fuel = k + 1 := ⟨fuel - 1, by simp at hfuel; omega⟩
    have hw1 : WF h l (A ++ b :: (B ++ C)) := hw
    obtain ⟨h1, e1, w1, d1, c1, f1, r1⟩ := erase_spec hw1
    obtain ⟨h2, e2, w2, k2, z2, f2, r2⟩ :=
      eraseRange_spec B w1 (show B.length ≤ k by simp at hfuel; omega)
    have hne : (some b : Ptr) ≠ (C ++ [l.tail_]).head? := by
      intro e
      have hm : b ∈ C ++ [l.tail_] := List.mem_of_mem_head? e.symm
      have hnd := hw.nodup
      simp only [spine] at hnd
      have h3 := (List.nodup_cons.1 hnd).2
      rw [List.append_assoc, List.nodup_append] at h3
      have h4 := h3.2.1
      rw [show (b :: B ++ C) ++ [l.tail_] = b :: (B ++ (C ++ [l.tail_])) by simp,
        List.nodup_cons] at h4
      exact h4.1 (List.mem_append_right _ hm)
    refine ⟨h2, ?_, ?_, ?_, ?_, ?_, ?_⟩
    · simp only [List.cons_append, List.head?_cons, eraseRange, ne_eq, const_iterator.mk.injEq,
        hne, not_false_eq_true, if_true, e1, List.append_assoc] at e2 ⊢
      rw [e2]
      simp [Nat.sub_sub, Nat.add_comm]
    · have : ({ l with size_ := l.size_ - (b :: B).length } : LinkedList) =
          { ({ l with size_ := l.size_ - 1 } : LinkedList) with
            size_ := ({ l with size_ := l.size_ - 1 } : LinkedList).size_ - B.length } := by
        simp [Nat.sub_sub, Nat.add_comm]
      rw [this]; exact w2
    · intro a ha
      simp only [List.mem_cons, not_or] at ha
      rw [(k2 a ha.2).1, (k2 a ha.2).2, d1, c1, Function.update_noteq ha.1,
        Function.update_noteq ha.1]
      exact ⟨rfl, rfl⟩
    · intro a ha
      rcases List.mem_cons.1 ha with rfl | ha
      · by_cases hb : a ∈ B
        · exact z2 a hb
        · rw [(k2 a hb).1, d1]; simp
      · exact z2 a ha
    · rw [f2, f1]
    · intro a ha
      have ha1 : a ∉ l.spine (A ++ (B ++ C)) := by
        simp only [spine, List.mem_cons, List.mem_append, List.mem_singleton] at ha ⊢
        tauto
      rw [(r2 a ha1).1, (r2 a ha1).2]
      exact r1 a ha

theorem walk_spec {h : Heap T} {l : LinkedList} (n : Nat) :
    ∀ (rest done : List Nat), WF h l (done ++ rest) →
      ∃ xs, walk l.end_ (rest.length + n) h { current := (rest ++ [l.tail_]).head? } = some xs ∧
        xs.map (fun x => x.1) = rest ∧
        ∀ x ∈ xs, h.datas x.1 = some x.2.1 ∧ h.accs x.1 = some x.2.2
  | [], _, _ => by
    refine ⟨[], ?_, rfl, by simp⟩
    cases n <;> simp [walk, end_]
  | a :: rest, done, hw => by
    have hne : a ≠ l.tail_ := hw.ne_tail (by simp)
    obtain ⟨nd, hnd⟩ := hw.live (a := a) (by simp)
    have hd : h.datas a = some nd.data_ := by simp [Heap.datas, hnd]
    have hc : h.accs a = some nd.access_ := by simp [Heap.accs, hnd]
    have hinc := hw.inc_mid
    have hw2 : WF h l ((done ++ [a]) ++ rest) := by simpa using hw
    obtain ⟨xs, e, hm, hx⟩ := walk_spec n rest (done ++ [a]) hw2
    refine ⟨(a, nd.data_, nd.access_) :: xs, ?_, by simp [hm], ?_⟩
    · rw [List.length_cons, Nat.add_right_comm]
      simp only [List.cons_append, List.head?_cons, walk, end_, ne_eq,
        const_iterator.mk.injEq, Option.some.injEq, hne, not_false_eq_true, if_true,
        const_iterator.star, Heap.getData_some, Heap.getAccess_some, hd, hc, hinc]
      simp only [end_] at e
      rw [e]
    · intro x hx2
      rcases List.mem_cons.1 hx2 with rfl | hx2
      · exact ⟨hd, hc⟩
      · exact hx x hx2

/-- Iterating a well-formed list from `begin()` to `end()` visits exactly its
data nodes, in order, and reads their values and counters. -/
theorem WF.iterate_eq {h : Heap T} {l : LinkedList} {ps : List Nat} (hw : WF h l ps)
    {fuel : Nat} (hfuel : ps.length ≤ fuel) :
    ∃ xs, iterate fuel h l = some xs ∧ xs.map (fun x => x.1) = ps ∧
      ∀ x ∈ xs, h.datas x.1 = some x.2.1 ∧ h.accs x.1 = some x.2.2 := by
  obtain ⟨n, rfl⟩ := Nat.exists_eq_add_of_le hfuel
  have hw0 : WF h l ([] ++ ps) := by simpa using hw
  obtain ⟨xs, e, hm, hx⟩ := walk_spec n ps [] hw0
  exact ⟨xs, by simp only [iterate, hw.begin_eq, e], hm, hx⟩

theorem WF.accs_eq {h : Heap T} {l : LinkedList} {ps : List Nat} (hw : WF h l ps)
    {a : Nat} (ha : a ∈ ps) : h.accs a = some (h.counter a) := by
  obtain ⟨n, hn⟩ := hw.live ha
  simp [Heap.counter, Heap.accs, hn]

theorem WF.nodup_nodes {h : Heap T} {l : LinkedList} {ps : List Nat} (hw : WF h l ps) :
    ps.Nodup := by
  have := hw.nodup
  simp only [spine] at this
  exact ((List.nodup_cons.1 this).2.sublist (List.sublist_append_left ps [l.tail_]))

theorem split_at_node {ps pre post : List Nat} {f : Nat} (hnd : ps.Nodup)
    (e : ps = pre ++ f :: post) :
    ps.takeWhile (fun a => decide (a ≠ f)) = pre ∧
      (ps.dropWhile (fun a => decide (a ≠ f))).tail = post := by
  subst e
  have hf : f ∉ pre := by
    intro hm
    rw [List.nodup_append] at hnd
    exact hnd.2.2 hm (by simp)
  have h1 : ∀ a ∈ pre, decide (a ≠ f) = true := fun a ha => by
    simp only [decide_eq_true_eq]; rintro rfl; exact hf ha
  constructor
  · rw [List.takeWhile_append_of_pos h1]; simp
  · rw [List.dropWhile_append_of_pos h1]; simp

theorem firstMatch_split [DecidableEq T] {h : Heap T} {ps : List Nat} {v : T} {f : Nat}
    (hm : firstMatch h ps v = some f) :
    ∃ pre post, ps = pre ++ f :: post ∧ (∀ a ∈ pre, h.datas a ≠ some v) ∧ h.datas f = some v := by
  obtain ⟨hf, pre, post, e, hpre⟩ := List.find?_eq_some.1 hm
  refine ⟨pre, post, e, fun a ha => ?_, by simpa using hf⟩
  have := hpre a ha
  simpa using this

/-- A successful `search` on a well-formed list: what is returned, the new
order of the nodes, and what happened to every field. -/
theorem search_hit [DecidableEq T] {h : Heap T} {l : LinkedList} {ps : List Nat} {v : T} {f : Nat}
    (hw : WF h l ps) (hm : firstMatch h ps v = some f) {fuel : Nat} (hfuel : ps.length ≤ fuel) :
    ∃ h1, search fuel h l v = some (h1, { current := some f }) ∧
      WF h1 l (promoted h ps f ((h.counter f + 1) % (UINT_MAX + 1))) ∧
      h1.datas = h.datas ∧
      h1.accs = Function.update h.accs f (some ((h.counter f + 1) % (UINT_MAX + 1))) ∧
      h1.fresh = h.fresh ∧
      (∀ a, a ∉ l.spine ps → h1.nexts a = h.nexts a ∧ h1.prevs a = h.prevs a) := by
  obtain ⟨pre, post, e, hpre, hf⟩ := firstMatch_split hm
  obtain ⟨e1, e2⟩ := split_at_node hw.nodup_nodes e
  have hfm : f ∈ ps := by rw [e]; simp
  have hc := hw.accs_eq hfm
  set c := (h.counter f + 1) % (UINT_MAX + 1) with hcdef
  have hsplit := List.takeWhile_append_dropWhile (fun a => decide (c < h.counter a)) pre
  have hps : ps = pre.takeWhile (fun a => decide (c < h.counter a)) ++
      pre.dropWhile (fun a => decide (c < h.counter a)) ++ f :: post := by
    rw [hsplit]; exact e
  have hw2 := hw
  rw [hps] at hw2
  have hsub : ∀ a ∈ pre, a ∈ ps := fun a ha => by rw [e]; simp [ha]
  obtain ⟨h1, r1, r2, r3, r4, r5, r6⟩ := search_found (v := v) (k := fuel) hw2
    (by rw [hsplit]; exact hpre) hf hc
    (fun a ha => ⟨h.counter a, hw.accs_eq (hsub a (List.takeWhile_subset _ ha)), by
      have := List.mem_takeWhile_imp ha
      simpa using this⟩)
    (fun t ht => ⟨h.counter t,
      hw.accs_eq (hsub t (List.dropWhile_subset _ (List.mem_of_mem_head? ht))), by
      have := List.head?_dropWhile_not (fun a => decide (c < h.counter a)) pre
      rw [ht] at this
      simpa using this⟩)
    (by rw [hsplit]; rw [e] at hfuel; simp at hfuel ⊢; omega)
  refine ⟨h1, r1, ?_, r3, r4, r5, ?_⟩
  · simp only [promoted, e1, e2]; exact r2
  · intro a ha; rw [hps] at ha; exact r6 a ha

theorem map_some_pair_injective {xs ys : List (T × Nat)}
    (e : xs.map (fun p => (some p.1, some p.2)) = ys.map (fun p => (some p.1, some p.2))) :
    xs = ys := by
  refine List.map_injective_iff.2 ?_ e
  rintro ⟨a, b⟩ ⟨c, d⟩ hp
  simp only [Prod.mk.injEq, Option.some.injEq] at hp
  exact Prod.ext hp.1 hp.2

/-- The values and counters read by a traversal are those stored in the data
nodes, in order. -/
theorem WF.toList_spec {h : Heap T} {l : LinkedList} {ps : List Nat} (hw : WF h l ps)
    {fuel : Nat} (hfuel : ps.length ≤ fuel) :
    ∃ ys, toList fuel h l = some ys ∧
      ys.map (fun p => (some p.1, some p.2)) = ps.map (fun a => (h.datas a, h.accs a)) := by
  obtain ⟨xs, e, hm, hx⟩ := hw.iterate_eq hfuel
  refine ⟨xs.map (fun x => x.2), by simp [toList, e], ?_⟩
  rw [← hm, List.map_map, List.map_map]
  refine List.map_congr_left (fun x hxm => ?_)
  simp [(hx x hxm).1, (hx x hxm).2]

/-- The data nodes of a well-formed list are determined by the heap. -/
theorem WF.nodes_unique {h : Heap T} {l : LinkedList} {ps qs : List Nat} (hw : WF h l ps)
    (hw2 : WF h l qs) : ps = qs := by
  obtain ⟨xs, e, hm, -⟩ := hw.iterate_eq (Nat.le_max_left ps.length qs.length)
  obtain ⟨ys, e2, hm2, -⟩ := hw2.iterate_eq (Nat.le_max_right ps.length qs.length)
  rw [e] at e2
  cases e2
  rw [← hm, ← hm2]

theorem insertAll_spec : ∀ (vs : List T) {h : Heap T} {l : LinkedList} {ps : List Nat},
    WF h l ps →
    ∃ h2 l2 qs, insertAll vs (h, l) = some (h2, l2) ∧ WF h2 l2 (ps ++ qs) ∧
      (∀ a, a < h.fresh → h2.datas a = h.datas a ∧ h2.accs a = h.accs a) ∧
      qs.map (fun a => (h2.datas a, h2.accs a)) = vs.map (fun v => (some v, some 0)) ∧
      (∀ q ∈ qs, h.fresh ≤ q) ∧ h.fresh ≤ h2.fresh ∧
      l2.size_ = l.size_ + vs.length ∧ l2.head_ = l.head_ ∧ l2.tail_ = l.tail_ ∧
      (∀ a, a ∉ l.spine ps → a < h.fresh → h2.nexts a = h.nexts a ∧ h2.prevs a = h.prevs a)
  | [], h, l, ps, hw =>
    ⟨h, l, [], rfl, by simpa using hw, fun _ _ => ⟨rfl, rfl⟩, rfl, by simp, le_refl _,
      rfl, rfl, rfl, fun _ _ _ => ⟨rfl, rfl⟩⟩
  | v :: vs, h, l, ps, hw => by
    obtain ⟨h1, e1, w1, d1, c1, f1, r1⟩ := insert_spec hw v
    obtain ⟨h2, l2, qs, e2, w2, k2, m2, b2, f2, s2, hd2, tl2, r2⟩ := insertAll_spec vs w1
    have hfr : h.fresh < h1.fresh := by omega
    refine ⟨h2, l2, h.fresh :: qs, ?_, by simpa using w2, ?_, ?_, ?_, by omega, ?_, hd2, tl2, ?_⟩
    · simp only [insertAll, List.foldlM_cons, e1] at e2 ⊢
      exact e2
    · intro a ha
      have hne : a ≠ h.fresh := by omega
      rw [(k2 a (by omega)).1, (k2 a (by omega)).2, d1, c1, Function.update_noteq hne,
        Function.update_noteq hne]
      exact ⟨rfl, rfl⟩
    · simp only [List.map_cons, m2, List.cons.injEq, and_true]
      rw [(k2 h.fresh hfr).1, (k2 h.fresh hfr).2, d1, c1]
      simp
    · intro q hq
      rcases List.mem_cons.1 hq with rfl | hq
      · exact le_refl _
      · have := b2 q hq; omega
    · rw [s2]; simp; omega
    · intro a ha hlt
      have hne : a ≠ h.fresh := by omega
      have ha2 : a ∉ spine { l with size_ := l.size_ + 1 } (ps ++ [h.fresh]) := by
        simp only [spine, List.mem_cons, List.mem_append, List.mem_singleton] at ha ⊢
        tauto
      rw [(r2 a ha2 (by omega)).1, (r2 a ha2 (by omega)).2]
      exact r1 a ha hne

theorem WF.prevs_tail_snoc {h : Heap T} {l : LinkedList} {D : List Nat} {x : Nat}
    (hw : WF h l (D ++ [x])) : h.prevs l.tail_ = some (some x) := by
  have hch := hw.chain
  have e : l.spine (D ++ [x]) = (l.head_ :: D) ++ x :: l.tail_ :: [] := by simp [spine]
  rw [e] at hch
  exact (List.chain'_append_cons_cons.1 hch).2.1.2

theorem WF.datas_eq {h : Heap T} {l : LinkedList} {ps : List Nat} (hw : WF h l ps)
    {a : Nat} (ha : a ∈ ps) : ∃ d, h.datas a = some d := by
  obtain ⟨n, hn⟩ := hw.live ha
  exact ⟨n.data_, by simp [Heap.datas, hn]⟩

theorem mem_spine_snoc {l : LinkedList} {s : Nat} {D : List Nat} {x b : Nat} :
    b ∈ spine { l with size_ := s } (D ++ [x]) ↔ b = x ∨ b ∈ l.spine D := by
  simp only [spine, List.mem_cons, List.mem_append, List.mem_singleton]
  tauto

theorem copyLoop_spec {rhs : LinkedList} :
    ∀ (rest done : List Nat) {h : Heap T} {l : LinkedList} {D : List Nat} (k : Nat),
    WF h l D → WF h rhs (done ++ rest) →
    (∀ a ∈ rhs.spine (done ++ rest), a ∉ l.spine D) → rest.length ≤ k →
    ∃ h2 l2 qs, copyLoop rhs.end_ k h l { current := (rest ++ [rhs.tail_]).head? } =
        some (h2, l2) ∧
      WF h2 l2 (D ++ qs) ∧ WF h2 rhs (done ++ rest) ∧
      qs.map (fun q => (h2.datas q, h2.accs q)) = rest.map (fun a => (h.datas a, h.accs a)) ∧
      (∀ a, a < h.fresh → h2.datas a = h.datas a ∧ h2.accs a = h.accs a) ∧
      (∀ q ∈ qs, h.fresh ≤ q) ∧ h.fresh ≤ h2.fresh ∧
      l2.head_ = l.head_ ∧ l2.tail_ = l.tail_ ∧ l2.size_ = l.size_ + rest.length ∧
      (∀ a, a ∉ l.spine D → a < h.fresh → h2.nexts a = h.nexts a ∧ h2.prevs a = h.prevs a)
  | [], done, h, l, D, k, hw, hr, _, _ => by
    refine ⟨h, l, [], ?_, by simpa using hw, hr, rfl, fun _ _ => ⟨rfl, rfl⟩, by simp,
      le_refl _, rfl, rfl, rfl, fun _ _ _ => ⟨rfl, rfl⟩⟩
    cases k <;> simp [copyLoop, end_]
  | a :: rest, done, h, l, D, k, hw, hr, hdis, hk => by
    obtain ⟨k, rfl⟩ : ∃ j, k = j + 1 := ⟨k - 1, by simp at hk; omega⟩
    have ham : a ∈ done ++ a :: rest := by simp
    have hne : a ≠ rhs.tail_ := hr.ne_tail ham
    obtain ⟨d, hd⟩ := hr.datas_eq ham
    have hc := hr.accs_eq ham
    have hlt : a < h.fresh := hr.bound a (by simp [spine])
    have haf : a ≠ h.fresh := by omega
    obtain ⟨h1, e1, w1, d1, c1, f1, r1⟩ := insert_spec hw d
    have hrfr : ∀ b ∈ rhs.spine (done ++ a :: rest), b ≠ h.fresh := fun b hb e => by
      have := hr.bound b hb; omega
    -- the node just appended receives the counter of the source node
    obtain ⟨nq, hnq⟩ := w1.live (a := h.fresh) (by simp)
    obtain ⟨h2, e2, n2, p2, d2, c2, f2⟩ := Heap.setAccess_spec (h.counter a) hnq
    have w2 : WF h2 { l with size_ := l.size_ + 1 } (D ++ [h.fresh]) :=
      w1.frame_heap (fun b _ => ⟨by rw [n2], by rw [p2]⟩) (le_of_eq f2.symm)
    have hr2 : WF h2 rhs (done ++ a :: rest) :=
      hr.frame_heap (fun b hb => by
        rw [n2, p2]; exact r1 b (hdis b hb) (hrfr b hb)) (by omega)
    have hinc := hr2.inc_mid
    have hr3 : WF h2 rhs ((done ++ [a]) ++ rest) := by simpa using hr2
    have hdis2 : ∀ b ∈ rhs.spine ((done ++ [a]) ++ rest),
        b ∉ spine { l with size_ := l.size_ + 1 } (D ++ [h.fresh]) := by
      intro b hb hm
      have hb2 : b ∈ rhs.spine (done ++ a :: rest) := by
        rw [List.append_assoc] at hb; exact hb
      rcases mem_spine_snoc.1 hm with hm | hm
      · exact hrfr b hb2 hm
      · exact hdis b hb2 hm
    obtain ⟨h3, l3, qs, e3, w3, hr4, m3, k3, b3, f3, hd3, tl3, s3, r3⟩ :=
      copyLoop_spec rest (done ++ [a]) k w2 hr3 hdis2 (by simp at hk; omega)
    have hfr : h.fresh < h2.fresh := by omega
    refine ⟨h3, l3, h.fresh :: qs, ?_, by simpa using w3, by simpa using hr4, ?_, ?_, ?_,
      by omega, hd3, tl3, ?_, ?_⟩
    · have q1 : h1.prevs l.tail_ = some (some h.fresh) := w1.prevs_tail_snoc
      have q2 : h1.accs a = some (h.counter a) := by
        rw [c1, Function.update_noteq haf]; exact hc
      simp only [List.cons_append, List.head?_cons, copyLoop, end_, ne_eq,
        const_iterator.mk.injEq, Option.some.injEq, hne, not_false_eq_true, if_true,
        Heap.getData_some, hd, e1, Heap.getPrev_some, Heap.getAccess_some, q1, q2, e2, hinc]
      exact e3
    · simp only [List.map_cons, List.cons.injEq]
      constructor
      · rw [(k3 h.fresh hfr).1, (k3 h.fresh hfr).2, d2, c2, d1, hd, hc]; simp
      · rw [m3]
        refine List.map_congr_left (fun b hb => ?_)
        have hb2 : b ≠ h.fresh := hrfr b (by simp [spine, hb])
        rw [d2, c2, d1, c1, Function.update_noteq hb2, Function.update_noteq hb2,
          Function.update_noteq hb2]
    · intro b hb
      have hb2 : b ≠ h.fresh := by omega
      rw [(k3 b (by omega)).1, (k3 b (by omega)).2, d2, c2, d1, c1,
        Function.update_noteq hb2, Function.update_noteq hb2, Function.update_noteq hb2]
      exact ⟨rfl, rfl⟩
    · intro q hq
      rcases List.mem_cons.1 hq with rfl | hq
      · exact le_refl _
      · have := b3 q hq; omega
    · rw [s3]; simp; omega
    · intro b hb hlt2
      have hb2 : b ≠ h.fresh := by omega
      have hb3 : b ∉ spine { l with size_ := l.size_ + 1 } (D ++ [h.fresh]) := fun hm =>
        (mem_spine_snoc.1 hm).elim hb2 hb
      rw [(r3 b hb3 (by omega)).1, (r3 b hb3 (by omega)).2, n2, p2]
      exact r1 b hb hb2

theorem WF.with_size {h : Heap T} {l : LinkedList} {ps : List Nat} (hw : WF h l ps)
    {s : Nat} (hs : s = ps.length) : WF h { l with size_ := s } ps :=
  { nodup := hw.nodup, chain := hw.chain, head_prev := hw.head_prev,
    tail_next := hw.tail_next, bound := hw.bound, size_eq := hs }

/-- The copy assignment between two distinct well-formed lists that share no
node: the destination ends up with fresh nodes carrying the values and
counters of the source, in order, and the source is left as it was. -/
theorem copyAssign_spec {h : Heap T} {l rhs : LinkedList} {D S : List Nat}
    (hw : WF h l D) (hr : WF h rhs S) (hdis : ∀ a ∈ rhs.spine S, a ∉ l.spine D)
    {ta ra : Nat} (hne : ta ≠ ra) {k : Nat} (hk1 : D.length ≤ k) (hk2 : S.length ≤ k) :
    ∃ h2 l2 qs, copyAssign k h ta l ra rhs = some (h2, l2) ∧
      WF h2 l2 qs ∧ WF h2 rhs S ∧
      qs.map (fun q => (h2.datas q, h2.accs q)) = S.map (fun a => (h.datas a, h.accs a)) ∧
      (∀ a ∈ S, h2.datas a = h.datas a ∧ h2.accs a = h.accs a) ∧
      l2.size_ = rhs.size_ ∧ l2.head_ = l.head_ ∧ l2.tail_ = l.tail_ ∧ h.fresh ≤ h2.fresh ∧
      (∀ a, a ∉ l.spine D → a < h.fresh →
        h2.nexts a = h.nexts a ∧ h2.prevs a = h.prevs a ∧
        h2.datas a = h.datas a ∧ h2.accs a = h.accs a) := by
  have hw0 : WF h l ([] ++ (D ++ [])) := by simpa using hw
  obtain ⟨h1, e1, w1, k1, -, f1, r1⟩ := eraseRange_spec D hw0 hk1
  simp only [List.append_nil, List.nil_append] at e1 w1 r1
  have hnotD : ∀ a, a ∉ l.spine D → a ∉ D := fun a ha hm => ha (by simp [spine, hm])
  have hr1 : WF h1 rhs S :=
    hr.frame_heap (fun a ha => r1 a (hdis a ha)) (le_of_eq f1.symm)
  cases S with
  | nil =>
    refine ⟨h1, _, [], ?_, w1, hr1, rfl, by simp, ?_, rfl, rfl, le_of_eq f1.symm, ?_⟩
    · have hemp : empty h1 rhs = some true := by
        simp [empty, hr1.nexts_head]
      simp only [copyAssign, ne_eq, hne, not_false_eq_true, if_true, hw.begin_eq, end_]
      have e1b := e1
      simp only [List.head?_cons] at e1b
      simp only [e1b, hemp, Bool.not_true, Bool.false_eq_true, if_false]
    · have := hw.size_eq; have := hr.size_eq
      simp only [List.length_nil] at *
      omega
    · intro a ha _
      exact ⟨(r1 a ha).1, (r1 a ha).2, (k1 a (hnotD a ha)).1, (k1 a (hnotD a ha)).2⟩
  | cons a S =>
    have hat : a ≠ rhs.tail_ := hr.ne_tail (by simp)
    have hemp : empty h1 rhs = some false := by
      simp [empty, hr1.nexts_head, hat]
    have hr0 : WF h1 rhs ([] ++ a :: S) := by simpa using hr1
    have hdis1 : ∀ b ∈ rhs.spine ([] ++ a :: S),
        b ∉ spine { l with size_ := l.size_ - D.length } [] := by
      intro b hb hm
      refine hdis b (by simpa using hb) ?_
      simp only [spine, List.mem_cons, List.mem_append, List.mem_singleton, List.nil_append,
        List.not_mem_nil, or_false] at hm ⊢
      tauto
    obtain ⟨h2, l2, qs, e2, w2, hr2, m2, k2, b2, f2, hd2, tl2, s2, r2⟩ :=
      copyLoop_spec (a :: S) [] k w1 hr0 hdis1 hk2
    have hlen : qs.length = (a :: S).length := by
      have := congrArg List.length m2
      simpa using this
    have hsrc : ∀ b ∈ a :: S, h1.datas b = h.datas b ∧ h1.accs b = h.accs b := fun b hb =>
      k1 b (hnotD b (hdis b (by simp only [spine, List.mem_cons, List.mem_append] at hb ⊢; tauto)))
    have hblt : ∀ b ∈ a :: S, b < h1.fresh := fun b hb =>
      hr1.bound b (by simp only [spine, List.mem_cons, List.mem_append] at hb ⊢; tauto)
    refine ⟨h2, { l2 with size_ := rhs.size_ }, qs, ?_, ?_, by simpa using hr2, ?_, ?_, rfl,
      hd2, tl2, by omega, ?_⟩
    · simp only [copyAssign, ne_eq, hne, not_false_eq_true, if_true, hw.begin_eq, end_]
      have e1b := e1
      simp only [List.head?_cons] at e1b
      simp only [end_] at e2
      simp only [e1b, hemp, Bool.not_false, if_true, hr1.begin_eq, e2]
    · refine WF.with_size (by simpa using w2) ?_
      rw [hr.size_eq, hlen]
    · rw [m2]
      refine List.map_congr_left (fun b hb => ?_)
      rw [(hsrc b hb).1, (hsrc b hb).2]
    · intro b hb
      rw [(k2 b (hblt b hb)).1, (k2 b (hblt b hb)).2]
      exact hsrc b hb
    · intro b hb hlt
      have hb1 : b ∉ spine { l with size_ := l.size_ - D.length } [] := by
        intro hm; apply hb
        simp only [spine, List.mem_cons, List.mem_append, List.mem_singleton, List.nil_append,
          List.not_mem_nil, or_false] at hm ⊢
        tauto
      have hlt1 : b < h1.fresh := by omega
      rw [(r2 b hb1 hlt1).1, (r2 b hb1 hlt1).2, (k2 b hlt1).1, (k2 b hlt1).2]
      exact ⟨(r1 b hb).1, (r1 b hb).2, (k1 b (hnotD b hb)).1, (k1 b (hnotD b hb)).2⟩

theorem firstMatch_of_mem [DecidableEq T] {h : Heap T} {ps : List Nat} {v : T}
    (hv : ∃ a ∈ ps, h.datas a = some v) : ∃ f, firstMatch h ps v = some f := by
  cases hf : firstMatch h ps v with
  | some f => exact ⟨f, rfl⟩
  | none =>
    obtain ⟨a, ha, hd⟩ := hv
    have := List.find?_eq_none.1 hf a ha
    simp [hd] at this

theorem promoted_eq {h : Heap T} {ps pre post : List Nat} {f : Nat} (c : Nat)
    (hnd : ps.Nodup) (e : ps = pre ++ f :: post) :
    promoted h ps f c = pre.takeWhile (fun a => decide (c < h.counter a)) ++
      f :: (pre.dropWhile (fun a => decide (c < h.counter a)) ++ post) := by
  obtain ⟨e1, e2⟩ := split_at_node hnd e
  simp only [promoted, e1, e2]

theorem counter_update_self {h h1 : Heap T} {f c : Nat}
    (e : h1.accs = Function.update h.accs f (some c)) : h1.counter f = c := by
  simp [Heap.counter, e]

theorem counter_update_other {h h1 : Heap T} {f c a : Nat}
    (e : h1.accs = Function.update h.accs f (some c)) (ha : a ≠ f) :
    h1.counter a = h.counter a := by
  simp [Heap.counter, e, Function.update_noteq ha]

theorem promoted_head {h : Heap T} (f c : Nat) (rest : List Nat) :
    promoted h (f :: rest) f c = f :: rest := by
  simp [promoted]

theorem repeatSearch_front [DecidableEq T] {l : LinkedList} {f : Nat} {rest : List Nat} {v : T}
    {k : Nat} (hk : (f :: rest).length ≤ k) :
    ∀ (n : Nat) (h : Heap T), WF h l (f :: rest) → h.datas f = some v →
      h.counter f + n ≤ UINT_MAX →
      ∃ h1, repeatSearch v k n h l = some h1 ∧ WF h1 l (f :: rest) ∧ h1.datas = h.datas ∧
        h1.accs = Function.update h.accs f (some (h.counter f + n)) ∧ h1.fresh = h.fresh
  | 0, h, hw, _, _ => by
    refine ⟨h, rfl, hw, rfl, ?_, rfl⟩
    rw [Nat.add_zero, ← hw.accs_eq (by simp), Function.update_eq_self]
  | n + 1, h, hw, hd, hn => by
    have hf : firstMatch h (f :: rest) v = some f := by simp [firstMatch, hd]
    obtain ⟨h1, e1, w1, d1, c1, f1, -⟩ := search_hit hw hf hk
    rw [promoted_head] at w1
    rw [Nat.mod_eq_of_lt (by omega)] at c1
    have hc1 : h1.counter f = h.counter f + 1 := counter_update_self c1
    obtain ⟨h2, e2, w2, d2, c2, f2⟩ := repeatSearch_front hk n h1 w1 (by rw [d1]; exact hd)
      (by omega)
    refine ⟨h2, by simp only [repeatSearch, e1, e2], w2, by rw [d2, d1], ?_, by rw [f2, f1]⟩
    rw [c2, c1, hc1, Function.update_idem, Nat.add_assoc, Nat.add_comm 1 n]

/-- The list built by inserting 1, 2 is well formed, its data nodes being at
the addresses 2, 3. -/
theorem built_12_wf : WF (built [1, 2]).1 (built [1, 2]).2 [2, 3] :=
  ⟨by decide, by
    simp only [spine, List.cons_append, List.nil_append, List.chain'_cons,
      List.chain'_singleton, and_true, Heap.Linked]
    decide, by decide, by decide, by decide, by decide⟩

/-- The list 1, 2 after 4294967295 searches for 1: the order is unchanged and
the counter of the node holding 1 is 4294967295. -/
theorem hotHeap_spec :
    ∃ h, hotHeap = some h ∧ WF h (built [1, 2]).2 [2, 3] ∧
      h.datas 2 = some 1 ∧ h.datas 3 = some 2 ∧ h.counter 2 = UINT_MAX ∧ h.counter 3 = 0 := by
  obtain ⟨h, e, w, d, c, -⟩ := @repeatSearch_front Nat _ (built [1, 2]).2 2 [3] 1 2
    (by decide) UINT_MAX (built [1, 2]).1 built_12_wf (by decide) (by decide)
  refine ⟨h, e, w, by rw [d]; decide, by rw [d]; decide, ?_, ?_⟩
  · rw [counter_update_self c, show (built [1, 2]).1.counter 2 = 0 by decide, Nat.zero_add]
  · rw [counter_update_other c (by decide)]; decide

theorem ordered_iff {h : Heap T} {ps : List Nat} :
    Ordered h ps ↔ ps.Pairwise (fun a b => h.counter b ≤ h.counter a) := by
  simp only [Ordered, List.pairwise_map]

theorem Ordered.congr_counter {h h1 : Heap T} {ps : List Nat} (ho : Ordered h ps)
    (e : ∀ a ∈ ps, h1.counter a = h.counter a) : Ordered h1 ps := by
  rw [ordered_iff] at ho ⊢
  exact ho.imp_of_mem (fun {a b} ha hb hr => by rw [e a ha, e b hb]; exact hr)

theorem Ordered.of_sublist {h : Heap T} {ps qs : List Nat} (ho : Ordered h ps)
    (hs : List.Sublist qs ps) : Ordered h qs := by
  rw [ordered_iff] at ho ⊢
  exact ho.sublist hs

/-- Promoting a node whose counter went up by one keeps a list ordered. -/
theorem ordered_promoted {h h1 : Heap T} {pre post : List Nat} {f : Nat}
    (ho : Ordered h (pre ++ f :: post)) (hnd : (pre ++ f :: post).Nodup)
    (hc : h1.counter = Function.update h.counter f (h.counter f + 1)) :
    Ordered h1 (pre.takeWhile (fun a => decide (h.counter f + 1 < h.counter a)) ++
      f :: (pre.dropWhile (fun a => decide (h.counter f + 1 < h.counter a)) ++ post)) := by
  have hsplit := List.takeWhile_append_dropWhile
    (fun a => decide (h.counter f + 1 < h.counter a)) pre
  have hxsP := fun a (ha : a ∈ pre.takeWhile
      (fun a => decide (h.counter f + 1 < h.counter a))) => List.mem_takeWhile_imp ha
  have hhead := List.head?_dropWhile_not (fun a => decide (h.counter f + 1 < h.counter a)) pre
  generalize pre.takeWhile (fun a => decide (h.counter f + 1 < h.counter a)) = xs at *
  generalize pre.dropWhile (fun a => decide (h.counter f + 1 < h.counter a)) = ys at *
  subst hsplit
  rw [ordered_iff] at ho ⊢
  have hfx : f ∉ xs := by
    intro hm; rw [List.append_assoc, List.nodup_append] at hnd
    exact hnd.2.2 hm (by simp)
  have hfy : f ∉ ys := by
    intro hm; rw [List.nodup_append] at hnd
    exact hnd.2.2 (List.mem_append_right _ hm) (by simp)
  have hfp : f ∉ post := by
    intro hm; rw [List.nodup_append, List.nodup_cons] at hnd
    exact hnd.2.1.1 hm
  have c1 : h1.counter f = h.counter f + 1 := by rw [hc]; simp
  have c2 : ∀ a, a ≠ f → h1.counter a = h.counter a := fun a ha => by
    rw [hc, Function.update_noteq ha]
  rw [List.append_assoc, List.pairwise_append, List.pairwise_append, List.pairwise_cons] at ho
  obtain ⟨pxs, ⟨pys, ⟨hfpost, ppost⟩, cys⟩, cxs⟩ := ho
  have hys : ∀ y ∈ ys, h.counter y ≤ h.counter f + 1 := by
    cases ys with
    | nil => simp
    | cons y0 ys =>
      have h0 : h.counter y0 ≤ h.counter f + 1 := by simpa using hhead
      intro y hy
      rcases List.mem_cons.1 hy with rfl | hy
      · exact h0
      · have := (List.pairwise_cons.1 pys).1 y hy
        omega
  rw [List.pairwise_append, List.pairwise_cons, List.pairwise_append]
  refine ⟨?_, ⟨?_, ?_, ?_, ?_⟩, ?_⟩
  · exact pxs.imp_of_mem (fun {a b} ha hb hr => by
      rw [c2 a (fun e => hfx (e ▸ ha)), c2 b (fun e => hfx (e ▸ hb))]; exact hr)
  · intro b hb
    rw [c1]
    rcases List.mem_append.1 hb with hb | hb
    · rw [c2 b (fun e => hfy (e ▸ hb))]; exact hys b hb
    · rw [c2 b (fun e => hfp (e ▸ hb))]
      have := hfpost b hb; omega
  · exact pys.imp_of_mem (fun {a b} ha hb hr => by
      rw [c2 a (fun e => hfy (e ▸ ha)), c2 b (fun e => hfy (e ▸ hb))]; exact hr)
  · exact ppost.imp_of_mem (fun {a b} ha hb hr => by
      rw [c2 a (fun e => hfp (e ▸ ha)), c2 b (fun e => hfp (e ▸ hb))]; exact hr)
  · intro a ha b hb
    rw [c2 a (fun e => hfy (e ▸ ha)), c2 b (fun e => hfp (e ▸ hb))]
    exact cys a ha b (List.mem_cons_of_mem _ hb)
  · intro a ha b hb
    rw [c2 a (fun e => hfx (e ▸ ha))]
    rcases List.mem_cons.1 hb with rfl | hb
    · rw [c1]
      have := hxsP a ha
      simp only [decide_eq_true_eq] at this
      omega
    · rcases List.mem_append.1 hb with hb | hb
      · rw [c2 b (fun e => hfy (e ▸ hb))]
        exact cxs a ha b (List.mem_append_left _ hb)
      · rw [c2 b (fun e => hfp (e ▸ hb))]
        exact cxs a ha b (List.mem_append_right _ (List.mem_cons_of_mem _ hb))

theorem WF.iterate_nodes {h : Heap T} {l : LinkedList} {ps : List Nat} (hw : WF h l ps)
    {k : Nat} (hk : l.size_ ≤ k) {xs : List (Nat × T × Nat)} (e : iterate k h l = some xs) :
    xs.map (fun x => x.1) = ps := by
  obtain ⟨ys, e2, hm, -⟩ := hw.iterate_eq (hw.size_eq ▸ hk)
  rw [e] at e2
  cases e2
  exact hm

theorem counter_of_cells {h h1 : Heap T} {a : Nat} (e : h1.cells a = h.cells a) :
    h1.counter a = h.counter a ∧ h1.nexts a = h.nexts a ∧ h1.prevs a = h.prevs a := by
  simp [Heap.counter, Heap.accs, Heap.nexts, Heap.prevs, e]

theorem counter_of_accs {h h1 : Heap T} {a : Nat} (e : h1.accs a = h.accs a) :
    h1.counter a = h.counter a := by
  simp [Heap.counter, e]

theorem ordered_of_map_eq {h h2 : Heap T} {S qs : List Nat}
    (e : qs.map (fun q => (h2.datas q, h2.accs q)) = S.map (fun a => (h.datas a, h.accs a)))
    (ho : Ordered h S) : Ordered h2 qs := by
  have e2 := congrArg (List.map (fun p : Option T × Option Nat => p.2.getD 0)) e
  simp only [List.map_map] at e2
  simp only [Ordered]
  have e3 : qs.map h2.counter = S.map h.counter := e2
  rw [e3]; exact ho

theorem ordered_snoc {h : Heap T} {ps : List Nat} {x : Nat} (ho : Ordered h ps)
    (hx : h.counter x = 0) : Ordered h (ps ++ [x]) := by
  rw [ordered_iff] at ho ⊢
  rw [List.pairwise_append]
  refine ⟨ho, List.pairwise_singleton _ _, fun a _ b hb => ?_⟩
  rw [List.mem_singleton.1 hb, hx]
  exact Nat.zero_le _

/-- Constructing a further list leaves an existing well-formed list as it is. -/
theorem WF.after_init [Inhabited T] {h : Heap T} {rhs : LinkedList} {S : List Nat}
    (hw : WF h rhs S) :
    ∃ h1, init h = some (h1, { head_ := h.fresh, tail_ := h.fresh + 1, size_ := 0 }) ∧
      WF h1 { head_ := h.fresh, tail_ := h.fresh + 1, size_ := 0 } [] ∧
      WF h1 rhs S ∧ h1.fresh = h.fresh + 2 ∧
      (∀ a ∈ rhs.spine S, a ≠ h.fresh ∧ a ≠ h.fresh + 1) ∧
      (∀ a, a < h.fresh → h1.nexts a = h.nexts a ∧ h1.prevs a = h.prevs a ∧
        h1.datas a = h.datas a ∧ h1.accs a = h.accs a) := by
  obtain ⟨h0, e0, w0, f0, r0⟩ := init_spec h
  have hlt : ∀ a ∈ rhs.spine S, a ≠ h.fresh ∧ a ≠ h.fresh + 1 := fun a ha => by
    have := hw.bound a ha; omega
  refine ⟨h0, e0, w0, hw.frame_heap (fun a ha =>
    ⟨(r0 a (hlt a ha).1 (hlt a ha).2).1, (r0 a (hlt a ha).1 (hlt a ha).2).2.1⟩) (by omega),
    f0, hlt, fun a ha => r0 a (by omega) (by omega)⟩

theorem moveAssign_eq (ta ra : Nat) (l rhs : LinkedList) :
    moveAssign ta l ra rhs = if ta ≠ ra then (rhs, l) else (l, rhs) := by
  by_cases hne : ta = ra <;> simp [moveAssign, hne]

/-- Every list obtained from an empty list is well formed, and its counters
are in non-increasing order as long as no counter wrapped around. -/
theorem Reachable.invariant [DecidableEq T] [Inhabited T] {w : Bool} {h : Heap T}
    {l : LinkedList} (hr : Reachable w h l) : ∃ ps, WF h l ps ∧ (w = false → Ordered h ps) := by
  induction hr with
  | init h h1 l e =>
    obtain ⟨h2, e2, w2, -, -⟩ := init_spec h
    rw [e] at e2
    cases e2
    exact ⟨[], w2, fun _ => List.Pairwise.nil⟩
  | insert h h1 l l1 x _ e ih =>
    obtain ⟨ps, hw, ho⟩ := ih
    obtain ⟨h2, e2, w2, -, c2, -, -⟩ := insert_spec hw x
    rw [e] at e2
    cases e2
    refine ⟨_, w2, fun hwr => ordered_snoc ((ho hwr).congr_counter (fun a ha => ?_)) ?_⟩
    · have hne : a ≠ h.fresh := by
        have := hw.bound a (by simp [spine, ha]); omega
      exact counter_of_accs (by rw [c2, Function.update_noteq hne])
    · simp [Heap.counter, c2]
  | search h h1 l fuel v it _ hk e hmax ih =>
    obtain ⟨ps, hw, ho⟩ := ih
    have hk2 : ps.length ≤ fuel := hw.size_eq ▸ hk
    cases hf : firstMatch h ps v with
    | none =>
      have hv : ∀ a ∈ ps, h.datas a ≠ some v := fun a ha => by
        have := List.find?_eq_none.1 hf a ha
        simpa using this
      rw [search_absent hw v hv hk2] at e
      cases e
      exact ⟨ps, hw, ho⟩
    | some f =>
      obtain ⟨h2, e2, w2, -, c2, -, -⟩ := search_hit hw hf hk2
      rw [e] at e2
      cases e2
      refine ⟨_, w2, fun hwr => ?_⟩
      obtain ⟨pre, post, ep, -, -⟩ := firstMatch_split hf
      have hfm : f ∈ ps := by rw [ep]; simp
      have hlt := hmax hwr (by
        simp only [end_, ne_eq, const_iterator.mk.injEq, Option.some.injEq]
        exact hw.ne_tail hfm) f rfl
      have hmod : (h.counter f + 1) % (UINT_MAX + 1) = h.counter f + 1 :=
        Nat.mod_eq_of_lt (by omega)
      rw [hmod] at c2 ⊢
      rw [promoted_eq _ hw.nodup_nodes ep]
      have hnd := hw.nodup_nodes
      have ho2 := ho hwr
      rw [ep] at hnd ho2
      refine ordered_promoted ho2 hnd ?_
      funext a
      by_cases ha : a = f
      · subst ha; simp [counter_update_self c2]
      · simp [counter_update_other c2 ha, Function.update_noteq ha]
  | erase h h1 l l1 fuel xs a it _ hk e ha er ih =>
    obtain ⟨ps, hw, ho⟩ := ih
    rw [hw.iterate_nodes hk e] at ha
    obtain ⟨A, B, rfl⟩ := List.append_of_mem ha
    obtain ⟨h2, e2, w2, -, c2, -, -⟩ := erase_spec hw
    rw [er] at e2
    cases e2
    refine ⟨_, w2, fun hwr => ((ho hwr).of_sublist (by simp)).congr_counter (fun b hb => ?_)⟩
    have hne : b ≠ a := by
      rintro rfl
      have := hw.nodup_nodes
      rw [List.nodup_append, List.nodup_cons] at this
      rcases List.mem_append.1 hb with hb | hb
      · exact this.2.2 hb (by simp)
      · exact this.2.1.1 hb
    exact counter_of_accs (by rw [c2, Function.update_noteq hne])
  | eraseRange h h1 l l1 fuel xs A B C it _ hk e hs er ih =>
    obtain ⟨ps, hw, ho⟩ := ih
    rw [hw.iterate_nodes hk e] at hs
    subst hs
    have hB : B.length ≤ fuel := by
      have := hw.size_eq
      simp only [List.length_append] at this
      omega
    obtain ⟨h2, e2, w2, k2, -, -, -⟩ := eraseRange_spec B hw hB
    rw [er] at e2
    cases e2
    refine ⟨_, w2, fun hwr => ((ho hwr).of_sublist (by simp)).congr_counter (fun b hb => ?_)⟩
    have hnb : b ∉ B := by
      intro hm
      have := hw.nodup_nodes
      rw [List.nodup_append, List.nodup_append] at this
      rcases List.mem_append.1 hb with hb | hb
      · exact this.2.2 hb (List.mem_append_left _ hm)
      · exact this.2.1.2.2 hm hb
    exact counter_of_accs (k2 b hnb).2
  | copyConstruct h h1 rhs l1 fuel ta ra _ hk hne e ih =>
    obtain ⟨S, hw, ho⟩ := ih
    obtain ⟨h0, e0, w0, f0, r0⟩ := init_spec h
    have hlt : ∀ a ∈ rhs.spine S, a ≠ h.fresh ∧ a ≠ h.fresh + 1 := fun a ha => by
      have := hw.bound a ha; omega
    have hw0 : WF h0 rhs S := hw.frame_heap (fun a ha =>
      ⟨(r0 a (hlt a ha).1 (hlt a ha).2).1, (r0 a (hlt a ha).1 (hlt a ha).2).2.1⟩) (by omega)
    obtain ⟨h2, l2, qs, e2, w2, -, m2, -, -, -, -, -, -⟩ :=
      copyAssign_spec (k := fuel) w0 hw0 (fun a ha hm => by
        have := hlt a ha
        simp only [spine, List.nil_append, List.mem_cons, List.mem_singleton,
          List.not_mem_nil, or_false] at hm
        omega) hne (Nat.zero_le _) (hw.size_eq ▸ hk)
    simp only [LinkedList.copyConstruct, e0] at e
    rw [e] at e2
    cases e2
    refine ⟨qs, w2, fun hwr => ordered_of_map_eq m2 ((ho hwr).congr_counter (fun a ha => ?_))⟩
    have := hlt a (by simp [spine, ha])
    exact counter_of_accs (r0 a this.1 this.2).2.2.2
  | copyAssign h h1 l rhs l1 fuel ta ra xs ys _ _ hk1 hk2 e1 e2 hdis hne e ih1 ih2 =>
    obtain ⟨D, hwl, -⟩ := ih1
    obtain ⟨S, hwr, ho⟩ := ih2
    rw [hwl.iterate_nodes hk1 e1, hwr.iterate_nodes hk2 e2] at hdis
    obtain ⟨h2, l2, qs, e3, w2, -, m2, -, -, -, -, -, -⟩ :=
      copyAssign_spec (k := fuel) hwl hwr (fun a ha hm => by
        refine hdis a ?_ ?_
        · simp only [spine, List.mem_cons, List.mem_append, List.mem_singleton] at ha ⊢; tauto
        · simp only [spine, List.mem_cons, List.mem_append, List.mem_singleton] at hm ⊢; tauto)
        hne (hwl.size_eq ▸ hk1) (hwr.size_eq ▸ hk2)
    rw [e] at e3
    cases e3
    exact ⟨qs, w2, fun hw => ordered_of_map_eq m2 (ho hw)⟩
  | frame h h1 l fuel xs _ hk e hc hf ih =>
    obtain ⟨ps, hw, ho⟩ := ih
    rw [hw.iterate_nodes hk e] at hc
    have hc2 : ∀ a ∈ l.spine ps, h1.cells a = h.cells a := fun a ha => hc a (by
      simp only [spine, List.mem_cons, List.mem_append, List.mem_singleton] at ha ⊢; tauto)
    refine ⟨ps, hw.frame_heap (fun a ha => ⟨(counter_of_cells (hc2 a ha)).2.1,
      (counter_of_cells (hc2 a ha)).2.2⟩) hf, fun hwr => (ho hwr).congr_counter (fun a ha => ?_)⟩
    exact (counter_of_cells (hc2 a (by simp [spine, ha]))).1
  | moveAssign h l rhs l1 rhs1 ta ra _ _ e ih1 ih2 =>
    by_cases hne : ta = ra
    · simp only [LinkedList.moveAssign, hne, ne_eq, not_true_eq_false, if_false,
        Prod.mk.injEq] at e
      exact e.1 ▸ ih1
    · simp only [LinkedList.moveAssign, hne, ne_eq, not_false_eq_true, if_true,
        Prod.mk.injEq] at e
      exact e.1 ▸ ih2
  | moveAssignSource h l rhs l1 rhs1 ta ra _ _ e ih1 ih2 =>
    by_cases hne : ta = ra
    · simp only [LinkedList.moveAssign, hne, ne_eq, not_true_eq_false, if_false,
        Prod.mk.injEq] at e
      exact e.2 ▸ ih2
    · simp only [LinkedList.moveAssign, hne, ne_eq, not_false_eq_true, if_true,
        Prod.mk.injEq] at e
      exact e.2 ▸ ih1
  | moveConstruct h h1 rhs l1 rhs1 ta ra _ e ih =>
    obtain ⟨S, hw, ho⟩ := ih
    obtain ⟨h0, e0, w0, wr, -, -, r0⟩ := hw.after_init
    simp only [LinkedList.moveConstruct, e0, moveAssign_eq, Option.some.injEq,
      Prod.mk.injEq] at e
    obtain ⟨rfl, e2⟩ := e
    have hor : w = false → Ordered h0 S := fun hwr => (ho hwr).congr_counter (fun a ha =>
      counter_of_accs (r0 a (hw.bound a (by simp [spine, ha]))).2.2.2)
    by_cases hne : ta = ra
    · simp only [hne, ne_eq, not_true_eq_false, if_false, Prod.mk.injEq] at e2
      exact e2.1 ▸ ⟨[], w0, fun _ => List.Pairwise.nil⟩
    · simp only [hne, ne_eq, not_false_eq_true, if_true, Prod.mk.injEq] at e2
      exact e2.1 ▸ ⟨S, wr, hor⟩
  | moveConstructSource h h1 rhs l1 rhs1 ta ra _ e ih =>
    obtain ⟨S, hw, ho⟩ := ih
    obtain ⟨h0, e0, w0, wr, -, -, r0⟩ := hw.after_init
    simp only [LinkedList.moveConstruct, e0, moveAssign_eq, Option.some.injEq,
      Prod.mk.injEq] at e
    obtain ⟨rfl, e2⟩ := e
    have hor : w = false → Ordered h0 S := fun hwr => (ho hwr).congr_counter (fun a ha =>
      counter_of_accs (r0 a (hw.bound a (by simp [spine, ha]))).2.2.2)
    by_cases hne : ta = ra
    · simp only [hne, ne_eq, not_true_eq_false, if_false, Prod.mk.injEq] at e2
      exact e2.2 ▸ ⟨S, wr, hor⟩
    · simp only [hne, ne_eq, not_false_eq_true, if_true, Prod.mk.injEq] at e2
      exact e2.2 ▸ ⟨[], w0, fun _ => List.Pairwise.nil⟩

theorem hotHeap2_spec :
    ∃ h, hotHeap2 = some h ∧ WF h (built [1, 2]).2 [2, 3] ∧
      h.datas 2 = some 1 ∧ h.datas 3 = some 2 ∧ h.counter 2 = UINT_MAX ∧ h.counter 3 = 1 := by
  obtain ⟨h, e, w, d2, d3, c2, c3⟩ := hotHeap_spec
  have hf : firstMatch h [2, 3] 2 = some 3 := by simp [firstMatch, d2, d3]
  obtain ⟨h1, e1, w1, d1, c1, -, -⟩ := search_hit w hf (le_refl 2)
  rw [@promoted_eq _ h [2, 3] [2] [] 3 _ w.nodup_nodes rfl, c3] at w1
  have hw1 : WF h1 (built [1, 2]).2 [2, 3] := by
    have ht : decide ((0 + 1) % (UINT_MAX + 1) < h.counter 2) = true := by
      rw [c2]; decide
    simpa [List.takeWhile, List.dropWhile, ht] using w1
  refine ⟨h1, by simp only [hotHeap2, e, Option.some_bind, e1, Option.map_some'], hw1,
    by rw [d1]; exact d2, by rw [d1]; exact d3, ?_, ?_⟩
  · rw [counter_update_other c1 (by decide)]; exact c2
  · rw [counter_update_self c1, c3]; decide

theorem hotHeap3_spec :
    ∃ h, hotHeap3 = some h ∧ WF h (built [1, 2]).2 [2, 3] ∧
      h.counter 2 = 0 ∧ h.counter 3 = 1 := by
  obtain ⟨h, e, w, d2, -, c2, c3⟩ := hotHeap2_spec
  have hf : firstMatch h [2, 3] 1 = some 2 := by simp [firstMatch, d2]
  obtain ⟨h1, e1, w1, -, c1, -, -⟩ := search_hit w hf (le_refl 2)
  rw [promoted_head] at w1
  refine ⟨h1, by simp only [hotHeap3, e, Option.some_bind, e1, Option.map_some'], w1, ?_, ?_⟩
  · rw [counter_update_self c1, c2]; decide
  · rw [counter_update_other c1 (by decide)]; exact c3

/-- The list built by inserting 5, 3, 5 into an empty list is obtained from an
empty list. -/
theorem built_535_reachable (w : Bool) :
    Reachable w (built [5, 3, 5]).1 (built [5, 3, 5]).2 :=
  Reachable.insert (built [5, 3]).1 _ (built [5, 3]).2 _ 5
    (Reachable.insert (built [5]).1 _ (built [5]).2 _ 3
      (Reachable.insert (built ([] : List Nat)).1 _ (built ([] : List Nat)).2 _ 5
        (Reachable.init Heap.empty _ _ rfl) rfl) rfl) rfl

theorem reachable_repeatSearch [DecidableEq T] [Inhabited T] {l : LinkedList} {v : T}
    {k : Nat} (hk : l.size_ ≤ k) :
    ∀ (n : Nat) (h h1 : Heap T), Reachable true h l → repeatSearch v k n h l = some h1 →
      Reachable true h1 l
  | 0, h, h1, hr, e => by
    simp only [repeatSearch, Option.some.injEq] at e
    exact e ▸ hr
  | n + 1, h, h1, hr, e => by
    simp only [repeatSearch] at e
    cases hs : search k h l v with
    | none => simp [hs] at e
    | some r =>
      rw [hs] at e
      exact reachable_repeatSearch hk n r.1 h1
        (Reachable.search h r.1 l k v r.2 hr hk hs (fun hw => by simp at hw)) e

/-- The list 1, 2 is obtained from an empty list. -/
theorem built_12_reachable (w : Bool) : Reachable w (built [1, 2]).1 (built [1, 2]).2 :=
  Reachable.insert (built [1]).1 _ (built [1]).2 _ 2
    (Reachable.insert (built ([] : List Nat)).1 _ (built ([] : List Nat)).2 _ 1
      (Reachable.init Heap.empty _ _ rfl) rfl) rfl

theorem hotHeap_reachable {h : Heap Nat} (e : hotHeap = some h) :
    Reachable true h (built [1, 2]).2 :=
  reachable_repeatSearch (by decide) UINT_MAX _ h (built_12_reachable true) e

theorem hotHeap2_reachable {h : Heap Nat} (e : hotHeap2 = some h) :
    Reachable true h (built [1, 2]).2 := by
  simp only [hotHeap2, Option.bind_eq_some, Option.map_eq_some'] at e
  obtain ⟨h0, e0, r, er, rfl⟩ := e
  exact Reachable.search h0 r.1 _ 2 2 r.2 (hotHeap_reachable e0) (by decide) er
    (fun hw => by simp at hw)

theorem hotHeap3_reachable {h : Heap Nat} (e : hotHeap3 = some h) :
    Reachable true h (built [1, 2]).2 := by
  simp only [hotHeap3, Option.bind_eq_some, Option.map_eq_some'] at e
  obtain ⟨h0, e0, r, er, rfl⟩ := e
  exact Reachable.search h0 r.1 _ 2 1 r.2 (hotHeap2_reachable e0) (by decide) er
    (fun hw => by simp at hw)

/-! ## The example lists -/

/-- The list built by inserting 5, 3, 5 is well formed, its data nodes being
at the addresses 2, 3, 4. -/
theorem built_535_wf : WF (built [5, 3, 5]).1 (built [5, 3, 5]).2 [2, 3, 4] :=
  ⟨by decide, by
    simp only [spine, List.cons_append, List.nil_append, List.chain'_cons,
      List.chain'_singleton, and_true, Heap.Linked]
    decide, by decide, by decide, by decide, by decide⟩

/-- The freshly constructed list is well formed and has no data node. -/
theorem built_nil_wf : WF (built ([] : List Nat)).1 (built ([] : List Nat)).2 [] :=
  ⟨by decide, by
    simp only [spine, List.cons_append, List.nil_append, List.chain'_cons,
      List.chain'_singleton, and_true, Heap.Linked]
    decide, by decide, by decide, by decide, by decide⟩

/-- The list built by inserting 10, 20, 30, 40 is well formed, its data nodes
being at the addresses 2, 3, 4, 5. -/
theorem built_four_wf :
    WF (built [10, 20, 30, 40]).1 (built [10, 20, 30, 40]).2 [2, 3, 4, 5] :=
  ⟨by decide, by
    simp only [spine, List.cons_append, List.nil_append, List.chain'_cons,
      List.chain'_singleton, and_true, Heap.Linked]
    decide, by decide, by decide, by decide, by decide⟩

/-- The list built by inserting 1, 2, 3 is well formed, its data nodes being
at the addresses 2, 3, 4. -/
theorem built_123_wf : WF (built [1, 2, 3]).1 (built [1, 2, 3]).2 [2, 3, 4] :=
  ⟨by decide, by
    simp only [spine, List.cons_append, List.nil_append, List.chain'_cons,
      List.chain'_singleton, and_true, Heap.Linked]
    decide, by decide, by decide, by decide, by decide⟩

/-- The list 1, 2, 3 after two calls of `search(3)` is well formed, its data
nodes being, in order, at the addresses 4, 2, 3. -/
theorem searchedHeap_wf : WF searchedHeap (built [1, 2, 3]).2 [4, 2, 3] :=
  ⟨by decide, by
    simp only [spine, List.cons_append, List.nil_append, List.chain'_cons,
      List.chain'_singleton, and_true, Heap.Linked]
    decide, by decide, by decide, by decide, by decide⟩

theorem toList_congr {h h2 : Heap T} {l l2 : LinkedList} {ps qs : List Nat}
    (hw : WF h l ps) (hw2 : WF h2 l2 qs)
    (e : qs.map (fun q => (h2.datas q, h2.accs q)) = ps.map (fun a => (h.datas a, h.accs a)))
    {k : Nat} (hk : ps.length ≤ k) :
    ∃ src, toList k h l = some src ∧ toList k h2 l2 = some src := by
  have hlen : qs.length = ps.length := by
    have := congrArg List.length e
    simpa using this
  obtain ⟨ys, ey, hy⟩ := hw.toList_spec hk
  obtain ⟨zs, ez, hz⟩ := hw2.toList_spec (show qs.length ≤ k by omega)
  refine ⟨ys, ey, ?_⟩
  rw [ez]
  congr 1
  apply map_some_pair_injective
  rw [hz, hy, e]

/-- The copy constructor applied to a well-formed list: the new list has
fresh nodes carrying the values and counters of the source, in order, and the
source is left as it was. -/
theorem copyConstruct_spec [Inhabited T] {h : Heap T} {rhs : LinkedList} {S : List Nat}
    (hr : WF h rhs S) {ta ra : Nat} (hne : ta ≠ ra) {k : Nat} (hk : S.length ≤ k) :
    ∃ h2 l2 qs, copyConstruct k h ta ra rhs = some (h2, l2) ∧
      WF h2 l2 qs ∧ WF h2 rhs S ∧
      qs.map (fun q => (h2.datas q, h2.accs q)) = S.map (fun a => (h.datas a, h.accs a)) ∧
      (∀ a ∈ S, h2.datas a = h.datas a ∧ h2.accs a = h.accs a) ∧
      l2.size_ = rhs.size_ := by
  obtain ⟨h0, e0, w0, wr, -, hlt, r0⟩ := hr.after_init
  obtain ⟨h2, l2, qs, e2, w2, wr2, m2, k2, s2, -, -, -, -⟩ :=
    copyAssign_spec (k := k) w0 wr (fun a ha hm => by
      have := hlt a ha
      simp only [spine, List.nil_append, List.mem_cons, List.mem_singleton,
        List.not_mem_nil, or_false] at hm
      omega) hne (Nat.zero_le _) hk
  have hS : ∀ a ∈ S, h0.datas a = h.datas a ∧ h0.accs a = h.accs a := fun a ha =>
    (r0 a (hr.bound a (by simp [spine, ha]))).2.2
  refine ⟨h2, l2, qs, by simp only [copyConstruct, e0, e2], w2, wr2, ?_, fun a ha => ?_, s2⟩
  · rw [m2]
    exact List.map_congr_left (fun a ha => by rw [(hS a ha).1, (hS a ha).2])
  · rw [(k2 a ha).1, (k2 a ha).2]; exact hS a ha

/-- In `pairHeap` the list 3, 1, 2 (nodes 4, 2, 3) is well formed. -/
theorem pairHeap_source_wf : WF pairHeap.1 (built [1, 2, 3]).2 [4, 2, 3] :=
  ⟨by decide, by
    simp only [spine, List.cons_append, List.nil_append, List.chain'_cons,
      List.chain'_singleton, and_true, Heap.Linked]
    decide, by decide, by decide, by decide, by decide⟩

/-- In `pairHeap` the second list, holding 77 in the node 7, is well formed. -/
theorem pairHeap_dest_wf : WF pairHeap.1 pairHeap.2 [7] :=
  ⟨by decide, by
    simp only [spine, List.cons_append, List.nil_append, List.chain'_cons,
      List.chain'_singleton, and_true, Heap.Linked]
    decide, by decide, by decide, by decide, by decide⟩

theorem chain_getElem {R : Nat → Nat → Prop} :
    ∀ (L : List Nat) (i a b : Nat), List.Chain' R L → L[i]? = some a → L[i + 1]? = some b →
      R a b
  | [], _, _, _, _, e, _ => by simp at e
  | [_], i, _, _, _, _, e => by simp at e
  | x :: y :: rest, 0, a, b, hc, e1, e2 => by
    simp only [List.getElem?_cons_zero, Option.some.injEq, List.getElem?_cons_succ] at e1 e2
    subst e1 e2
    exact (List.chain'_cons.1 hc).1
  | x :: y :: rest, i + 1, a, b, hc, e1, e2 => by
    simp only [List.getElem?_cons_succ] at e1 e2
    exact chain_getElem (y :: rest) i a b (List.chain'_cons.1 hc).2 e1
      (by simpa only [List.getElem?_cons_succ] using e2)

theorem spine_length (l : LinkedList) (ps : List Nat) : (l.spine ps).length = ps.length + 2 := by
  simp [spine]

theorem WF.linked_at {h : Heap T} {l : LinkedList} {ps : List Nat} (hw : WF h l ps)
    {i : Nat} (hi : i + 1 < ps.length + 2) :
    ∃ a b, (l.spine ps)[i]? = some a ∧ (l.spine ps)[i + 1]? = some b ∧ h.Linked a b := by
  have h1 : i < (l.spine ps).length := by rw [spine_length]; omega
  have h2 : i + 1 < (l.spine ps).length := by rw [spine_length]; omega
  refine ⟨(l.spine ps)[i], (l.spine ps)[i + 1], List.getElem?_eq_getElem h1,
    List.getElem?_eq_getElem h2, ?_⟩
  exact chain_getElem _ i _ _ hw.chain (List.getElem?_eq_getElem h1)
    (List.getElem?_eq_getElem h2)

theorem WF.advance_spine {h : Heap T} {l : LinkedList} {ps : List Nat} (hw : WF h l ps) :
    ∀ (k i : Nat), i + k < ps.length + 2 →
      const_iterator.advance h k { current := (l.spine ps)[i]? } =
        some { current := (l.spine ps)[i + k]? }
  | 0, i, _ => rfl
  | k + 1, i, hik => by
    obtain ⟨a, b, ea, eb, hl⟩ := hw.linked_at (i := i) (by omega)
    have ih := WF.advance_spine hw k (i + 1) (by omega)
    rw [eb] at ih
    simp only [const_iterator.advance, const_iterator.inc, ea, Heap.getNext_some, hl.1, ne_eq,
      reduceCtorEq, not_false_eq_true, if_true, ih]
    rw [show i + (k + 1) = i + 1 + k by omega]

theorem WF.retreat_spine {h : Heap T} {l : LinkedList} {ps : List Nat} (hw : WF h l ps) :
    ∀ (k i : Nat), k ≤ i → i < ps.length + 2 →
      const_iterator.retreat h k { current := (l.spine ps)[i]? } =
        some { current := (l.spine ps)[i - k]? }
  | 0, i, _, _ => rfl
  | k + 1, i, hki, hi => by
    obtain ⟨j, rfl⟩ : ∃ j, i = j + 1 := ⟨i - 1, by omega⟩
    obtain ⟨a, b, ea, eb, hl⟩ := hw.linked_at (i := j) (by omega)
    have ih := WF.retreat_spine hw k j (by omega) (by omega)
    rw [ea] at ih
    simp only [const_iterator.retreat, const_iterator.dec, eb, Heap.getPrev_some, hl.2, ne_eq,
      reduceCtorEq, not_false_eq_true, if_true, ih]
    rw [show j + 1 - (k + 1) = j - k by omega]

theorem spine_getElem_succ (l : LinkedList) (ps : List Nat) (k : Nat) :
    (l.spine ps)[k + 1]? = (ps ++ [l.tail_])[k]? := by
  simp only [spine, List.getElem?_cons_succ]

theorem spine_getElem_last (l : LinkedList) (ps : List Nat) :
    (l.spine ps)[ps.length + 1]? = some l.tail_ := by
  rw [spine_getElem_succ, List.getElem?_append_right (le_refl _)]
  simp

theorem WF.begin_spine {h : Heap T} {l : LinkedList} {ps : List Nat} (hw : WF h l ps) :
    begin h l = some { current := (l.spine ps)[1]? } := by
  rw [hw.begin_eq, spine_getElem_succ l ps 0, List.head?_eq_getElem?]

theorem WF.empty_eq {h : Heap T} {l : LinkedList} {ps : List Nat} (hw : WF h l ps) :
    empty h l = some (decide (ps = [])) := by
  simp only [empty, Heap.getNext_some, hw.nexts_head, Option.some.injEq]
  cases ps with
  | nil => simp
  | cons a ps =>
    have := hw.ne_tail (a := a) (by simp)
    simp [this]

theorem WF.linked_succ {h : Heap T} {l : LinkedList} {ps : List Nat} (hw : WF h l ps)
    {x : Nat} (hx : x ∈ l.head_ :: ps) :
    ∃ y, y ∈ ps ++ [l.tail_] ∧ h.nexts x = some (some y) ∧ h.prevs y = some (some x) := by
  obtain ⟨A, B, e⟩ := List.append_of_mem hx
  obtain ⟨y, B1, hB⟩ : ∃ y B1, B ++ [l.tail_] = y :: B1 := by
    cases B with
    | nil => exact ⟨l.tail_, [], rfl⟩
    | cons b B => exact ⟨b, B ++ [l.tail_], rfl⟩
  have hsp : l.spine ps = A ++ x :: y :: B1 := by
    have : l.spine ps = (l.head_ :: ps) ++ [l.tail_] := by simp [spine]
    rw [this, e, List.append_assoc, List.cons_append, hB]
  have hch := hw.chain
  rw [hsp] at hch
  have hl := (List.chain'_cons.1 (List.chain'_split.1 hch).2).1
  have hy : y ∈ ps ++ [l.tail_] := by
    have h1 : y ∈ l.spine ps := by rw [hsp]; simp
    have h2 : y ≠ l.head_ := by
      intro e2
      have hn := hw.nodup
      rw [hsp] at hn
      have h3 : l.head_ ∈ A ++ [x] := by
        have e3 : l.head_ :: ps = A ++ x :: B := e
        cases A with
        | nil => simp at e3; simp [e3.1]
        | cons a A => simp at e3; simp [e3.1]
      rw [show A ++ x :: y :: B1 = (A ++ [x]) ++ y :: B1 by simp, List.nodup_append] at hn
      exact hn.2.2 h3 (by simp [e2])
    simp only [spine, List.mem_cons] at h1
    exact h1.resolve_left h2
  exact ⟨y, hy, hl.1, hl.2⟩

theorem erase_split {ps pre post : List Nat} {f : Nat} (hnd : ps.Nodup)
    (e : ps = pre ++ f :: post) : ps.erase f = pre ++ post := by
  subst e
  have hf : f ∉ pre := fun hm => by
    rw [List.nodup_append] at hnd
    exact hnd.2.2 hm (by simp)
  rw [List.erase_append_right _ hf, List.erase_cons_head]

theorem warmHeap_spec :
    ∃ h, warmHeap = some h ∧ WF h (built [1, 2]).2 [2, 3] ∧ Reachable true h (built [1, 2]).2 ∧
      h.datas 2 = some 1 ∧ h.datas 3 = some 2 ∧ h.counter 2 = UINT_MAX - 1 ∧ h.counter 3 = 0 := by
  obtain ⟨h, e, w, d, c, -⟩ := @repeatSearch_front Nat _ (built [1, 2]).2 2 [3] 1 2
    (by decide) (UINT_MAX - 1) (built [1, 2]).1 built_12_wf (by decide) (by decide)
  refine ⟨h, e, w, reachable_repeatSearch (by decide) (UINT_MAX - 1) _ h (built_12_reachable true) e,
    by rw [d]; decide, by rw [d]; decide, ?_, ?_⟩
  · rw [counter_update_self c, show (built [1, 2]).1.counter 2 = 0 by decide, Nat.zero_add]
  · rw [counter_update_other c (by decide)]; decide

theorem WF.links_determined {h h2 : Heap T} {l : LinkedList} {ps : List Nat}
    (hw : WF h l ps) (hw2 : WF h2 l ps) {a : Nat} (ha : a ∈ l.spine ps) :
    h2.nexts a = h.nexts a ∧ h2.prevs a = h.prevs a := by
  obtain ⟨i, hi, e⟩ := List.getElem_of_mem ha
  have hi2 : i < ps.length + 2 := by rwa [spine_length] at hi
  have ei : (l.spine ps)[i]? = some a := by rw [List.getElem?_eq_getElem hi, e]
  have hnd := hw.nodup
  constructor
  · by_cases hlast : i + 1 < ps.length + 2
    · obtain ⟨x, y, e1, e2, hl⟩ := hw.linked_at hlast
      obtain ⟨x2, y2, e3, e4, hl2⟩ := hw2.linked_at hlast
      rw [ei] at e1 e3
      rw [e2] at e4
      cases e1; cases e3; cases e4
      rw [hl.1, hl2.1]
    · have hi3 : i = ps.length + 1 := by omega
      subst hi3
      rw [spine_getElem_last] at ei
      cases ei
      rw [hw.tail_next, hw2.tail_next]
  · cases i with
    | zero =>
      have : a = l.head_ := by simpa [spine] using ei.symm
      subst this
      rw [hw.head_prev, hw2.head_prev]
    | succ j =>
      obtain ⟨x, y, e1, e2, hl⟩ := hw.linked_at (i := j) hi2
      obtain ⟨x2, y2, e3, e4, hl2⟩ := hw2.linked_at (i := j) hi2
      rw [ei] at e2 e4
      rw [e1] at e3
      cases e2; cases e3; cases e4
      rw [hl.2, hl2.2]

theorem promoted_perm {h : Heap T} {ps pre post : List Nat} {f : Nat} (c : Nat)
    (hnd : ps.Nodup) (e : ps = pre ++ f :: post) : List.Perm (promoted h ps f c) ps := by
  rw [promoted_eq c hnd e]
  have hsplit := List.takeWhile_append_dropWhile (fun a => decide (c < h.counter a)) pre
  refine List.perm_middle.trans ?_
  rw [← List.append_assoc, hsplit, e]
  exact List.perm_middle.symm

theorem intOfSize_of_le {n : Nat} (hn : n ≤ INT_MAX) : intOfSize n = (n : Int) := by
  have h1 : n % 4294967296 = n := Nat.mod_eq_of_lt (by simp only [INT_MAX] at hn; omega)
  simp only [intOfSize, h1, if_pos hn]

theorem reachable_insertAll [DecidableEq T] [Inhabited T] {w : Bool} :
    ∀ (vs : List T) (h h2 : Heap T) (l l2 : LinkedList), Reachable w h l →
      insertAll vs (h, l) = some (h2, l2) → Reachable w h2 l2
  | [], h, h2, l, l2, hr, e => by
    simp only [insertAll, List.foldlM_nil, pure, Option.some.injEq, Prod.mk.injEq] at e
    obtain ⟨rfl, rfl⟩ := e
    exact hr
  | v :: vs, h, h2, l, l2, hr, e => by
    simp only [insertAll, List.foldlM_cons] at e
    cases hi : insert h l v with
    | none => simp [hi] at e
    | some r =>
      rw [hi] at e
      exact reachable_insertAll vs r.1 h2 r.2 l2 (Reachable.insert h r.1 l r.2 v hr hi) e

/-- The list made of `n` inserts of 0 into an empty list: the construction
succeeds, and the list is obtained from an empty list, is well formed and has
`n` data nodes. -/
theorem build_replicate_spec (w : Bool) (n : Nat) :
    ∃ h l ps, build (List.replicate n (0 : Nat)) = some (h, l) ∧ Reachable w h l ∧
      WF h l ps ∧ ps.length = n ∧ l.size_ = n := by
  have hw0 := built_nil_wf
  have hr0 : Reachable w (built ([] : List Nat)).1 (built ([] : List Nat)).2 :=
    Reachable.init Heap.empty _ _ rfl
  obtain ⟨h2, l2, qs, e2, w2, -, m2, -, -, s2, -, -, -⟩ :=
    insertAll_spec (List.replicate n (0 : Nat)) hw0
  have hbd : build (List.replicate n (0 : Nat)) = some (h2, l2) := by
    have hi : init (Heap.empty : Heap Nat) = some (built ([] : List Nat)) := rfl
    unfold build
    rw [hi, Option.some_bind]
    exact e2
  have hlen : qs.length = n := by
    have := congrArg List.length m2
    simpa using this
  refine ⟨h2, l2, qs, hbd, reachable_insertAll _ _ _ _ _ hr0 e2, by simpa using w2, hlen, ?_⟩
  rw [s2, List.length_replicate]
  show 0 + n = n
  omega

theorem fullList_spec :
    ∃ h l ps, fullList = some (h, l) ∧ Reachable true h l ∧ WF h l ps ∧
      ps.length = INT_MAX ∧ l.size_ = INT_MAX :=
  build_replicate_spec true INT_MAX

theorem overfullList_spec :
    ∃ h l ps, overfullList = some (h, l) ∧ Reachable true h l ∧ WF h l ps ∧
      ps.length = INT_MAX + 1 ∧ l.size_ = INT_MAX + 1 :=
  build_replicate_spec true (INT_MAX + 1)

theorem hugeList_spec :
    ∃ h l ps, hugeList = some (h, l) ∧ Reachable true h l ∧ WF h l ps ∧
      ps.length = 4294967296 ∧ l.size_ = 4294967296 :=
  build_replicate_spec true 4294967296

theorem size_of_le {l : LinkedList} (hn : l.size_ ≤ INT_MAX) : l.size = (l.size_ : Int) :=
  intOfSize_of_le hn

end LinkedList

/-! ## The claims of the specification -/

namespace LinkedList

variable {T : Type}

/-- C1, as stated, fails: in the list 1, 2 reached by 4294967295 searches for 1,
the node holding 1 has counter 4294967295, and one more `search(1)` finds it
and leaves its counter at 0, not at 4294967296. -/
theorem search_wraps_counter :
    ∃ h, hotHeap = some h ∧ WF h (built [1, 2]).2 [2, 3] ∧
      firstMatch h [2, 3] 1 = some 2 ∧ h.counter 2 = 4294967295 ∧
      ∃ h1, search 2 h (built [1, 2]).2 1 = some (h1, { current := some 2 }) ∧
        h1.counter 2 = 0 := by
  obtain ⟨h, e, w, d2, -, c2, -⟩ := hotHeap_spec
  have hf : firstMatch h [2, 3] 1 = some 2 := by simp [firstMatch, d2]
  obtain ⟨h1, e1, -, -, c1, -, -⟩ := search_hit w hf (le_refl 2)
  refine ⟨h, e, w, hf, c2, h1, e1, ?_⟩
  rw [counter_update_self c1, c2]
  decide

/-- C1, amended: on a well-formed list holding `v`, `search(v)` succeeds and
returns an iterator at the first node whose value equals `v`, which is not the
end iterator and dereferences to `v`; that node's counter becomes the old one
plus one modulo 2^32, which is exactly one more whenever the old counter is
below `UINT_MAX`; no value changes and no other node's counter changes. -/
theorem search_increments_first_match [DecidableEq T] (h : Heap T) (l : LinkedList)
    (ps : List Nat) (v : T) (fuel : Nat) (hw : WF h l ps)
    (hv : ∃ a ∈ ps, h.datas a = some v) (hfuel : ps.length ≤ fuel) :
    ∃ f h1, firstMatch h ps v = some f ∧
      search fuel h l v = some (h1, { current := some f }) ∧
      ({ current := some f } : iterator) ≠ l.end_ ∧
      const_iterator.star h1 { current := some f } = some v ∧
      h1.counter f = (h.counter f + 1) % (UINT_MAX + 1) ∧
      (h.counter f < UINT_MAX → h1.counter f = h.counter f + 1) ∧
      (∀ a, a ≠ f → h1.accs a = h.accs a) ∧ h1.datas = h.datas := by
  obtain ⟨f, hf⟩ := firstMatch_of_mem hv
  obtain ⟨h1, e1, -, d1, c1, -, -⟩ := search_hit hw hf hfuel
  obtain ⟨pre, post, e, -, hd⟩ := firstMatch_split hf
  have hfm : f ∈ ps := by rw [e]; simp
  refine ⟨f, h1, hf, e1, ?_, ?_, counter_update_self c1, fun hlt => ?_, fun a ha => ?_, d1⟩
  · simp only [end_, ne_eq, const_iterator.mk.injEq, Option.some.injEq]
    exact hw.ne_tail hfm
  · simp only [const_iterator.star, Heap.getData_some, d1, hd]
  · rw [counter_update_self c1]
    apply Nat.mod_eq_of_lt; omega
  · rw [c1, Function.update_noteq ha]

/-- Witness of C1: after insert 5, 3, 5, `search(5)` finds the first 5 (the
node at address 2), raises its counter from 0 to 1 and leaves the rest alone:
iterating then yields (5,1), (3,0), (5,0). -/
theorem search_increments_first_match_witness :
    WF (built [5, 3, 5]).1 (built [5, 3, 5]).2 [2, 3, 4] ∧
    (∃ f h1, firstMatch (built [5, 3, 5]).1 [2, 3, 4] 5 = some f ∧
      search 3 (built [5, 3, 5]).1 (built [5, 3, 5]).2 5 = some (h1, { current := some f }) ∧
      h1.counter f = 1 ∧ f = 2) ∧
    (search 3 (built [5, 3, 5]).1 (built [5, 3, 5]).2 5).bind
        (fun r => toList 3 r.1 (built [5, 3, 5]).2) = some [(5, 1), (3, 0), (5, 0)] := by
  refine ⟨built_535_wf, ?_, by decide⟩
  obtain ⟨f, h1, hf, e, -, -, hc, -, -, -⟩ :=
    search_increments_first_match (built [5, 3, 5]).1 (built [5, 3, 5]).2 [2, 3, 4] 5 3
      built_535_wf ⟨2, by decide, by decide⟩ (by decide)
  have hf2 : firstMatch (built [5, 3, 5]).1 [2, 3, 4] 5 = some 2 := by decide
  have : f = 2 := by rw [hf] at hf2; exact Option.some.inj hf2
  subst this
  refine ⟨2, h1, hf, e, ?_, rfl⟩
  rw [hc, show (built [5, 3, 5]).1.counter 2 = 0 by decide]
  decide

/-- C2: on a well-formed list none of whose data nodes holds `v`, `search(v)`
returns the end iterator and hands back the heap it was given: the iteration
order, every value, every counter and the stored size are untouched. -/
theorem search_absent_unchanged [DecidableEq T] (h : Heap T) (l : LinkedList) (ps : List Nat)
    (v : T) (fuel : Nat) (hw : WF h l ps) (hv : ∀ a ∈ ps, h.datas a ≠ some v)
    (hfuel : ps.length ≤ fuel) :
    search fuel h l v = some (h, l.end_) :=
  search_absent hw v hv hfuel

/-- Witness of C2: searching 7 in the list 5, 3, 5. -/
theorem search_absent_unchanged_witness :
    WF (built [5, 3, 5]).1 (built [5, 3, 5]).2 [2, 3, 4] ∧
    search 3 (built [5, 3, 5]).1 (built [5, 3, 5]).2 7 =
      some ((built [5, 3, 5]).1, (built [5, 3, 5]).2.end_) :=
  ⟨built_535_wf,
    search_absent_unchanged (built [5, 3, 5]).1 (built [5, 3, 5]).2 [2, 3, 4] 7 3 built_535_wf
      (by decide) (by decide)⟩

/-- C3: on a well-formed list holding `v`, let `f` be the first node equal to
`v`, `c` its incremented counter, and `t` the first node, in the order before
the call, whose counter after the increment is at most `c` (`f` itself
qualifies). Then `search(v)` succeeds; if `t` is `f` the order of the nodes is
unchanged, and otherwise `f` comes immediately before `t` afterwards. -/
theorem search_places_before_target [DecidableEq T] (h : Heap T) (l : LinkedList)
    (ps : List Nat) (v : T) (fuel f t : Nat) (hw : WF h l ps)
    (hf : firstMatch h ps v = some f) (hfuel : ps.length ≤ fuel)
    (ht : ps.find? (fun a => decide
      (Function.update h.counter f ((h.counter f + 1) % (UINT_MAX + 1)) a ≤
        (h.counter f + 1) % (UINT_MAX + 1))) = some t) :
    ∃ h1 ps1, search fuel h l v = some (h1, { current := some f }) ∧ WF h1 l ps1 ∧
      h1.counter = Function.update h.counter f ((h.counter f + 1) % (UINT_MAX + 1)) ∧
      (t = f → ps1 = ps) ∧ (t ≠ f → ∃ A B, ps1 = A ++ f :: t :: B) := by
  obtain ⟨h1, e1, w1, -, c1, -, -⟩ := search_hit hw hf hfuel
  obtain ⟨pre, post, e, -, -⟩ := firstMatch_split hf
  rw [promoted_eq _ hw.nodup_nodes e] at w1
  generalize hc : (h.counter f + 1) % (UINT_MAX + 1) = c at *
  have hfpre : f ∉ pre := by
    intro hm
    have := hw.nodup_nodes
    rw [e, List.nodup_append] at this
    exact this.2.2 hm (by simp)
  have hsplit := List.takeWhile_append_dropWhile (fun a => decide (c < h.counter a)) pre
  have hxs : ∀ a ∈ pre.takeWhile (fun a => decide (c < h.counter a)),
      ¬ (decide (Function.update h.counter f c a ≤ c) = true) := by
    intro a ha
    have h1 := List.mem_takeWhile_imp ha
    have h2 : a ≠ f := fun e2 => hfpre (e2 ▸ List.takeWhile_subset _ ha)
    simp only [decide_eq_true_eq] at h1
    simp only [Function.update_noteq h2, decide_eq_true_eq]
    omega
  have hcnt : h1.counter = Function.update h.counter f c := by
    funext a
    by_cases ha : a = f
    · subst ha; simp [counter_update_self c1]
    · simp [counter_update_other c1 ha, Function.update_noteq ha]
  refine ⟨h1, _, e1, w1, hcnt, ?_, ?_⟩
  all_goals
    rw [e, ← hsplit, List.append_assoc, List.find?_append,
      List.find?_eq_none.2 hxs, Option.none_or] at ht
  · intro htf
    cases hys : pre.dropWhile (fun a => decide (c < h.counter a)) with
    | nil =>
      rw [hys, List.append_nil] at hsplit
      rw [hsplit, e, List.nil_append]
    | cons y ys =>
      exfalso
      have hy := List.head?_dropWhile_not (fun a => decide (c < h.counter a)) pre
      have hyf : y ≠ f := fun e2 => hfpre (e2 ▸ List.dropWhile_subset _ (hys ▸ List.mem_cons_self y ys))
      rw [hys] at ht hy
      simp only [List.head?_cons, Option.all_some, Bool.not_eq_true', decide_eq_false_iff_not,
        Nat.not_lt] at hy
      rw [List.cons_append, List.find?_cons_of_pos _ (by
        simp only [Function.update_noteq hyf, decide_eq_true_eq]; exact hy)] at ht
      exact hyf ((Option.some.inj ht).trans htf)
  · intro htf
    cases hys : pre.dropWhile (fun a => decide (c < h.counter a)) with
    | nil =>
      exfalso
      rw [hys] at ht
      rw [List.nil_append, List.find?_cons_of_pos _ (by simp)] at ht
      exact htf (Option.some.inj ht).symm
    | cons y ys =>
      have hy := List.head?_dropWhile_not (fun a => decide (c < h.counter a)) pre
      have hyf : y ≠ f := fun e2 => hfpre (e2 ▸ List.dropWhile_subset _ (hys ▸ List.mem_cons_self y ys))
      rw [hys] at ht hy
      simp only [List.head?_cons, Option.all_some, Bool.not_eq_true', decide_eq_false_iff_not,
        Nat.not_lt] at hy
      rw [List.cons_append, List.find?_cons_of_pos _ (by
        simp only [Function.update_noteq hyf, decide_eq_true_eq]; exact hy)] at ht
      cases Option.some.inj ht
      exact ⟨_, ys ++ post, by rw [List.cons_append]⟩

/-- Witness of C3: in the list 1, 2, 3 with all counters 0, `search(3)` finds
the node at address 4; the target is the first node (address 2), and
afterwards the found node comes immediately before it: the order is 3, 1, 2. -/
theorem search_places_before_target_witness :
    WF (built [1, 2, 3]).1 (built [1, 2, 3]).2 [2, 3, 4] ∧
    (∃ h1 ps1, search 3 (built [1, 2, 3]).1 (built [1, 2, 3]).2 3 =
        some (h1, { current := some 4 }) ∧
      WF h1 (built [1, 2, 3]).2 ps1 ∧ ∃ A B, ps1 = A ++ 4 :: 2 :: B) ∧
    (search 3 (built [1, 2, 3]).1 (built [1, 2, 3]).2 3).bind
        (fun r => toList 3 r.1 (built [1, 2, 3]).2) = some [(3, 1), (1, 0), (2, 0)] := by
  refine ⟨built_123_wf, ?_, by decide⟩
  obtain ⟨h1, ps1, e, w, -, -, hne⟩ :=
    search_places_before_target (built [1, 2, 3]).1 (built [1, 2, 3]).2 [2, 3, 4] 3 3 4 2
      built_123_wf (by decide) (by decide) (by decide)
  exact ⟨h1, ps1, e, w, hne (by decide)⟩

/-- C4, as stated, fails: the list obtained from an empty list by insert 1,
insert 2, 4294967295 calls of `search(1)`, one `search(2)` and one more
`search(1)` has the order 1, 2 with counters 0, 1, which is not
non-increasing. -/
theorem wrapped_list_not_ordered :
    ∃ h, hotHeap3 = some h ∧ Reachable true h (built [1, 2]).2 ∧
      WF h (built [1, 2]).2 [2, 3] ∧
      h.counter 2 = 0 ∧ h.counter 3 = 1 ∧ ¬ Ordered h [2, 3] := by
  obtain ⟨h, e, w, c2, c3⟩ := hotHeap3_spec
  refine ⟨h, e, hotHeap3_reachable e, w, c2, c3, ?_⟩
  simp [Ordered, c2, c3]

/-- C4, amended: every list obtained from an empty list by a finite sequence
of insert, search, erase(position), erase(first,last) and copy in which no
search finds a node whose counter is `UINT_MAX` is well formed and has its
access counters in non-increasing order from front to back; on such a list
insert, erase and every search that finds a node with counter below `UINT_MAX`
(or finds nothing) succeed and give a list in non-increasing order again. -/
theorem counters_stay_ordered [DecidableEq T] [Inhabited T] (h : Heap T) (l : LinkedList)
    (hr : Reachable false h l) :
    ∃ ps, WF h l ps ∧ Ordered h ps ∧
      (∀ x : T, ∃ h1 l1 ps1, insert h l x = some (h1, l1) ∧ WF h1 l1 ps1 ∧ Ordered h1 ps1) ∧
      (∀ (v : T) (fuel : Nat), ps.length ≤ fuel →
        (∀ f, firstMatch h ps v = some f → h.counter f < UINT_MAX) →
        ∃ h1 it ps1, search fuel h l v = some (h1, it) ∧ WF h1 l ps1 ∧ Ordered h1 ps1) ∧
      (∀ a ∈ ps, ∃ h1 l1 it ps1, erase h l { current := some a } = some (h1, l1, it) ∧
        WF h1 l1 ps1 ∧ Ordered h1 ps1) := by
  obtain ⟨ps, hw, ho⟩ := hr.invariant
  refine ⟨ps, hw, ho rfl, fun x => ?_, fun v fuel hk hmax => ?_, fun a ha => ?_⟩
  · obtain ⟨h1, e1, -⟩ := insert_spec hw x
    obtain ⟨ps1, w1, o1⟩ := (Reachable.insert h h1 l _ x hr e1).invariant
    exact ⟨h1, _, ps1, e1, w1, o1 rfl⟩
  · have hk2 : l.size_ ≤ fuel := by rw [hw.size_eq]; exact hk
    cases hf : firstMatch h ps v with
    | none =>
      have hv : ∀ a ∈ ps, h.datas a ≠ some v := fun a ha => by
        have := List.find?_eq_none.1 hf a ha
        simpa using this
      exact ⟨h, l.end_, ps, search_absent hw v hv hk, hw, ho rfl⟩
    | some f =>
      obtain ⟨h1, e1, -⟩ := search_hit hw hf hk
      obtain ⟨ps1, w1, o1⟩ := (Reachable.search h h1 l fuel v _ hr hk2 e1
        (fun _ _ g hg => Option.some.inj hg ▸ hmax f hf)).invariant
      exact ⟨h1, _, ps1, e1, w1, o1 rfl⟩
  · obtain ⟨A, B, rfl⟩ := List.append_of_mem ha
    obtain ⟨h1, e1, -⟩ := erase_spec hw
    obtain ⟨xs, ex, hm, -⟩ := hw.iterate_eq (le_refl _)
    obtain ⟨ps1, w1, o1⟩ := (Reachable.erase h h1 l _ _ xs a _ hr (le_of_eq hw.size_eq) ex
      (by rw [hm]; simp) e1).invariant
    exact ⟨h1, _, _, ps1, e1, w1, o1 rfl⟩

/-- Witness of C4: the list 5, 3, 5 is obtained from an empty list and its
counters (all 0) are in non-increasing order. -/
theorem counters_stay_ordered_witness :
    Reachable false (built [5, 3, 5]).1 (built [5, 3, 5]).2 ∧
    ∃ ps, WF (built [5, 3, 5]).1 (built [5, 3, 5]).2 ps ∧ Ordered (built [5, 3, 5]).1 ps := by
  refine ⟨built_535_reachable false, ?_⟩
  obtain ⟨ps, w, o, -⟩ :=
    counters_stay_ordered (built [5, 3, 5]).1 (built [5, 3, 5]).2 (built_535_reachable false)
  exact ⟨ps, w, o⟩

/-- C5: on a well-formed list holding `v`, ordered or not, after `search(v)`
every node in front of the found node has a strictly greater counter than the
found node; equivalently, every other node whose counter is at most the found
node's new counter comes after it. -/
theorem search_front_counters_greater [DecidableEq T] (h : Heap T) (l : LinkedList)
    (ps : List Nat) (v : T) (fuel : Nat) (hw : WF h l ps)
    (hv : ∃ a ∈ ps, h.datas a = some v) (hfuel : ps.length ≤ fuel) :
    ∃ f h1 A B, firstMatch h ps v = some f ∧
      search fuel h l v = some (h1, { current := some f }) ∧ WF h1 l (A ++ f :: B) ∧
      (∀ a ∈ A, h1.counter f < h1.counter a) ∧
      (∀ a ∈ A ++ f :: B, a ≠ f → h1.counter a ≤ h1.counter f → a ∈ B) := by
  obtain ⟨f, hf⟩ := firstMatch_of_mem hv
  obtain ⟨h1, e1, w1, -, c1, -, -⟩ := search_hit hw hf hfuel
  obtain ⟨pre, post, e, -, -⟩ := firstMatch_split hf
  rw [promoted_eq _ hw.nodup_nodes e] at w1
  have hfpre : f ∉ pre := by
    intro hm
    have := hw.nodup_nodes
    rw [e, List.nodup_append] at this
    exact this.2.2 hm (by simp)
  have hA : ∀ a ∈ pre.takeWhile
      (fun a => decide ((h.counter f + 1) % (UINT_MAX + 1) < h.counter a)),
      h1.counter f < h1.counter a := by
    intro a ha
    have h2 : a ≠ f := fun e2 => hfpre (e2 ▸ List.takeWhile_subset _ ha)
    have h3 := List.mem_takeWhile_imp ha
    rw [counter_update_self c1, counter_update_other c1 h2]
    simpa using h3
  refine ⟨f, h1, _, _, hf, e1, w1, hA, fun a ha hne hle => ?_⟩
  rcases List.mem_append.1 ha with ha | ha
  · have := hA a ha; omega
  · rcases List.mem_cons.1 ha with ha | ha
    · exact absurd ha hne
    · exact ha

/-- Witness of C5: in the list 3, 1, 2 with counters 2, 0, 0, `search(2)` raises
the counter of the node holding 2 to 1 and puts it behind the node holding 3
(counter 2) and in front of the node holding 1 (counter 0). -/
theorem search_front_counters_greater_witness :
    WF searchedHeap (built [1, 2, 3]).2 [4, 2, 3] ∧
    (∃ f h1 A B, search 3 searchedHeap (built [1, 2, 3]).2 2 =
        some (h1, { current := some f }) ∧ WF h1 (built [1, 2, 3]).2 (A ++ f :: B) ∧
      (∀ a ∈ A, h1.counter f < h1.counter a)) ∧
    (search 3 searchedHeap (built [1, 2, 3]).2 2).bind
        (fun r => toList 3 r.1 (built [1, 2, 3]).2) = some [(3, 2), (2, 1), (1, 0)] := by
  refine ⟨searchedHeap_wf, ?_, by decide⟩
  obtain ⟨f, h1, A, B, -, e, w, hA, -⟩ :=
    search_front_counters_greater searchedHeap (built [1, 2, 3]).2 [4, 2, 3] 2 3
      searchedHeap_wf ⟨3, by decide, by decide⟩ (by decide)
  exact ⟨f, h1, A, B, e, w, hA⟩

/-- C6, as stated, fails: in the list reached from an empty list by insert 1,
insert 2, 4294967295 calls of `search(1)` and one `search(2)`, the order is 1, 2
with counters 4294967295, 1; `search(1)` then leaves the found node in front
with counter 0, so the node holding 2, whose counter 1 is strictly greater,
does not precede it. -/
theorem search_leaves_greater_behind :
    ∃ h, hotHeap2 = some h ∧ Reachable true h (built [1, 2]).2 ∧
      WF h (built [1, 2]).2 [2, 3] ∧
      ∃ h1, search 2 h (built [1, 2]).2 1 = some (h1, { current := some 2 }) ∧
        WF h1 (built [1, 2]).2 ([] ++ 2 :: [3]) ∧ h1.counter 2 = 0 ∧ h1.counter 3 = 1 := by
  obtain ⟨h, e, w, d2, -, c2, c3⟩ := hotHeap2_spec
  have hf : firstMatch h [2, 3] 1 = some 2 := by simp [firstMatch, d2]
  obtain ⟨h1, e1, w1, -, c1, -, -⟩ := search_hit w hf (le_refl 2)
  rw [promoted_head] at w1
  refine ⟨h, e, hotHeap2_reachable e, w, h1, e1, w1, ?_, ?_⟩
  · rw [counter_update_self c1, c2]; decide
  · rw [counter_update_other c1 (by decide)]; exact c3

/-- C6, amended: on a well-formed list whose counters are in non-increasing
order, as they are in every list obtained from an empty list while no counter
wrapped around, a `search(v)` that finds a node whose counter is below
`UINT_MAX` leaves the counters in non-increasing order, and afterwards every
node whose counter is strictly greater than the found node's new counter
precedes the found node. -/
theorem search_greater_counters_precede [DecidableEq T] (h : Heap T) (l : LinkedList)
    (ps : List Nat) (v : T) (fuel f : Nat) (hw : WF h l ps) (ho : Ordered h ps)
    (hf : firstMatch h ps v = some f) (hmax : h.counter f < UINT_MAX)
    (hfuel : ps.length ≤ fuel) :
    ∃ h1 A B, search fuel h l v = some (h1, { current := some f }) ∧
      WF h1 l (A ++ f :: B) ∧ Ordered h1 (A ++ f :: B) ∧
      h1.counter f = h.counter f + 1 ∧
      (∀ a ∈ A ++ f :: B, h1.counter f < h1.counter a → a ∈ A) := by
  obtain ⟨h1, e1, w1, -, c1, -, -⟩ := search_hit hw hf hfuel
  obtain ⟨pre, post, e, -, -⟩ := firstMatch_split hf
  have hmod : (h.counter f + 1) % (UINT_MAX + 1) = h.counter f + 1 :=
    Nat.mod_eq_of_lt (by omega)
  rw [hmod] at c1 w1
  rw [promoted_eq _ hw.nodup_nodes e] at w1
  have hnd := hw.nodup_nodes
  rw [e] at hnd ho
  have hcnt : h1.counter = Function.update h.counter f (h.counter f + 1) := by
    funext a
    by_cases ha : a = f
    · subst ha; simp [counter_update_self c1]
    · simp [counter_update_other c1 ha, Function.update_noteq ha]
  have ho1 := ordered_promoted ho hnd hcnt
  refine ⟨h1, _, _, e1, w1, ho1, counter_update_self c1, fun a ha hlt => ?_⟩
  rcases List.mem_append.1 ha with ha | ha
  · exact ha
  · exfalso
    rcases List.mem_cons.1 ha with rfl | ha
    · omega
    · rw [ordered_iff, List.pairwise_append, List.pairwise_cons] at ho1
      have := ho1.2.1.1 a ha
      omega

/-- Witness of C6: in the list 3, 1, 2 with counters 2, 0, 0, `search(2)` raises
the counter of the node holding 2 to 1; the only node with a greater counter,
the one holding 3, precedes it. -/
theorem search_greater_counters_precede_witness :
    WF searchedHeap (built [1, 2, 3]).2 [4, 2, 3] ∧ Ordered searchedHeap [4, 2, 3] ∧
    ∃ h1 A B, search 3 searchedHeap (built [1, 2, 3]).2 2 = some (h1, { current := some 3 }) ∧
      WF h1 (built [1, 2, 3]).2 (A ++ 3 :: B) ∧ h1.counter 3 = 1 ∧
      (∀ a ∈ A ++ 3 :: B, h1.counter 3 < h1.counter a → a ∈ A) := by
  have ho : Ordered searchedHeap [4, 2, 3] := by
    simp only [Ordered, List.map_cons, List.map_nil]
    decide
  refine ⟨searchedHeap_wf, ho, ?_⟩
  obtain ⟨h1, A, B, e, w, -, c, hA⟩ :=
    search_greater_counters_precede searchedHeap (built [1, 2, 3]).2 [4, 2, 3] 2 3 3
      searchedHeap_wf ho (by decide) (by decide) (by decide)
  exact ⟨h1, A, B, e, w, by rw [c]; decide, hA⟩

/-- C8, as stated, fails: the list made of 2147483647 calls of `insert(0)` holds
2147483647 nodes and its `size()` is 2147483647; one more `insert(0)` links a
further node in, and `size()` is then -2147483648, not 2147483648. -/
theorem insert_overflows_size :
    ∃ h l ps h1 l1, fullList = some (h, l) ∧ Reachable true h l ∧ WF h l ps ∧
      ps.length = 2147483647 ∧ l.size = 2147483647 ∧
      insert h l 0 = some (h1, l1) ∧ WF h1 l1 (ps ++ [h.fresh]) ∧
      l1.size = -2147483648 ∧ l1.size ≠ l.size + 1 := by
  obtain ⟨h, l, ps, e, hr, w, hl, hs⟩ := fullList_spec
  obtain ⟨h1, e1, w1, -, -, -, -⟩ := insert_spec w (0 : Nat)
  have s0 : l.size = 2147483647 := by
    simp only [size, hs]; decide
  have s1 : size { l with size_ := l.size_ + 1 } = -2147483648 := by
    simp only [size, hs]; decide
  refine ⟨h, l, ps, h1, _, e, hr, w, hl, s0, e1, w1, s1, ?_⟩
  rw [s0, s1]; decide

/-- C8, amended: on a well-formed list, `insert(x)` succeeds, leaves the value
and the counter of every existing node as they were, links exactly one new node
behind them, holding `x` with access counter 0, and raises the stored count by
one; `size()` rises by one when the list held fewer than `INT_MAX` nodes.
Consequently, inserting `v1..vn` makes a traversal from `begin()` to `end()`
yield what it yielded before followed by `v1..vn`, each with counter 0; on an
empty list that is `v1..vn`; the stored count rises by `n`, and so does `size()`
when the list then holds at most `INT_MAX` nodes. -/
theorem insert_appends (h : Heap T) (l : LinkedList) (ps : List Nat) (hw : WF h l ps) :
    (∀ x : T, ∃ h1 l1, insert h l x = some (h1, l1) ∧ WF h1 l1 (ps ++ [h.fresh]) ∧
      (∀ a ∈ ps, h1.datas a = h.datas a ∧ h1.accs a = h.accs a) ∧
      h1.datas h.fresh = some x ∧ h1.accs h.fresh = some 0 ∧
      l1.size_ = l.size_ + 1 ∧ (ps.length < INT_MAX → l1.size = l.size + 1)) ∧
    (∀ (vs : List T) (old : List (T × Nat)), toList ps.length h l = some old →
      ∃ h2 l2, insertAll vs (h, l) = some (h2, l2) ∧
        toList (ps.length + vs.length) h2 l2 = some (old ++ vs.map (fun v => (v, 0))) ∧
        l2.size_ = l.size_ + vs.length ∧
        (ps.length + vs.length ≤ INT_MAX → l2.size = l.size + vs.length)) := by
  have hsz := hw.size_eq
  constructor
  · intro x
    obtain ⟨h1, e1, w1, d1, c1, -, -⟩ := insert_spec hw x
    refine ⟨h1, _, e1, w1, fun a ha => ?_, by rw [d1]; simp, by rw [c1]; simp, rfl,
      fun hlt => ?_⟩
    · have hne : a ≠ h.fresh := by
        have := hw.bound a (by simp [spine, ha]); omega
      rw [d1, c1, Function.update_noteq hne, Function.update_noteq hne]
      exact ⟨rfl, rfl⟩
    · rw [size_of_le (l := l) (by omega),
        size_of_le (l := { l with size_ := l.size_ + 1 }) (by show l.size_ + 1 ≤ INT_MAX; omega)]
      simp
  · intro vs old hold
    obtain ⟨h2, l2, qs, e2, w2, k2, m2, -, -, s2, -, -, -⟩ := insertAll_spec vs hw
    obtain ⟨ys, ey, hy⟩ := hw.toList_spec (le_refl ps.length)
    obtain ⟨zs, ez, hz⟩ := w2.toList_spec (show (ps ++ qs).length ≤ ps.length + vs.length by
      have := congrArg List.length m2
      simp only [List.length_map] at this
      simp only [List.length_append]; omega)
    rw [hold] at ey
    cases ey
    refine ⟨h2, l2, e2, ?_, s2, fun hle => ?_⟩
    · rw [ez]
      congr 1
      apply map_some_pair_injective
      rw [hz, List.map_append, List.map_append, m2, hy, List.map_map]
      congr 1
      refine List.map_congr_left (fun a ha => ?_)
      have hlt := hw.bound a (by simp [spine, ha])
      rw [(k2 a hlt).1, (k2 a hlt).2]
    · rw [size_of_le (l := l) (by omega), size_of_le (l := l2) (by omega), s2]
      simp

/-- Witness of C8: inserting 5, 3, 5 into the empty list and iterating yields
5, 3, 5, all with counter 0, and the size is 3. -/
theorem insert_appends_witness :
    WF (built ([] : List Nat)).1 (built ([] : List Nat)).2 [] ∧
    ∃ h2 l2, insertAll [5, 3, 5] ((built ([] : List Nat)).1, (built ([] : List Nat)).2) =
        some (h2, l2) ∧
      toList 3 h2 l2 = some [(5, 0), (3, 0), (5, 0)] ∧ l2.size_ = 3 ∧ l2.size = 3 := by
  refine ⟨built_nil_wf, ?_⟩
  obtain ⟨h2, l2, e, t, s, si⟩ :=
    (insert_appends (built ([] : List Nat)).1 (built ([] : List Nat)).2 [] built_nil_wf).2
      [5, 3, 5] [] (by decide)
  have z : (built ([] : List Nat)).2.size = 0 := by decide
  have z2 : (built ([] : List Nat)).2.size_ = 0 := by decide
  refine ⟨h2, l2, e, by simpa using t, by rw [s, z2]; rfl, ?_⟩
  rw [si (by decide), z]
  rfl

/-- C9, as stated, fails: the list made of 2147483648 calls of `insert(0)` holds
2147483648 nodes and its `size()` is -2147483648; `erase` at its first node
removes that node, and `size()` is then 2147483647, which is not one less. -/
theorem erase_overflows_size :
    ∃ h l x rest h1 l1 it, overfullList = some (h, l) ∧ Reachable true h l ∧
      WF h l (x :: rest) ∧ rest.length = 2147483647 ∧ l.size = -2147483648 ∧
      erase h l { current := some x } = some (h1, l1, it) ∧
      WF h1 l1 rest ∧ l1.size = 2147483647 ∧ l1.size + 1 ≠ l.size := by
  obtain ⟨h, l, ps, e, hr, w, hl, hs⟩ := overfullList_spec
  cases ps with
  | nil => simp at hl
  | cons x rest =>
    have w0 : WF h l ([] ++ x :: rest) := w
    obtain ⟨h1, e1, w1, -, -, -, -⟩ := erase_spec w0
    have s0 : l.size = -2147483648 := by
      simp only [size, hs]; decide
    have s1 : size { l with size_ := l.size_ - 1 } = 2147483647 := by
      simp only [size, hs]; decide
    have hr2 : rest.length = 2147483647 := by
      simp only [List.length_cons, INT_MAX] at hl
      omega
    refine ⟨h, l, x, rest, h1, _, _, e, hr, w, hr2, s0, e1, by simpa using w1, s1, ?_⟩
    rw [s0, s1]; decide

/-- C9, amended: on a well-formed list whose data nodes are `A`, then `x`, then
`B`, `erase` at the node `x` succeeds, frees exactly that node, leaves the
values, counters and relative order of all other nodes as they were, lowers the
stored count by one, and returns an iterator at the node that followed `x`: the
first node of `B`, or the tail sentinel (the end iterator) when `x` was last;
`size()` drops by one when the list held at most `INT_MAX` nodes. -/
theorem erase_removes_node (h : Heap T) (l : LinkedList) (A B : List Nat) (x : Nat)
    (hw : WF h l (A ++ x :: B)) :
    ∃ h1 l1, erase h l { current := some x } =
        some (h1, l1, { current := (B ++ [l.tail_]).head? }) ∧
      WF h1 l1 (A ++ B) ∧ h1.cells x = none ∧
      (∀ a, a ≠ x → h1.datas a = h.datas a ∧ h1.accs a = h.accs a) ∧
      l1.size_ + 1 = l.size_ ∧
      ((A ++ x :: B).length ≤ INT_MAX → l1.size + 1 = l.size) ∧
      (B = [] → ({ current := (B ++ [l.tail_]).head? } : iterator) = l1.end_) := by
  obtain ⟨h1, e1, w1, d1, c1, -, -⟩ := erase_spec hw
  have hsz := hw.size_eq
  simp only [List.length_append, List.length_cons] at hsz
  refine ⟨h1, _, e1, w1, ?_, fun a ha => ?_, ?_, fun hle => ?_, ?_⟩
  · have : h1.datas x = none := by rw [d1]; simp
    simpa [Heap.datas] using this
  · rw [d1, c1, Function.update_noteq ha, Function.update_noteq ha]; exact ⟨rfl, rfl⟩
  · show l.size_ - 1 + 1 = l.size_
    omega
  · simp only [List.length_append, List.length_cons] at hle
    rw [size_of_le (l := l) (by omega),
      size_of_le (l := { l with size_ := l.size_ - 1 }) (by show l.size_ - 1 ≤ INT_MAX; omega)]
    show ((l.size_ - 1 : Nat) : Int) + 1 = (l.size_ : Int)
    omega
  · rintro rfl; rfl

/-- Witness of C9: erasing the last node (40) of the list 10, 20, 30, 40
returns the end iterator and leaves a list of size 3. -/
theorem erase_removes_node_witness :
    WF (built [10, 20, 30, 40]).1 (built [10, 20, 30, 40]).2 ([2, 3, 4] ++ 5 :: []) ∧
    ∃ h1 l1, erase (built [10, 20, 30, 40]).1 (built [10, 20, 30, 40]).2 { current := some 5 } =
        some (h1, l1, l1.end_) ∧
      WF h1 l1 [2, 3, 4] ∧ l1.size_ = 3 ∧ l1.size = 3 := by
  refine ⟨built_four_wf, ?_⟩
  obtain ⟨h1, l1, e, w, -, -, s, si, t⟩ :=
    erase_removes_node (built [10, 20, 30, 40]).1 (built [10, 20, 30, 40]).2 [2, 3, 4] [] 5
      built_four_wf
  have z : (built [10, 20, 30, 40]).2.size = 4 := by decide
  have z2 : (built [10, 20, 30, 40]).2.size_ = 4 := by decide
  refine ⟨h1, l1, ?_, by simpa using w, by omega, ?_⟩
  · rw [e, t rfl]
  · have := si (by decide)
    omega

/-- C10, as stated, fails, in two ways. In the list 10, 20, 30, 40 the iterator
`first = --begin()` is at the head sentinel and `last = begin()` is reached from
it by one `++`, yet `erase(first, last)` removes nothing and returns nothing:
its first step, `erase(first)`, dereferences `head_->prev_`, which is null. And
in the list made of 2147483648 calls of `insert(0)`, whose `size()` is
-2147483648, `erase(first, last)` with `first` at the first node and `last` at
the second position removes one node and leaves `size()` at 2147483647, which
is not one less. -/
theorem eraseRange_from_head_sentinel :
    ((begin (built [10, 20, 30, 40]).1 (built [10, 20, 30, 40]).2).bind
        (const_iterator.dec (built [10, 20, 30, 40]).1) =
      some { current := some (built [10, 20, 30, 40]).2.head_ } ∧
    const_iterator.inc (built [10, 20, 30, 40]).1
        { current := some (built [10, 20, 30, 40]).2.head_ } =
      begin (built [10, 20, 30, 40]).1 (built [10, 20, 30, 40]).2 ∧
    begin (built [10, 20, 30, 40]).1 (built [10, 20, 30, 40]).2 = some { current := some 2 } ∧
    (built [10, 20, 30, 40]).1.getPrev (some (built [10, 20, 30, 40]).2.head_) = some none ∧
    erase (built [10, 20, 30, 40]).1 (built [10, 20, 30, 40]).2
        { current := some (built [10, 20, 30, 40]).2.head_ } = none ∧
    ∀ fuel, eraseRange fuel (built [10, 20, 30, 40]).1 (built [10, 20, 30, 40]).2
        { current := some (built [10, 20, 30, 40]).2.head_ } { current := some 2 } = none) ∧
    (∃ h l x rest h1 l1, overfullList = some (h, l) ∧ Reachable true h l ∧
      WF h l (x :: rest) ∧ l.size = -2147483648 ∧
      eraseRange 1 h l { current := some x } { current := (rest ++ [l.tail_]).head? } =
        some (h1, l1, { current := (rest ++ [l.tail_]).head? }) ∧
      WF h1 l1 rest ∧ l1.size = 2147483647 ∧ l1.size + 1 ≠ l.size) := by
  refine ⟨⟨by decide, by decide, by decide, by decide,
    Option.isNone_iff_eq_none.1 (by decide), fun fuel => ?_⟩, ?_⟩
  swap
  · obtain ⟨h, l, ps, e, hr, w, hl, hs⟩ := overfullList_spec
    cases ps with
    | nil => simp at hl
    | cons x rest =>
      have w0 : WF h l ([] ++ ([x] ++ rest)) := w
      obtain ⟨h1, e1, w1, -, -, -, -⟩ := eraseRange_spec [x] w0 (le_refl 1)
      have s0 : l.size = -2147483648 := by
        simp only [size, hs]; decide
      have s1 : size { l with size_ := l.size_ - [x].length } = 2147483647 := by
        simp only [size, hs, List.length_cons, List.length_nil]; decide
      refine ⟨h, l, x, rest, h1, _, e, hr, w, s0, e1, by simpa using w1, s1, ?_⟩
      rw [s0, s1]; decide
  have e : erase (built [10, 20, 30, 40]).1 (built [10, 20, 30, 40]).2
      { current := some (built [10, 20, 30, 40]).2.head_ } = none :=
    Option.isNone_iff_eq_none.1 (by decide)
  have hne : ({ current := some (built [10, 20, 30, 40]).2.head_ } : iterator) ≠
      { current := some 2 } := by decide
  cases fuel with
  | zero => simp only [eraseRange, hne, ne_eq, not_false_eq_true, if_true]
  | succ k => simp only [eraseRange, hne, ne_eq, not_false_eq_true, if_true, e]

/-- C10, amended: on a well-formed list whose data nodes are `A`, then `B`,
then `C`, with `first` at the first node of `B` (or where `last` is, when `B`
is empty) and `last` at the first node of `C` (or at the tail sentinel, when
`C` is empty), `erase(first, last)` terminates, frees exactly the nodes `B`,
keeps the nodes `A` and `C` in order with their values and counters, lowers
the stored count by the number of nodes removed, and returns `last`; `size()`
drops by that number when the list held at most `INT_MAX` nodes. With
`first == last`, at any position whatever, it changes nothing. -/
theorem eraseRange_removes_range (h : Heap T) (l : LinkedList) (A B C : List Nat) (fuel : Nat)
    (hw : WF h l (A ++ (B ++ C))) (hfuel : B.length ≤ fuel) :
    (∃ h1 l1, eraseRange fuel h l { current := (B ++ C ++ [l.tail_]).head? }
          { current := (C ++ [l.tail_]).head? } =
        some (h1, l1, { current := (C ++ [l.tail_]).head? }) ∧
      WF h1 l1 (A ++ C) ∧ (∀ a ∈ B, h1.cells a = none) ∧
      (∀ a, a ∉ B → h1.datas a = h.datas a ∧ h1.accs a = h.accs a) ∧
      l1.size_ + B.length = l.size_ ∧
      ((A ++ (B ++ C)).length ≤ INT_MAX → l1.size + B.length = l.size)) ∧
    (∀ (it : iterator) (k : Nat), eraseRange k h l it it = some (h, l, it)) := by
  constructor
  · obtain ⟨h1, e1, w1, k1, z1, -, -⟩ := eraseRange_spec B hw hfuel
    have hsz := hw.size_eq
    simp only [List.length_append] at hsz
    refine ⟨h1, _, e1, w1, fun a ha => ?_, k1, ?_, fun hle => ?_⟩
    · simpa [Heap.datas] using z1 a ha
    · show l.size_ - B.length + B.length = l.size_
      omega
    · simp only [List.length_append] at hle
      rw [size_of_le (l := l) (by omega),
        size_of_le (l := { l with size_ := l.size_ - B.length })
          (by show l.size_ - B.length ≤ INT_MAX; omega)]
      show ((l.size_ - B.length : Nat) : Int) + (B.length : Int) = (l.size_ : Int)
      omega
  · intro it k
    cases k <;> simp [eraseRange]

/-- Witness of C10: on 10, 20, 30, 40, `erase(begin+1, begin+3)` leaves 10, 40,
size 2, and returns an iterator at 40. -/
theorem eraseRange_removes_range_witness :
    WF (built [10, 20, 30, 40]).1 (built [10, 20, 30, 40]).2 ([2] ++ ([3, 4] ++ [5])) ∧
    (∃ h1 l1, eraseRange 2 (built [10, 20, 30, 40]).1 (built [10, 20, 30, 40]).2
          { current := some 3 } { current := some 5 } = some (h1, l1, { current := some 5 }) ∧
      WF h1 l1 [2, 5] ∧ l1.size_ = 2 ∧ l1.size = 2 ∧ toList 2 h1 l1 = some [(10, 0), (40, 0)] ∧
      const_iterator.star h1 { current := some 5 } = some 40) := by
  refine ⟨built_four_wf, ?_⟩
  obtain ⟨⟨h1, l1, e, w, -, -, s, si⟩, -⟩ :=
    eraseRange_removes_range (built [10, 20, 30, 40]).1 (built [10, 20, 30, 40]).2
      [2] [3, 4] [5] 2 built_four_wf (by decide)
  have e2 : eraseRange 2 (built [10, 20, 30, 40]).1 (built [10, 20, 30, 40]).2
      { current := some 3 } { current := some 5 } = some (h1, l1, { current := some 5 }) := e
  have d : (eraseRange 2 (built [10, 20, 30, 40]).1 (built [10, 20, 30, 40]).2
      { current := some 3 } { current := some 5 }).bind (fun r => toList 2 r.1 r.2.1) =
      some [(10, 0), (40, 0)] := by decide
  have d2 : (eraseRange 2 (built [10, 20, 30, 40]).1 (built [10, 20, 30, 40]).2
      { current := some 3 } { current := some 5 }).bind
        (fun r => const_iterator.star r.1 r.2.2) = some 40 := by decide
  rw [e2] at d d2
  have z : (built [10, 20, 30, 40]).2.size = 4 := by decide
  have z2 : (built [10, 20, 30, 40]).2.size_ = 4 := by decide
  simp only [List.length_cons, List.length_nil] at s
  refine ⟨h1, l1, e2, by simpa using w, by omega, ?_, d, d2⟩
  have := si (by decide)
  simp only [List.length_cons, List.length_nil] at this
  omega

/-- C11: let `M` and `L` be two well-formed lists, distinct objects sharing no
node. After the copy assignment `M = L`, whatever `M` held before, iterating
`M` yields exactly the values and access counters that iterating `L` yielded,
`M.size()` equals `L.size()` (the stored count of `M` being the number of
values yielded), and `L` has the same nodes, in the same order,
yielding the same values and counters as before (`L` itself is passed by const
reference, so its size member is untouched). The same holds for the list made
by copy construction from `L`. -/
theorem copy_yields_same_sequence [Inhabited T] (h : Heap T) (M L : LinkedList)
    (psM psL : List Nat) (thisAddr rhsAddr fuel : Nat)
    (hwM : WF h M psM) (hwL : WF h L psL)
    (hdis : ∀ a ∈ L.spine psL, a ∉ M.spine psM) (hne : thisAddr ≠ rhsAddr)
    (hk1 : psM.length ≤ fuel) (hk2 : psL.length ≤ fuel) :
    (∃ h2 M2 qs src, copyAssign fuel h thisAddr M rhsAddr L = some (h2, M2) ∧
      toList fuel h L = some src ∧ WF h2 M2 qs ∧ toList fuel h2 M2 = some src ∧
      M2.size = L.size ∧ M2.size_ = src.length ∧
      WF h2 L psL ∧ toList fuel h2 L = some src) ∧
    (∃ h2 M2 qs src, copyConstruct fuel h thisAddr rhsAddr L = some (h2, M2) ∧
      toList fuel h L = some src ∧ WF h2 M2 qs ∧ toList fuel h2 M2 = some src ∧
      M2.size = L.size ∧ M2.size_ = src.length ∧
      WF h2 L psL ∧ toList fuel h2 L = some src) := by
  have hlen : ∀ src : List (T × Nat), toList fuel h L = some src → L.size_ = src.length := by
    intro src e
    obtain ⟨ys, ey, hy⟩ := hwL.toList_spec hk2
    rw [e] at ey
    cases ey
    have := congrArg List.length hy
    simp only [List.length_map] at this
    rw [hwL.size_eq, this]
  constructor
  · obtain ⟨h2, M2, qs, e2, w2, wr2, m2, k2, s2, -⟩ :=
      copyAssign_spec hwM hwL hdis hne hk1 hk2
    obtain ⟨src, e3, e4⟩ := toList_congr hwL w2 m2 hk2
    obtain ⟨src2, e5, e6⟩ := toList_congr hwL wr2
      (List.map_congr_left (fun a ha => by rw [(k2 a ha).1, (k2 a ha).2])) hk2
    rw [e3] at e5
    cases e5
    exact ⟨h2, M2, qs, src, e2, e3, w2, e4, congrArg intOfSize s2, s2.trans (hlen src e3), wr2, e6⟩
  · obtain ⟨h2, M2, qs, e2, w2, wr2, m2, k2, s2⟩ := copyConstruct_spec hwL hne hk2
    obtain ⟨src, e3, e4⟩ := toList_congr hwL w2 m2 hk2
    obtain ⟨src2, e5, e6⟩ := toList_congr hwL wr2
      (List.map_congr_left (fun a ha => by rw [(k2 a ha).1, (k2 a ha).2])) hk2
    rw [e3] at e5
    cases e5
    exact ⟨h2, M2, qs, src, e2, e3, w2, e4, congrArg intOfSize s2, s2.trans (hlen src e3), wr2, e6⟩

/-- Witness of C11: `M` holds 77 and `L` holds 3, 1, 2 with counters 2, 0, 0;
after `M = L` iterating `M` yields (3,2), (1,0), (2,0), its size is 3, and
iterating `L` still yields (3,2), (1,0), (2,0). -/
theorem copy_yields_same_sequence_witness :
    WF pairHeap.1 pairHeap.2 [7] ∧ WF pairHeap.1 (built [1, 2, 3]).2 [4, 2, 3] ∧
    ∃ h2 M2, copyAssign 3 pairHeap.1 100 pairHeap.2 200 (built [1, 2, 3]).2 = some (h2, M2) ∧
      toList 3 h2 M2 = some [(3, 2), (1, 0), (2, 0)] ∧ M2.size = 3 ∧
      toList 3 h2 (built [1, 2, 3]).2 = some [(3, 2), (1, 0), (2, 0)] := by
  refine ⟨pairHeap_dest_wf, pairHeap_source_wf, ?_⟩
  obtain ⟨⟨h2, M2, qs, src, e, es, -, em, sz, -, -, el⟩, -⟩ :=
    copy_yields_same_sequence pairHeap.1 pairHeap.2 (built [1, 2, 3]).2 [7] [4, 2, 3] 100 200 3
      pairHeap_dest_wf pairHeap_source_wf (by decide) (by decide) (by decide) (by decide)
  have hs : toList 3 pairHeap.1 (built [1, 2, 3]).2 = some [(3, 2), (1, 0), (2, 0)] := by decide
  rw [hs] at es
  cases es
  exact ⟨h2, M2, e, em, sz.trans (by decide), el⟩

/-- C12: for two well-formed lists `M` and `L` that are distinct objects, the
move assignment `M = std::move(L)` exchanges the head sentinel, the tail
sentinel and the count of the two objects and touches no node: afterwards `M`
is what `L` was and `L` is what `M` was, so `M` has the nodes, values, counters
and size that `L` had, and `L` those that `M` had. -/
theorem move_assign_exchanges (h : Heap T) (M L : LinkedList) (psM psL : List Nat)
    (thisAddr rhsAddr : Nat) (hwM : WF h M psM) (hwL : WF h L psL)
    (hne : thisAddr ≠ rhsAddr) :
    ∃ M2 L2, moveAssign thisAddr M rhsAddr L = (M2, L2) ∧
      M2.head_ = L.head_ ∧ M2.tail_ = L.tail_ ∧ M2.size = L.size ∧
      L2.head_ = M.head_ ∧ L2.tail_ = M.tail_ ∧ L2.size = M.size ∧
      WF h M2 psL ∧ WF h L2 psM ∧
      (∀ fuel, iterate fuel h M2 = iterate fuel h L ∧ toList fuel h M2 = toList fuel h L) ∧
      (∀ fuel, iterate fuel h L2 = iterate fuel h M ∧ toList fuel h L2 = toList fuel h M) := by
  refine ⟨L, M, ?_, rfl, rfl, rfl, rfl, rfl, rfl, hwL, hwM, fun _ => ⟨rfl, rfl⟩,
    fun _ => ⟨rfl, rfl⟩⟩
  rw [moveAssign_eq]
  simp [hne]

/-- Witness of C12: `M` holds 77 and `L` holds 3, 1, 2 with counters 2, 0, 0;
after `M = std::move(L)` iterating `M` yields (3,2), (1,0), (2,0) and iterating
`L` yields (77,0). -/
theorem move_assign_exchanges_witness :
    WF pairHeap.1 pairHeap.2 [7] ∧ WF pairHeap.1 (built [1, 2, 3]).2 [4, 2, 3] ∧
    ∃ M2 L2, moveAssign 100 pairHeap.2 200 (built [1, 2, 3]).2 = (M2, L2) ∧
      toList 3 pairHeap.1 M2 = some [(3, 2), (1, 0), (2, 0)] ∧ M2.size = 3 ∧
      toList 3 pairHeap.1 L2 = some [(77, 0)] ∧ L2.size = 1 := by
  refine ⟨pairHeap_dest_wf, pairHeap_source_wf, ?_⟩
  obtain ⟨M2, L2, e, -, -, s1, -, -, s2, -, -, t1, t2⟩ :=
    move_assign_exchanges pairHeap.1 pairHeap.2 (built [1, 2, 3]).2 [7] [4, 2, 3] 100 200
      pairHeap_dest_wf pairHeap_source_wf (by decide)
  refine ⟨M2, L2, e, ?_, ?_, ?_, ?_⟩
  · rw [(t1 3).2]; decide
  · rw [s1]; decide
  · rw [(t2 3).2]; decide
  · rw [s2]; decide

/-- C13, as stated, fails: the list made of 2147483648 calls of `insert(0)` is
obtained from an empty list and holds 2147483648 data nodes, yet its `size()`
is -2147483648; and the list made of 4294967296 calls of `insert(0)` holds
4294967296 data nodes, yet its `size()` is 0 while `empty()` is false. -/
theorem size_wraps_on_long_lists :
    (∃ h l ps, overfullList = some (h, l) ∧ Reachable true h l ∧ WF h l ps ∧
      ps.length = 2147483648 ∧ l.size = -2147483648) ∧
    (∃ h l ps, hugeList = some (h, l) ∧ Reachable true h l ∧ WF h l ps ∧
      ps.length = 4294967296 ∧ l.size = 0 ∧ empty h l = some false) := by
  constructor
  · obtain ⟨h, l, ps, e, hr, w, hl, hs⟩ := overfullList_spec
    exact ⟨h, l, ps, e, hr, w, hl, by simp only [size, hs]; decide⟩
  · obtain ⟨h, l, ps, e, hr, w, hl, hs⟩ := hugeList_spec
    refine ⟨h, l, ps, e, hr, w, hl, by simp only [size, hs]; decide, ?_⟩
    rw [w.empty_eq]
    have : ps ≠ [] := by
      rintro rfl
      simp at hl
    simp [this]

/-- C13, amended: every list obtained from an empty list by a finite sequence of
insert, search, erase(position), erase(first,last), copy and move construction
and assignment is well formed; the stored count is the number of data nodes,
which is the number of nodes a traversal from `begin()` to `end()` visits;
`size()` is that number converted to `int`, hence equal to it when the list
holds at most `INT_MAX` nodes; `empty()` returns true if and only if the list
has no data node, that is if and only if the stored count is 0, and, when the
list holds at most `INT_MAX` nodes, if and only if `size()` is 0. -/
theorem size_counts_nodes [DecidableEq T] [Inhabited T] (h : Heap T) (l : LinkedList)
    (hr : Reachable true h l) :
    ∃ ps, WF h l ps ∧ l.size_ = ps.length ∧ l.size = intOfSize ps.length ∧
      (ps.length ≤ INT_MAX → l.size = ps.length) ∧
      (∀ fuel, ps.length ≤ fuel →
        ∃ xs, iterate fuel h l = some xs ∧ xs.map (fun x => x.1) = ps ∧
          xs.length = ps.length) ∧
      ∃ b, empty h l = some b ∧ (b = true ↔ ps = []) ∧ (b = true ↔ l.size_ = 0) ∧
        (ps.length ≤ INT_MAX → (b = true ↔ l.size = 0)) := by
  obtain ⟨ps, hw, -⟩ := hr.invariant
  have hsz := hw.size_eq
  have hsi : ps.length ≤ INT_MAX → l.size = ps.length := fun hle => by
    rw [size_of_le (l := l) (by omega), hsz]
  refine ⟨ps, hw, hsz, by simp only [size, hsz], hsi, fun fuel hk => ?_,
    decide (ps = []), hw.empty_eq, ?_, ?_, fun hle => ?_⟩
  · obtain ⟨xs, e, hm, -⟩ := hw.iterate_eq hk
    refine ⟨xs, e, hm, ?_⟩
    have := congrArg List.length hm
    simpa only [List.length_map] using this
  · simp only [decide_eq_true_eq]
  · simp only [decide_eq_true_eq, hsz, List.length_eq_zero]
  · rw [hsi hle]
    simp only [decide_eq_true_eq, Nat.cast_eq_zero, List.length_eq_zero]

/-- Witness of C13: the list 5, 3, 5 is obtained from an empty list; its size
is 3, a traversal visits 3 nodes, and `empty()` is false. -/
theorem size_counts_nodes_witness :
    Reachable true (built [5, 3, 5]).1 (built [5, 3, 5]).2 ∧
    (built [5, 3, 5]).2.size = 3 ∧
    (iterate 3 (built [5, 3, 5]).1 (built [5, 3, 5]).2).map List.length = some 3 ∧
    empty (built [5, 3, 5]).1 (built [5, 3, 5]).2 = some false ∧
    ∃ ps, WF (built [5, 3, 5]).1 (built [5, 3, 5]).2 ps ∧ ps = [2, 3, 4] ∧
      (built [5, 3, 5]).2.size = ps.length := by
  obtain ⟨ps, w, -, -, s, -, -⟩ :=
    size_counts_nodes (built [5, 3, 5]).1 (built [5, 3, 5]).2 (built_535_reachable true)
  have hp : ps = [2, 3, 4] := w.nodes_unique built_535_wf
  exact ⟨built_535_reachable true, by decide, by decide, by decide, ps, w, hp,
    s (by rw [hp]; decide)⟩

/-- C14: on a well-formed list whose access counters are all 0, for every
value `v` held by some node, `search(v)` returns the first node `f` holding `v`
(no node before it holds `v`), and afterwards `f` is at the front with counter
1, followed by all other nodes in their previous relative order, each with
counter 0; no payload changes. -/
theorem search_fresh_list_moves_to_front [DecidableEq T] (h : Heap T) (l : LinkedList)
    (ps : List Nat) (v : T) (fuel : Nat) (hw : WF h l ps)
    (hzero : ∀ a ∈ ps, h.counter a = 0) (hv : ∃ a ∈ ps, h.datas a = some v)
    (hfuel : ps.length ≤ fuel) :
    ∃ h1 f pre post, search fuel h l v = some (h1, { current := some f }) ∧
      ps = pre ++ f :: post ∧ (∀ a ∈ pre, h.datas a ≠ some v) ∧ h.datas f = some v ∧
      firstMatch h ps v = some f ∧
      WF h1 l (f :: (pre ++ post)) ∧ f :: (pre ++ post) = f :: ps.erase f ∧
      h1.counter f = 1 ∧ (∀ a ∈ pre ++ post, h1.counter a = 0) ∧ h1.datas = h.datas := by
  obtain ⟨f, hm⟩ := firstMatch_of_mem hv
  obtain ⟨pre, post, e, hpre, hf⟩ := firstMatch_split hm
  obtain ⟨h1, e1, w1, d1, c1, -, -⟩ := search_hit hw hm hfuel
  have hfm : f ∈ ps := by rw [e]; simp
  have hc : (h.counter f + 1) % (UINT_MAX + 1) = 1 := by rw [hzero f hfm]; decide
  rw [hc] at w1 c1
  have hsub : ∀ a ∈ pre, a ∈ ps := fun a ha => by rw [e]; simp [ha]
  have htw : pre.takeWhile (fun a => decide (1 < h.counter a)) = [] := by
    cases pre with
    | nil => rfl
    | cons a pre =>
      rw [List.takeWhile_cons, hzero a (hsub a (by simp))]
      rfl
  have hdw : pre.dropWhile (fun a => decide (1 < h.counter a)) = pre := by
    have := List.takeWhile_append_dropWhile (fun a => decide (1 < h.counter a)) pre
    rw [htw, List.nil_append] at this
    exact this
  rw [promoted_eq 1 hw.nodup_nodes e, htw, hdw, List.nil_append] at w1
  have hnd := hw.nodup_nodes
  refine ⟨h1, f, pre, post, e1, e, hpre, hf, hm, w1, by rw [erase_split hnd e],
    counter_update_self c1, fun a ha => ?_, d1⟩
  have hne : a ≠ f := by
    rintro rfl
    rw [e] at hnd
    have h2 := List.nodup_middle.1 hnd
    exact (List.nodup_cons.1 h2).1 ha
  rw [counter_update_other c1 hne]
  exact hzero a (by rw [e]; simp only [List.mem_append, List.mem_cons] at ha ⊢; tauto)

/-- Witness of C14: after inserting 1, 2, 3 (nodes 2, 3, 4, all counters 0),
`search(3)` returns node 4 and the order of the nodes becomes 4, 2, 3, that is
3, 1, 2, with counters 1, 0, 0. -/
theorem search_fresh_list_moves_to_front_witness :
    ∃ h1, search 3 (built [1, 2, 3]).1 (built [1, 2, 3]).2 3 = some (h1, { current := some 4 }) ∧
      WF h1 (built [1, 2, 3]).2 [4, 2, 3] ∧
      h1.counter 4 = 1 ∧ h1.counter 2 = 0 ∧ h1.counter 3 = 0 ∧
      h1.datas 4 = some 3 ∧ h1.datas 2 = some 1 ∧ h1.datas 3 = some 2 := by
  obtain ⟨h1, f, pre, post, e1, -, -, -, hm, w1, he, c1, c2, d1⟩ :=
    search_fresh_list_moves_to_front (built [1, 2, 3]).1 (built [1, 2, 3]).2 [2, 3, 4] 3 3
      built_123_wf (by decide) ⟨4, by decide, by decide⟩ (by decide)
  have hf : f = 4 := by
    rw [show firstMatch (built [1, 2, 3]).1 [2, 3, 4] 3 = some 4 by decide] at hm
    exact (Option.some.inj hm).symm
  subst hf
  rw [he] at w1
  have hpp : pre ++ post = [2, 3] := by
    have := List.tail_eq_of_cons_eq he
    rw [this]; decide
  rw [hpp] at c2
  exact ⟨h1, e1, w1, c1, c2 2 (by decide), c2 3 (by decide), by rw [d1]; decide,
    by rw [d1]; decide, by rw [d1]; decide⟩

/-- C15, as stated, fails: in the list 1, 2 after 4294967294 searches for 1, a
further `search(1)` succeeds and leaves the found node (node 2) with counter
4294967295, strictly greater than the counter 0 of the only other node; the
immediately following `search(1)` finds the same node and keeps the order, but
leaves its counter at 0 instead of raising it by one. -/
theorem second_search_resets_counter :
    ∃ h0 h1 h2, warmHeap = some h0 ∧ Reachable true h0 (built [1, 2]).2 ∧
      search 2 h0 (built [1, 2]).2 1 = some (h1, { current := some 2 }) ∧
      ({ current := some 2 } : iterator) ≠ (built [1, 2]).2.end_ ∧
      WF h1 (built [1, 2]).2 [2, 3] ∧ h1.counter 2 = 4294967295 ∧ h1.counter 3 = 0 ∧
      search 2 h1 (built [1, 2]).2 1 = some (h2, { current := some 2 }) ∧
      WF h2 (built [1, 2]).2 [2, 3] ∧ h2.counter 2 = 0 ∧ h2.counter 2 ≠ h1.counter 2 + 1 := by
  obtain ⟨h0, e, w, hr, d2, -, c2, c3⟩ := warmHeap_spec
  have hf : firstMatch h0 [2, 3] 1 = some 2 := by simp [firstMatch, d2]
  obtain ⟨h1, e1, w1, d1, a1, -, -⟩ := search_hit w hf (le_refl 2)
  rw [promoted_head] at w1
  have k2 : h1.counter 2 = 4294967295 := by rw [counter_update_self a1, c2]; decide
  have k3 : h1.counter 3 = 0 := by rw [counter_update_other a1 (by decide), c3]
  have hf1 : firstMatch h1 [2, 3] 1 = some 2 := by simp [firstMatch, d1, d2]
  obtain ⟨h2, e2, w2, -, a2, -, -⟩ := search_hit w1 hf1 (le_refl 2)
  rw [promoted_head] at w2
  have k4 : h2.counter 2 = 0 := by rw [counter_update_self a2, k2]; decide
  exact ⟨h0, h1, h2, e, hr, e1, by decide, w1, k2, k3, e2, w2, k4, by rw [k4, k2]; decide⟩

/-- C15, amended: on a well-formed list, if `search(v)` succeeds at a node `f`
and afterwards the counter of `f` is strictly greater than the counter of every
other node, then `f` is at the front, and an immediately following `search(v)`
returns the same iterator, leaves the order of the nodes, every payload, every
link and the counter of every other node as they were, and sets the counter of
`f` to its value plus one modulo 2^32: exactly one more when that value is
below `UINT_MAX`. -/
theorem search_again_keeps_order [DecidableEq T] (h h1 : Heap T) (l : LinkedList)
    (ps : List Nat) (v : T) (fuel : Nat) ( it : iterator) (f : Nat) (hw : WF h l ps)
    (hfuel : ps.length ≤ fuel) (hs : search fuel h l v = some (h1, it))
    (hend : it ≠ l.end_) (hit : it.current = some f)
    (hgt : ∀ a ∈ ps, a ≠ f → h1.counter a < h1.counter f) :
    ∃ rest h2, WF h1 l (f :: rest) ∧ List.Perm (f :: rest) ps ∧
      search fuel h1 l v = some (h2, it) ∧ WF h2 l (f :: rest) ∧
      (∀ k, (f :: rest).length ≤ k → ∃ xs ys, iterate k h1 l = some xs ∧
        iterate k h2 l = some ys ∧ xs.map (fun x => x.1) = f :: rest ∧
        ys.map (fun x => x.1) = f :: rest) ∧
      h2.datas = h1.datas ∧ h2.nexts = h1.nexts ∧ h2.prevs = h1.prevs ∧ h2.fresh = h1.fresh ∧
      (∀ a, a ≠ f → h2.accs a = h1.accs a) ∧
      h2.counter f = (h1.counter f + 1) % (UINT_MAX + 1) ∧
      (h1.counter f < UINT_MAX → h2.counter f = h1.counter f + 1) := by
  cases hm : firstMatch h ps v with
  | none =>
    have hv : ∀ a ∈ ps, h.datas a ≠ some v := fun a ha hd => by
      have := List.find?_eq_none.1 hm a ha
      simp [hd] at this
    rw [search_absent hw v hv hfuel] at hs
    simp only [Option.some.injEq, Prod.mk.injEq] at hs
    exact absurd hs.2.symm hend
  | some g =>
    obtain ⟨pre, post, e, hpre, hg⟩ := firstMatch_split hm
    obtain ⟨k1, e1, w1, d1, a1, -, -⟩ := search_hit hw hm hfuel
    rw [hs] at e1
    simp only [Option.some.injEq, Prod.mk.injEq] at e1
    obtain ⟨rfl, rfl⟩ := e1
    simp only [Option.some.injEq] at hit
    subst hit
    have hnd := hw.nodup_nodes
    have hsub : ∀ a ∈ pre, a ∈ ps ∧ a ≠ g := fun a ha => by
      refine ⟨by rw [e]; simp [ha], ?_⟩
      rintro rfl
      rw [e, List.nodup_append] at hnd
      exact hnd.2.2 ha (by simp)
    have hc := counter_update_self a1
    have htw : pre.takeWhile
        (fun a => decide ((h.counter g + 1) % (UINT_MAX + 1) < h.counter a)) = [] := by
      cases pre with
      | nil => rfl
      | cons a pre =>
        have ha := hsub a (by simp)
        have h3 := hgt a ha.1 ha.2
        rw [counter_update_other a1 ha.2, hc] at h3
        rw [List.takeWhile_cons, decide_eq_false (by omega)]
        rfl
    rw [promoted_eq _ hnd e, htw, List.nil_append] at w1
    have hdw := List.takeWhile_append_dropWhile
      (fun a => decide ((h.counter g + 1) % (UINT_MAX + 1) < h.counter a)) pre
    rw [htw, List.nil_append] at hdw
    rw [hdw] at w1
    have hperm : List.Perm (g :: (pre ++ post)) ps := by
      rw [e]; exact List.perm_middle.symm
    have hfm : firstMatch h1 (g :: (pre ++ post)) v = some g := by
      simp [firstMatch, d1, hg]
    have hlen : (g :: (pre ++ post)).length ≤ fuel := by rw [hperm.length_eq]; exact hfuel
    obtain ⟨h2, e2, w2, d2, a2, f2, fr2⟩ := search_hit w1 hfm hlen
    rw [promoted_head] at w2
    have hlinks : h2.nexts = h1.nexts ∧ h2.prevs = h1.prevs := by
      constructor <;> funext a
      · by_cases ha : a ∈ l.spine (g :: (pre ++ post))
        · exact (w1.links_determined w2 ha).1
        · exact (fr2 a ha).1
      · by_cases ha : a ∈ l.spine (g :: (pre ++ post))
        · exact (w1.links_determined w2 ha).2
        · exact (fr2 a ha).2
    refine ⟨pre ++ post, h2, w1, hperm, e2, w2, fun k hk => ?_, d2, hlinks.1, hlinks.2, f2,
      fun a ha => by rw [a2, Function.update_noteq ha], counter_update_self a2, fun hlt => ?_⟩
    · obtain ⟨xs, x1, x2, -⟩ := w1.iterate_eq hk
      obtain ⟨ys, y1, y2, -⟩ := w2.iterate_eq hk
      exact ⟨xs, ys, x1, y1, x2, y2⟩
    · rw [counter_update_self a2]
      exact Nat.mod_eq_of_lt (by omega)

/-- Witness of C15: in the list 1, 2, 3 (nodes 2, 3, 4, counters 0) `search(3)`
finds node 4 and leaves it with counter 1, above the counters 0 of the others;
the immediately following `search(3)` finds node 4 again, keeps the order
4, 2, 3 and raises its counter to 2. -/
theorem search_again_keeps_order_witness :
    ∃ h1 h2, search 3 (built [1, 2, 3]).1 (built [1, 2, 3]).2 3 = some (h1, { current := some 4 }) ∧
      h1.counter 4 = 1 ∧ h1.counter 2 = 0 ∧ h1.counter 3 = 0 ∧
      search 3 h1 (built [1, 2, 3]).2 3 = some (h2, { current := some 4 }) ∧
      WF h1 (built [1, 2, 3]).2 [4, 2, 3] ∧ WF h2 (built [1, 2, 3]).2 [4, 2, 3] ∧
      h2.counter 4 = 2 ∧ h2.datas = h1.datas ∧ h2.nexts = h1.nexts ∧ h2.prevs = h1.prevs := by
  obtain ⟨h1, e1, w1, -, a1, -, -⟩ :=
    search_hit (f := 4) (v := 3) built_123_wf (by decide) (le_refl 3)
  have k4 : h1.counter 4 = 1 := by rw [counter_update_self a1]; decide
  have k2 : h1.counter 2 = 0 := by rw [counter_update_other a1 (by decide)]; decide
  have k3 : h1.counter 3 = 0 := by rw [counter_update_other a1 (by decide)]; decide
  have w1b : WF h1 (built [1, 2, 3]).2 [4, 2, 3] := by
    have e : promoted (built [1, 2, 3]).1 [2, 3, 4] 4
        (((built [1, 2, 3]).1.counter 4 + 1) % (UINT_MAX + 1)) = [4, 2, 3] := by decide
    rw [e] at w1; exact w1
  obtain ⟨rest, h2, w1c, -, e2, w2, -, d2, n2, p2, -, -, -, c2⟩ :=
    search_again_keeps_order (built [1, 2, 3]).1 h1 (built [1, 2, 3]).2 [2, 3, 4] 3 3
      { current := some 4 } 4 built_123_wf (by decide) e1 (by decide) rfl
      (by
        intro a ha hne
        rw [k4]
        simp only [List.mem_cons, List.mem_singleton, List.not_mem_nil, or_false] at ha
        rcases ha with rfl | rfl | rfl
        · rw [k2]; decide
        · rw [k3]; decide
        · exact absurd rfl hne)
  have hr : 4 :: rest = [4, 2, 3] := w1c.nodes_unique w1b
  rw [hr] at w2
  exact ⟨h1, h2, e1, k4, k2, k3, e2, w1b, w2, by rw [c2 (by rw [k4]; decide), k4], d2, n2, p2⟩

/-- C16: on a well-formed list with `n` data nodes (`n` is the stored count,
and is `size()` when `n` is at most `INT_MAX`), the
iterator `begin()` advanced `k` times, for `k < n`, is at the `k`-th data node
in list order and is not `end()`; advanced exactly `n` times it equals `end()`;
`begin() == end()` exactly when the list has no data node; and advancing an
iterator that is at `end()` leaves it at `end()`. -/
theorem advance_visits_nodes (h : Heap T) (l : LinkedList) (ps : List Nat)
    (hw : WF h l ps) :
    (l.size_ = ps.length ∧ (ps.length ≤ INT_MAX → l.size = ps.length)) ∧
    (∀ k, k < ps.length →
      (begin h l).bind (const_iterator.advance h k) = some { current := ps[k]? } ∧
      ({ current := ps[k]? } : iterator) ≠ l.end_) ∧
    (begin h l).bind (const_iterator.advance h ps.length) = some l.end_ ∧
    (begin h l = some l.end_ ↔ ps = []) ∧
    const_iterator.inc h l.end_ = some l.end_ := by
  have hadv : ∀ k, k ≤ ps.length → (begin h l).bind (const_iterator.advance h k) =
      some { current := (ps ++ [l.tail_])[k]? } := by
    intro k hk
    rw [hw.begin_spine, Option.some_bind, hw.advance_spine k 1 (by omega),
      show 1 + k = k + 1 by omega, spine_getElem_succ]
  refine ⟨⟨hw.size_eq, fun hle => by rw [size_of_le (by rw [hw.size_eq]; exact hle), hw.size_eq]⟩,
    fun k hk => ?_, ?_, ?_, ?_⟩
  · have e : (ps ++ [l.tail_])[k]? = ps[k]? := List.getElem?_append_left hk
    refine ⟨by rw [hadv k (le_of_lt hk), e], ?_⟩
    rw [List.getElem?_eq_getElem hk]
    simp only [end_, ne_eq, const_iterator.mk.injEq, Option.some.injEq]
    exact hw.ne_tail (List.getElem_mem hk)
  · rw [hadv ps.length (le_refl _), ← spine_getElem_succ, spine_getElem_last]; rfl
  · rw [hw.begin_eq]
    cases ps with
    | nil => simp [end_]
    | cons a ps =>
      simp only [List.cons_append, List.head?_cons, end_, Option.some.injEq,
        const_iterator.mk.injEq, reduceCtorEq, iff_false]
      exact hw.ne_tail (by simp)
  · simp [const_iterator.inc, end_, hw.tail_next]

/-- Witness of C16: in the list 10, 20, 30, 40 (nodes 2, 3, 4, 5) two advances
from `begin()` reach the node holding 30, and four advances reach `end()`. -/
theorem advance_visits_nodes_witness :
    WF (built [10, 20, 30, 40]).1 (built [10, 20, 30, 40]).2 [2, 3, 4, 5] ∧
    (begin (built [10, 20, 30, 40]).1 (built [10, 20, 30, 40]).2).bind
        (const_iterator.advance (built [10, 20, 30, 40]).1 2) = some { current := some 4 } ∧
    const_iterator.star (built [10, 20, 30, 40]).1 { current := some 4 } = some 30 ∧
    (begin (built [10, 20, 30, 40]).1 (built [10, 20, 30, 40]).2).bind
        (const_iterator.advance (built [10, 20, 30, 40]).1 4) =
      some (built [10, 20, 30, 40]).2.end_ := by
  obtain ⟨-, hk, hn, -, -⟩ :=
    advance_visits_nodes (built [10, 20, 30, 40]).1 (built [10, 20, 30, 40]).2 [2, 3, 4, 5]
      built_four_wf
  exact ⟨built_four_wf, (hk 2 (by decide)).1, by decide, hn⟩

/-- C17: on a well-formed list with `n` data nodes (`n` is the stored count,
and is `size()` when `n` is at most `INT_MAX`), the iterator `end()`
retreated `k` times, for `1 ≤ k ≤ n`, is at the data node at position `n - k`
in list order, which is where `begin()` advanced `n - k` times is (this also
holds for `k = 0`); `begin()` retreated once is at the head sentinel; and
retreating an iterator that is at the head sentinel leaves it there. -/
theorem retreat_visits_nodes_reversed (h : Heap T) (l : LinkedList) (ps : List Nat)
    (hw : WF h l ps) :
    (l.size_ = ps.length ∧ (ps.length ≤ INT_MAX → l.size = ps.length)) ∧
    (∀ k, k ≤ ps.length →
      const_iterator.retreat h k l.end_ =
        (begin h l).bind (const_iterator.advance h (ps.length - k))) ∧
    (∀ k, 1 ≤ k → k ≤ ps.length →
      const_iterator.retreat h k l.end_ = some { current := ps[ps.length - k]? }) ∧
    (begin h l).bind (const_iterator.dec h) = some { current := some l.head_ } ∧
    const_iterator.dec h { current := some l.head_ } = some { current := some l.head_ } := by
  have hret : ∀ k, k ≤ ps.length → const_iterator.retreat h k l.end_ =
      some { current := (ps ++ [l.tail_])[ps.length - k]? } := by
    intro k hk
    have := hw.retreat_spine k (ps.length + 1) (by omega) (by omega)
    rw [spine_getElem_last, show ps.length + 1 - k = ps.length - k + 1 by omega,
      spine_getElem_succ] at this
    exact this
  refine ⟨⟨hw.size_eq, fun hle => by rw [size_of_le (by rw [hw.size_eq]; exact hle), hw.size_eq]⟩,
    fun k hk => ?_, fun k h1 hk => ?_, ?_, ?_⟩
  · rw [hret k hk, hw.begin_spine, Option.some_bind,
      hw.advance_spine (ps.length - k) 1 (by omega),
      show 1 + (ps.length - k) = ps.length - k + 1 by omega, spine_getElem_succ]
  · rw [hret k hk, List.getElem?_append_left (by omega)]
  · have := hw.retreat_spine 1 1 (le_refl 1) (by omega)
    simp only [const_iterator.retreat] at this
    rw [hw.begin_spine, Option.some_bind]
    cases hd : const_iterator.dec h { current := (l.spine ps)[1]? } with
    | none => simp [hd] at this
    | some it =>
      simp only [hd, Option.some.injEq] at this
      rw [this]; simp [spine]
  · simp [const_iterator.dec, hw.head_prev]

/-- Witness of C17: in the list 10, 20, 30, 40 (nodes 2, 3, 4, 5) one retreat
from `end()` reaches the node holding 40 and three retreats reach the node
holding 20. -/
theorem retreat_visits_nodes_reversed_witness :
    WF (built [10, 20, 30, 40]).1 (built [10, 20, 30, 40]).2 [2, 3, 4, 5] ∧
    const_iterator.retreat (built [10, 20, 30, 40]).1 1 (built [10, 20, 30, 40]).2.end_ =
      some { current := some 5 } ∧
    const_iterator.retreat (built [10, 20, 30, 40]).1 3 (built [10, 20, 30, 40]).2.end_ =
      some { current := some 3 } ∧
    const_iterator.star (built [10, 20, 30, 40]).1 { current := some 3 } = some 20 := by
  obtain ⟨-, -, hk, -, -⟩ :=
    retreat_visits_nodes_reversed (built [10, 20, 30, 40]).1 (built [10, 20, 30, 40]).2
      [2, 3, 4, 5] built_four_wf
  exact ⟨built_four_wf, hk 1 (by decide) (by decide), hk 3 (by decide) (by decide), by decide⟩

/-- C18: every list obtained from a freshly constructed list by a finite
sequence of the operations is a well-formed doubly linked chain: the nodes
from the head sentinel through the data nodes to the tail sentinel are pairwise
distinct (no node is met twice, there is no cycle), each is linked to the next
by `next_`, a traversal visits exactly the data nodes, the head sentinel has no
`prev_` and the tail sentinel no `next_`, and every node `x` other than the tail
sentinel has a successor whose `prev_` is `x`. -/
theorem chain_stays_well_formed [DecidableEq T] [Inhabited T] (h : Heap T) (l : LinkedList)
    (hr : Reachable true h l) :
    ∃ ps, WF h l ps ∧ (l.head_ :: (ps ++ [l.tail_])).Nodup ∧
      List.Chain' (fun a b => h.nexts a = some (some b)) (l.head_ :: (ps ++ [l.tail_])) ∧
      (∀ fuel, ps.length ≤ fuel → ∃ xs, iterate fuel h l = some xs ∧ xs.map (fun x => x.1) = ps) ∧
      h.prevs l.head_ = some none ∧ h.nexts l.tail_ = some none ∧
      (∀ x ∈ l.head_ :: ps, ∃ y, y ∈ ps ++ [l.tail_] ∧
        h.nexts x = some (some y) ∧ h.prevs y = some (some x)) := by
  obtain ⟨ps, hw, -⟩ := hr.invariant
  refine ⟨ps, hw, hw.nodup, hw.chain.imp (fun a b hl => hl.1), fun fuel hk => ?_,
    hw.head_prev, hw.tail_next, fun x hx => hw.linked_succ hx⟩
  obtain ⟨xs, e, hm, -⟩ := hw.iterate_eq hk
  exact ⟨xs, e, hm⟩

/-- Witness of C18: the list 5, 3, 5 (nodes 2, 3, 4 between the sentinels 0 and
1) is obtained from an empty list and is a well-formed chain. -/
theorem chain_stays_well_formed_witness :
    Reachable true (built [5, 3, 5]).1 (built [5, 3, 5]).2 ∧
    ∃ ps, WF (built [5, 3, 5]).1 (built [5, 3, 5]).2 ps ∧ ps = [2, 3, 4] ∧
      ((built [5, 3, 5]).2.head_ :: (ps ++ [(built [5, 3, 5]).2.tail_])).Nodup := by
  obtain ⟨ps, w, nd, -⟩ :=
    chain_stays_well_formed (built [5, 3, 5]).1 (built [5, 3, 5]).2 (built_535_reachable true)
  exact ⟨built_535_reachable true, ps, w, w.nodes_unique built_535_wf, nd⟩

/-- C19, as stated, fails: in the list 1, 2 reached by 4294967295 searches for
1, node 2 has counter 4294967295; one more `search(1)` keeps node 2 in the list
and leaves its counter at 0, which is less than before. -/
theorem search_decreases_counter :
    ∃ h h1, hotHeap = some h ∧ Reachable true h (built [1, 2]).2 ∧
      WF h (built [1, 2]).2 [2, 3] ∧
      search 2 h (built [1, 2]).2 1 = some (h1, { current := some 2 }) ∧
      WF h1 (built [1, 2]).2 [2, 3] ∧ h1.counter 2 < h.counter 2 := by
  obtain ⟨h, e, w, d2, -, c2, -⟩ := hotHeap_spec
  have hf : firstMatch h [2, 3] 1 = some 2 := by simp [firstMatch, d2]
  obtain ⟨h1, e1, w1, -, c1, -, -⟩ := search_hit w hf (le_refl 2)
  rw [promoted_head] at w1
  refine ⟨h, h1, e, hotHeap_reachable e, w, e1, w1, ?_⟩
  rw [counter_update_self c1, c2]
  decide

/-- C19, amended: on a well-formed list, `insert` and `erase` of a data node
leave the access counter of every node that stays in the list unchanged, and the
node created by `insert` starts at counter 0; `search` keeps the same nodes in
the list, leaves the counter of every node other than the one it returns
unchanged and sets the counter of the returned node to its value plus one
modulo 2^32, so that no counter below `UINT_MAX` decreases. -/
theorem counters_never_decrease_below_max [DecidableEq T] (h : Heap T) (l : LinkedList)
    (ps : List Nat) (hw : WF h l ps) :
    (∀ x : T, ∃ h1 l1, insert h l x = some (h1, l1) ∧ WF h1 l1 (ps ++ [h.fresh]) ∧
      h.fresh ∉ ps ∧ h1.counter h.fresh = 0 ∧ ∀ a ∈ ps, h1.counter a = h.counter a) ∧
    (∀ (v : T) (fuel : Nat), ps.length ≤ fuel →
      ∃ h1 it ps1, search fuel h l v = some (h1, it) ∧ WF h1 l ps1 ∧ List.Perm ps1 ps ∧
        ∀ a ∈ ps, (it.current ≠ some a → h1.counter a = h.counter a) ∧
          (it.current = some a → h1.counter a = (h.counter a + 1) % (UINT_MAX + 1)) ∧
          (h.counter a < UINT_MAX → h.counter a ≤ h1.counter a)) ∧
    (∀ x ∈ ps, ∃ h1 l1 it, erase h l { current := some x } = some (h1, l1, it) ∧
      WF h1 l1 (ps.erase x) ∧ ∀ a ∈ ps.erase x, h1.counter a = h.counter a) := by
  refine ⟨fun x => ?_, fun v fuel hfuel => ?_, fun x hx => ?_⟩
  · obtain ⟨h1, e1, w1, -, c1, -, -⟩ := insert_spec hw x
    refine ⟨h1, _, e1, w1, fun hm => ?_, counter_update_self c1, fun a ha => ?_⟩
    · have := hw.bound h.fresh (by simp [spine, hm]); omega
    · have hne : a ≠ h.fresh := by
        have := hw.bound a (by simp [spine, ha]); omega
      exact counter_update_other c1 hne
  · cases hf : firstMatch h ps v with
    | none =>
      have hv : ∀ a ∈ ps, h.datas a ≠ some v := fun a ha => by
        have := List.find?_eq_none.1 hf a ha
        simpa using this
      refine ⟨h, l.end_, ps, search_absent hw v hv hfuel, hw, List.Perm.refl _, fun a ha => ?_⟩
      refine ⟨fun _ => rfl, fun he => ?_, fun _ => le_refl _⟩
      simp only [end_, Option.some.injEq] at he
      exact absurd he.symm (hw.ne_tail ha)
    | some f =>
      obtain ⟨h1, e1, w1, -, c1, -, -⟩ := search_hit hw hf hfuel
      obtain ⟨pre, post, e, -, -⟩ := firstMatch_split hf
      refine ⟨h1, _, _, e1, w1, promoted_perm _ hw.nodup_nodes e, fun a ha => ?_⟩
      by_cases haf : a = f
      · subst haf
        refine ⟨fun hne => absurd rfl hne, fun _ => counter_update_self c1, fun hlt => ?_⟩
        rw [counter_update_self c1, Nat.mod_eq_of_lt (by omega)]
        omega
      · refine ⟨fun _ => counter_update_other c1 haf, fun he => ?_, fun _ => ?_⟩
        · simp only [Option.some.injEq] at he
          exact absurd he.symm haf
        · rw [counter_update_other c1 haf]
  · obtain ⟨A, B, e⟩ := List.append_of_mem hx
    subst e
    obtain ⟨h1, e1, w1, -, c1, -, -⟩ := erase_spec hw
    have hnd := hw.nodup_nodes
    rw [erase_split hnd rfl]
    refine ⟨h1, _, _, e1, w1, fun a ha => ?_⟩
    have hne : a ≠ x := by
      rintro rfl
      have h2 := List.nodup_middle.1 hnd
      exact (List.nodup_cons.1 h2).1 ha
    exact counter_of_accs (by rw [c1, Function.update_noteq hne])

/-- Witness of C19: on the list 1, 2, 3 (nodes 2, 3, 4, counters 0): `insert(9)`
creates node 5 with counter 0 and keeps the other counters; `search(3)` lowers
no counter; erasing node 3 keeps the counters of nodes 2 and 4. -/
theorem counters_never_decrease_below_max_witness :
    (∃ h1 l1, insert (built [1, 2, 3]).1 (built [1, 2, 3]).2 9 = some (h1, l1) ∧
      h1.counter 5 = 0 ∧ ∀ a ∈ [2, 3, 4], h1.counter a = (built [1, 2, 3]).1.counter a) ∧
    (∃ h1 it, search 3 (built [1, 2, 3]).1 (built [1, 2, 3]).2 3 = some (h1, it) ∧
      ∀ a ∈ [2, 3, 4], (built [1, 2, 3]).1.counter a ≤ h1.counter a) ∧
    (∃ h1 l1 it, erase (built [1, 2, 3]).1 (built [1, 2, 3]).2 { current := some 3 } =
        some (h1, l1, it) ∧
      ∀ a ∈ [2, 3, 4].erase 3, h1.counter a = (built [1, 2, 3]).1.counter a) := by
  obtain ⟨hi, hs, he⟩ :=
    counters_never_decrease_below_max (built [1, 2, 3]).1 (built [1, 2, 3]).2 [2, 3, 4]
      built_123_wf
  refine ⟨?_, ?_, ?_⟩
  · obtain ⟨h1, l1, e1, -, -, c1, c2⟩ := hi 9
    exact ⟨h1, l1, e1, c1, c2⟩
  · obtain ⟨h1, it, ps1, e1, -, -, c1⟩ := hs 3 3 (le_refl 3)
    have hz : ∀ a ∈ [2, 3, 4], (built [1, 2, 3]).1.counter a < UINT_MAX := by decide
    exact ⟨h1, it, e1, fun a ha => (c1 a ha).2.2 (hz a ha)⟩
  · obtain ⟨h1, l1, it, e1, -, c1⟩ := he 3 (by decide)
    exact ⟨h1, l1, it, e1, c1⟩

/-- C20: for a well-formed list `L`, move construction of a new list `M` (a
distinct object) from `L` succeeds; `M` has the nodes of `L`, in order, with
their values and counters, and the size that `L` had; and `L` is left as a
freshly initialised list: it has no data node, `L.empty()` is true, `L.size()`
is 0 and `L.begin()` equals `L.end()`. -/
theorem move_construct_empties_source [Inhabited T] (h : Heap T) (L : LinkedList)
    (psL : List Nat) (thisAddr rhsAddr : Nat) (hwL : WF h L psL)
    (hne : thisAddr ≠ rhsAddr) :
    ∃ h1 M L1, moveConstruct h thisAddr rhsAddr L = some (h1, M, L1) ∧
      WF h1 M psL ∧ M.size = L.size ∧
      (∀ a ∈ psL, h1.datas a = h.datas a ∧ h1.accs a = h.accs a) ∧
      (∀ fuel, psL.length ≤ fuel → toList fuel h1 M = toList fuel h L) ∧
      WF h1 L1 [] ∧ empty h1 L1 = some true ∧ L1.size = 0 ∧ begin h1 L1 = some L1.end_ := by
  obtain ⟨h0, e0, w0, wr, -, -, r0⟩ := hwL.after_init
  have hS : ∀ a ∈ psL, h0.datas a = h.datas a ∧ h0.accs a = h.accs a := fun a ha =>
    (r0 a (hwL.bound a (by simp [spine, ha]))).2.2
  refine ⟨h0, L, _, ?_, wr, rfl, hS, fun fuel hk => ?_, w0, ?_, rfl, ?_⟩
  · simp only [moveConstruct, e0, moveAssign_eq, ne_eq, hne, not_false_eq_true, if_true]
  · obtain ⟨src, e1, e2⟩ := toList_congr hwL wr
      (List.map_congr_left (fun a ha => by rw [(hS a ha).1, (hS a ha).2])) hk
    rw [e1, e2]
  · simp [empty, w0.nexts_head]
  · rw [w0.begin_eq]; rfl

/-- Witness of C20: move construction from the list 3, 1, 2 with counters
2, 0, 0 gives a list yielding (3,2), (1,0), (2,0) and leaves the source with
size 0. -/
theorem move_construct_empties_source_witness :
    WF searchedHeap (built [1, 2, 3]).2 [4, 2, 3] ∧
    ∃ h1 M L1, moveConstruct searchedHeap 100 200 (built [1, 2, 3]).2 = some (h1, M, L1) ∧
      toList 3 h1 M = some [(3, 2), (1, 0), (2, 0)] ∧ M.size = 3 ∧
      empty h1 L1 = some true ∧ L1.size = 0 ∧ begin h1 L1 = some L1.end_ ∧
      toList 3 h1 L1 = some [] := by
  refine ⟨searchedHeap_wf, ?_⟩
  obtain ⟨h1, M, L1, e, -, s, -, t, w, em, s0, b⟩ :=
    move_construct_empties_source searchedHeap (built [1, 2, 3]).2 [4, 2, 3] 100 200
      searchedHeap_wf (by decide)
  obtain ⟨ys, ey, hy⟩ := w.toList_spec (Nat.zero_le 3)
  refine ⟨h1, M, L1, e, ?_, ?_, em, s0, b, ?_⟩
  · rw [t 3 (by decide)]; decide
  · rw [s]; decide
  · rw [ey]
    simp only [List.map_nil, List.map_eq_nil_iff] at hy
    rw [hy]

end LinkedList
